import Mathlib

/-!
# Heistogram: a shallow embedding of `src/heistogram.h`

The C header is embedded function by function.  Machine integers are natural
numbers reduced modulo `2^8`, `2^16` or `2^64` wherever the C type truncates.
Byte buffers are lists of bytes (`List Nat`), a pointer into a buffer is the
list of the bytes from that position on.  Reading or writing outside the
modelled memory is undefined behaviour in C and is the result
`Except.error Fault.oob` here; a `NULL` / `0` failure return of the C code is
`Except.error Fault.null`.  Allocation is assumed to succeed.
-/

namespace Heist

/-! ## Results of fallible code -/

/-- The two ways an operation can fail to produce a value. -/
inductive Fault where
  /-- The C function took one of its `return NULL` / `return 0` exits. -/
  | null
  /-- The C function accessed memory outside the accessible region. -/
  | oob
  deriving DecidableEq, Repr

deriving instance DecidableEq for Except

/-! ## Machine integer widths -/

/-- Number of values of a `uint8_t`. -/
def U8 : Nat := 256

/-- Number of values of a `uint16_t`. -/
def U16 : Nat := 65536

/-- Number of values of a `uint32_t`. -/
def U32 : Nat := 4294967296

/-- Number of values of a `uint64_t`. -/
def U64 : Nat := 18446744073709551616

/-- Conversion of an `int` in the range of `uint16_t` to `int16_t`
(two's complement wrap). -/
def toInt16 (n : Nat) : Int :=
  if n % U16 < 32768 then ((n % U16 : Nat) : Int) else ((n % U16 : Nat) : Int) - 65536

/-! ## Varint helper methods -/

/-- The payload loop of `encode_varint`:
`for (i = bytes; i > 0; i--) { buf[i] = val & 0xFF; val >>= 8; }`.
The result lists `buf[1] .. buf[bytes]`. -/
def encode_payload : Nat → Nat → List Nat
  | 0, _ => []
  | n + 1, val => encode_payload n (val >>> 8) ++ [val &&& 0xFF]

/-- The size selection of `encode_varint` for values above 67823. -/
def payload_bytes (val : Nat) : Nat :=
  if val ≤ 0xFFFFFF then 3
  else if val ≤ 0xFFFFFFFF then 4
  else if val ≤ 0xFFFFFFFFFF then 5
  else if val ≤ 0xFFFFFFFFFFFF then 6
  else if val ≤ 0xFFFFFFFFFFFFFF then 7
  else 8

/-- Embedding of `encode_varint`: the bytes written to `buf`; the C return
value is the length of this list. -/
def encode_varint (val : Nat) : List Nat :=
  if val ≤ 240 then [val % U8]
  else if val ≤ 2287 then
    [(((val - 240) >>> 8) + 241) % U8, (val - 240) &&& 0xFF]
  else if val ≤ 67823 then
    [249, ((val - 2288) >>> 8) % U8, (val - 2288) &&& 0xFF]
  else
    ((249 + payload_bytes val) % U8) :: encode_payload (payload_bytes val) val

/-- The payload loop of `decode_varint`:
`for (i = 1; i <= bytes; i++) result = (result << 8) | buf[i];`
run over the bytes that follow `buf[0]`. -/
def decode_payload : List Nat → Nat → Nat → Except Fault Nat
  | _, 0, result => .ok result
  | [], _ + 1, _ => .error .oob
  | b :: rest, n + 1, result => decode_payload rest n (((result <<< 8) % U64) ||| b)

/-- Embedding of `decode_varint`: the decoded value and the number of bytes
read. -/
def decode_varint : List Nat → Except Fault (Nat × Nat)
  | [] => .error .oob
  | a0 :: rest =>
    if a0 ≤ 240 then .ok (a0, 1)
    else if a0 ≤ 248 then
      match rest with
      | b1 :: _ => .ok (240 + 256 * (a0 - 241) + b1, 2)
      | [] => .error .oob
    else if a0 = 249 then
      match rest with
      | b1 :: b2 :: _ => .ok (2288 + 256 * b1 + b2, 3)
      | _ => .error .oob
    else
      match decode_payload rest (a0 - 249) 0 with
      | .ok result => .ok (result, (a0 - 249) + 1)
      | .error e => .error e


/-- Embedding of `encode_bucket`.  Its parameter is a `uint32_t`, so the
64-bit bucket count passed by `heistogram_serialize` is truncated first. -/
def encode_bucket (count : Nat) : List Nat :=
  encode_varint (count % U32)

/-- Embedding of `decode_bucket`: the count and the number of bytes read. -/
def decode_bucket (buffer : List Nat) : Except Fault (Nat × Nat) :=
  match decode_varint buffer with
  | .ok (temp, bytes_read) =>
    if bytes_read = 0 then .error .null else .ok (temp, bytes_read)
  | .error e => .error e

/-- The fields `decode_header` stores through its pointer arguments, and its
return value `bytes_read`. -/
structure Header where
  bucket_count : Nat
  total_count : Nat
  min : Nat
  max : Nat
  min_bucket_id : Nat
  bytes_read : Nat
  deriving DecidableEq, Repr

/-- One `decode_varint` step of `decode_header`; a zero byte count is the
`return 0` exit. -/
def decode_field (ptr : List Nat) : Except Fault (Nat × Nat) :=
  match decode_varint ptr with
  | .ok (temp, bytes_read) =>
    if bytes_read = 0 then .error .null else .ok (temp, bytes_read)
  | .error e => .error e

/-- Embedding of `decode_header`; the return value `ptr - buffer` is the sum
of the five byte counts. -/
def decode_header (buffer : List Nat) : Except Fault Header :=
  match decode_field buffer with
  | .error e => .error e
  | .ok (t1, n1) =>
    match decode_field (buffer.drop n1) with
    | .error e => .error e
    | .ok (t2, n2) =>
      match decode_field ((buffer.drop n1).drop n2) with
      | .error e => .error e
      | .ok (t3, n3) =>
        match decode_field (((buffer.drop n1).drop n2).drop n3) with
        | .error e => .error e
        | .ok (t4, n4) =>
          match decode_field ((((buffer.drop n1).drop n2).drop n3).drop n4) with
          | .error e => .error e
          | .ok (t5, n5) =>
            .ok { bucket_count := t1 % U16
                  total_count := t2
                  min := t3
                  max := (t4 + t3) % U64
                  min_bucket_id := t5 % U16
                  bytes_read := n1 + n2 + n3 + n4 + n5 }

/-! ## Floating-point dependent parts -/

/-- The values of the floating-point expressions of the bucket mapper.  The
header computes them with `log2`, `ceil` and `float`/`double` arithmetic; they
enter the embedding as functions on the integers they are applied to. -/
structure Env where
  /-- The term `(int16_t)((float)log2(value) * HEIST_INV_LOG_GROWTH_FACTOR)` of
  `get_bucket_id`. -/
  log_scaled : Nat → Nat
  /-- The term `(uint64_t)ceil(fast_pow_int(1 + HEIST_GROWTH_FACTOR, n))` of
  `get_bucket_min`. -/
  pow_ceil : Nat → Nat
  /-- The term `(uint64_t)(min * HEIST_GROWTH_FACTOR)` of `get_bucket_max`. -/
  growth : Nat → Nat
  /-- Above the identity region the scaled logarithm is at least
  `log2(58) * 35.00278878 = 205.05..`. -/
  log_scaled_ge : ∀ v, 57 < v → 205 ≤ log_scaled v
  /-- The scaled logarithm of a 64-bit value is at most
  `64 * 35.00278878 = 2240.17..`. -/
  log_scaled_le : ∀ v, log_scaled v ≤ 2240
  /-- The result of `get_bucket_min` is a `uint64_t`. -/
  pow_ceil_lt : ∀ n, pow_ceil n < U64
  /-- The first summand of `get_bucket_max` is a `uint64_t`. -/
  growth_lt : ∀ m, growth m < U64

/-- The largest `n` up to the bound with `1.02 ^ n ≤ v`, by downward search. -/
def log_search (v : Nat) : Nat → Nat
  | 0 => 0
  | n + 1 => if 51 ^ (n + 1) ≤ v * 50 ^ (n + 1) then n + 1 else log_search v n

/-- The floating-point dependent parts computed in exact arithmetic:
`floor(log(v) / log(1.02))` for the scaled logarithm (the constant
`35.00278878` is `1 / log2(1.02)`), `ceil(1.02 ^ n)` and `floor(min / 50)`. -/
def exactEnv : Env where
  log_scaled v := Nat.max 205 (Nat.min 2240 (log_search v 2240))
  pow_ceil n := ((51 ^ n + 50 ^ n - 1) / 50 ^ n) % U64
  growth m := (m / 50) % U64
  log_scaled_ge _ _ := Nat.le_max_left _ _
  log_scaled_le _ := Nat.max_le.mpr ⟨by decide, Nat.min_le_left _ _⟩
  pow_ceil_lt _ := Nat.mod_lt _ (by decide)
  growth_lt _ := Nat.mod_lt _ (by decide)

/-- The constant `HEIST_MAX_UNMAPPED_BUCKET`. -/
def HEIST_MAX_UNMAPPED_BUCKET : Nat := 57

/-- The constant `HEIST_BUCKET_MAPPING_DELTA`. -/
def HEIST_BUCKET_MAPPING_DELTA : Nat := 147

/-- Embedding of `get_bucket_id` on an integer value.  By `Env.log_scaled_ge`
and `Env.log_scaled_le` the result lies in `0 .. 2093`, so the `int16_t`
return type does not wrap. -/
def get_bucket_id (E : Env) (value : Nat) : Nat :=
  if value ≤ HEIST_MAX_UNMAPPED_BUCKET then value
  else E.log_scaled value - HEIST_BUCKET_MAPPING_DELTA

/-- Embedding of `get_bucket_min`. -/
def get_bucket_min (E : Env) (bid : Nat) : Nat :=
  if bid ≤ HEIST_MAX_UNMAPPED_BUCKET then bid
  else E.pow_ceil (bid + HEIST_BUCKET_MAPPING_DELTA)

/-- Embedding of `get_bucket_max`; the parameter is a `uint32_t`. -/
def get_bucket_max (E : Env) (min : Nat) : Nat :=
  if min % U32 ≤ HEIST_MAX_UNMAPPED_BUCKET then min % U32
  else (E.growth (min % U32) + min % U32) % U64

/-! ## The histogram -/

/-- The `Heistogram` struct.  `buckets` is the allocated counter array, its
length is the allocated number of `Bucket`s. -/
structure Heistogram where
  capacity : Nat
  min_bucket_id : Nat
  total_count : Nat
  min : Nat
  max : Nat
  buckets : List Nat
  deriving DecidableEq, Repr

/-- Read of `buckets[i].count`. -/
def read_bucket (buckets : List Nat) (i : Nat) : Except Fault Nat :=
  match buckets.get? i with
  | some c => .ok c
  | none => .error .oob

/-- Write of `buckets[i].count`. -/
def write_bucket (buckets : List Nat) (i : Nat) (c : Nat) : Except Fault (List Nat) :=
  if i < buckets.length then .ok (buckets.set i c) else .error .oob

/-- The idiom `realloc(buckets, n * sizeof(Bucket))` followed by
`memset(new_buckets + capacity, 0, (n - capacity) * sizeof(Bucket))`:
the first `capacity` counters are kept, the counters from `capacity` up to `n`
are zero.  A negative `memset` length, or kept counters that were never
allocated, are out-of-bounds accesses. -/
def grow_buckets (buckets : List Nat) (capacity n : Nat) : Except Fault (List Nat) :=
  if capacity ≤ n ∧ capacity ≤ buckets.length then
    .ok (buckets.take capacity ++ List.replicate (n - capacity) 0)
  else .error .oob

/-- Embedding of `heistogram_create`. -/
def heistogram_create : Heistogram :=
  { capacity := 16, min_bucket_id := 0, total_count := 0, min := 0, max := 0,
    buckets := List.replicate 16 0 }

/-- Embedding of `heistogram_count` on a non-null handle. -/
def heistogram_count (h : Heistogram) : Nat := h.total_count

/-- Embedding of `heistogram_max` on a non-null handle. -/
def heistogram_max (h : Heistogram) : Nat := h.max

/-- Embedding of `heistogram_min` on a non-null handle. -/
def heistogram_min (h : Heistogram) : Nat := h.min

/-- The count the histogram holds for bucket id `i`: `buckets[i].count` for an
id below the capacity, zero for an id at or beyond it. -/
def bucket_count (h : Heistogram) (i : Nat) : Nat :=
  if i < h.capacity then h.buckets.getD i 0 else 0

/-- The metadata update at the head of `heistogram_add`. -/
def add_metadata (h : Heistogram) (value bid : Nat) : Heistogram :=
  if h.total_count = 0 then
    { h with min := value, max := value, min_bucket_id := bid }
  else
    { h with
      min := if h.min > value then value else h.min
      max := if h.max < value then value else h.max
      min_bucket_id := if bid < h.min_bucket_id then bid else h.min_bucket_id }

/-- The `Expand array if needed` block of `heistogram_add`. -/
def add_expand (h : Heistogram) (bid : Nat) : Except Fault Heistogram :=
  if bid ≥ h.capacity then
    match grow_buckets h.buckets h.capacity (bid + 16) with
    | .ok new_buckets => .ok { h with buckets := new_buckets, capacity := (bid + 16) % U16 }
    | .error e => .error e
  else .ok h

/-- Embedding of `heistogram_add` on a non-null handle. -/
def heistogram_add (E : Env) (h : Heistogram) (value : Nat) : Except Fault Heistogram := do
  let bid := get_bucket_id E value
  let h1 := add_metadata h value bid
  let h2 ← add_expand h1 bid
  let c ← read_bucket h2.buckets bid
  let new_buckets ← write_bucket h2.buckets bid ((c + 1) % U64)
  pure { h2 with buckets := new_buckets, total_count := (h2.total_count + 1) % U64 }

/-- The histogram obtained from `heistogram_create` by inserting the values of
`xs` in order with `heistogram_add`. -/
def build (E : Env) (xs : List Nat) : Except Fault Heistogram :=
  xs.foldlM (heistogram_add E) heistogram_create

/-- The loop `for (i = 0; i < n; i++) dst[i].count += src[i].count;`. -/
def add_counts (dst src : List Nat) : Nat → Except Fault (List Nat)
  | 0 => .ok dst
  | n + 1 => do
    let d ← add_counts dst src n
    let s ← read_bucket src n
    let c ← read_bucket d n
    write_bucket d n ((c + s) % U64)

/-- The `Resize result to accommodate all buckets` block shared by the merges
that build a fresh result. -/
def resize_result (result : Heistogram) (new_capacity : Nat) : Except Fault Heistogram :=
  if new_capacity > result.capacity then
    match grow_buckets result.buckets result.capacity new_capacity with
    | .ok new_buckets => .ok { result with buckets := new_buckets, capacity := new_capacity }
    | .error e => .error e
  else .ok result

/-- Embedding of `heistogram_merge` on non-null handles. -/
def heistogram_merge (h1 h2 : Heistogram) : Except Fault Heistogram := do
  let max_capacity := if h1.capacity > h2.capacity then h1.capacity else h2.capacity
  let result ← resize_result heistogram_create max_capacity
  let b1 ← add_counts result.buckets h1.buckets h1.capacity
  let b2 ← add_counts b1 h2.buckets h2.capacity
  pure { result with
    buckets := b2
    total_count := (h1.total_count + h2.total_count) % U64
    min := if h1.min < h2.min then h1.min else h2.min
    max := if h1.max > h2.max then h1.max else h2.max
    min_bucket_id := if h1.min_bucket_id < h2.min_bucket_id then h1.min_bucket_id
                     else h2.min_bucket_id }

/-- Embedding of `heistogram_merge_inplace` on non-null handles: the new state
of `h1`; the C return value is 1 exactly when a state is returned. -/
def heistogram_merge_inplace (h1 h2 : Heistogram) : Except Fault Heistogram := do
  let h ← resize_result h1 h2.capacity
  let b ← add_counts h.buckets h2.buckets h2.capacity
  pure { h with
    buckets := b
    total_count := (h.total_count + h2.total_count) % U64
    min := if h2.min < h.min then h2.min else h.min
    max := if h2.max > h.max then h2.max else h.max
    min_bucket_id := if h2.min_bucket_id < h.min_bucket_id then h2.min_bucket_id
                     else h.min_bucket_id }



/-! ## Serialization -/

/-- The loop of `heistogram_serialize` that finds the highest used bucket:
`while (max_bucket_id >= 0 && buckets[max_bucket_id].count == 0) max_bucket_id--;`
started at `max_bucket_id = k - 1`.  The result is the final
`max_bucket_id + 1`. -/
def scan_top (buckets : List Nat) : Nat → Except Fault Nat
  | 0 => .ok 0
  | k + 1 =>
    match read_bucket buckets k with
    | .ok c => if c = 0 then scan_top buckets k else .ok (k + 1)
    | .error e => .error e

/-- The value of `max_bucket_id` after the search loop of
`heistogram_serialize`.  It starts at `(int16_t)(capacity - 1)`, which is
negative for a capacity of zero or above 32768. -/
def serialize_top (h : Heistogram) : Except Fault Int :=
  let start := toInt16 (h.capacity + (U16 - 1))
  if start < 0 then .ok start
  else
    match scan_top h.buckets (start.toNat + 1) with
    | .ok k => .ok ((k : Int) - 1)
    | .error e => .error e

/-- The loop `for (i = lo + n - 1; i >= lo; i--) ptr += encode_bucket(buckets[i].count, ptr);`
of `heistogram_serialize`: the bytes written. -/
def encode_buckets (buckets : List Nat) (lo : Nat) : Nat → Except Fault (List Nat)
  | 0 => .ok []
  | n + 1 =>
    match read_bucket buckets (lo + n) with
    | .ok c =>
      match encode_buckets buckets lo n with
      | .ok rest => .ok (encode_bucket c ++ rest)
      | .error e => .error e
    | .error e => .error e

/-- Embedding of `heistogram_serialize` on a non-null handle: the bytes of the
returned buffer; `*size` is the length of the list.  The first varint is the
`int` expression `max_bucket_id - min_bucket_id + 1` converted to `uint64_t`. -/
def heistogram_serialize (h : Heistogram) : Except Fault (List Nat) := do
  let max_bucket_id ← serialize_top h
  let span : Int := max_bucket_id - (h.min_bucket_id : Int) + 1
  let run ← encode_buckets h.buckets h.min_bucket_id span.toNat
  pure (encode_varint (span % (U64 : Int)).toNat
    ++ encode_varint h.total_count
    ++ encode_varint h.min
    ++ encode_varint ((h.max + (U64 - h.min % U64)) % U64)
    ++ encode_varint h.min_bucket_id
    ++ run)

/-- The bucket loops over serialized data,
`for (i = lo + n - 1; i >= lo; i--) { decode_bucket(ptr, &count); ptr += bytes_read; buckets[i].count = f(buckets[i].count, count); }`,
where `f` is plain assignment in `heistogram_deserialize` and addition in the
merges. -/
def decode_buckets (f : Nat → Nat → Nat) (lo : Nat) :
    Nat → List Nat → List Nat → Except Fault (List Nat)
  | 0, _, buckets => .ok buckets
  | n + 1, ptr, buckets =>
    match decode_bucket ptr with
    | .ok (count, bytes_read) =>
      match read_bucket buckets (lo + n) with
      | .ok old =>
        match write_bucket buckets (lo + n) (f old count) with
        | .ok new_buckets => decode_buckets f lo n (ptr.drop bytes_read) new_buckets
        | .error e => .error e
      | .error e => .error e
    | .error e => .error e

/-- The number of iterations of `for (int16_t i = max_bucket_id; i >= min_bucket_id; i--)`
for `uint16_t` bounds. -/
def run_length (max_bucket_id min_bucket_id : Nat) : Nat :=
  (toInt16 max_bucket_id - (min_bucket_id : Int) + 1).toNat

/-- The loop `for (i = 0; i < n; i++) buckets[i].count = 0;`. -/
def clear_counts (buckets : List Nat) : Nat → Except Fault (List Nat)
  | 0 => .ok buckets
  | n + 1 =>
    match clear_counts buckets n with
    | .ok b => write_bucket b n 0
    | .error e => .error e

/-- The `Ensure we have enough capacity` block of `heistogram_deserialize`.
The array is reallocated to the `int` value `max_bucket_id + 1`; the value
stored in the `uint16_t` field `capacity` is truncated. -/
def ensure_capacity (h : Heistogram) (max_bucket_id : Nat) : Except Fault Heistogram :=
  if max_bucket_id ≥ h.capacity then
    match grow_buckets h.buckets h.capacity (max_bucket_id + 1) with
    | .ok new_buckets =>
      .ok { h with buckets := new_buckets, capacity := (max_bucket_id + 1) % U16 }
    | .error e => .error e
  else .ok h

/-- Embedding of `heistogram_deserialize` on a non-null buffer.  `size` is not
inspected by the C code. -/
def heistogram_deserialize (buffer : List Nat) (_size : Nat) : Except Fault Heistogram := do
  let hd ← decode_header buffer
  if hd.bytes_read = 0 then .error .null
  else
    let ptr := buffer.drop hd.bytes_read
    let max_bucket_id := (hd.min_bucket_id + hd.bucket_count + (U16 - 1)) % U16
    let h ← ensure_capacity heistogram_create max_bucket_id
    let b ← decode_buckets (fun _ count => count) hd.min_bucket_id
      (run_length max_bucket_id hd.min_bucket_id) ptr h.buckets
    let b ← clear_counts b (Nat.min hd.min_bucket_id 16)
    pure { h with total_count := hd.total_count, min := hd.min, max := hd.max, buckets := b }


/-! ## Functions operating on serialized data -/

/-- The accumulation `buckets[i].count += count` of the serialized merges. -/
def add_count (old count : Nat) : Nat := (old + count) % U64

/-- The `uint16_t max_bucket_id = min_bucket_id + bucket_count - 1` of the
functions that read a header. -/
def header_top (hd : Header) : Nat :=
  (hd.min_bucket_id + hd.bucket_count + (U16 - 1)) % U16

/-- Embedding of `heistogram_merge_serialized` on a non-null handle and
buffer. -/
def heistogram_merge_serialized (h : Heistogram) (buffer : List Nat) (size : Nat) :
    Except Fault Heistogram := do
  if size < 3 then .error .null
  else
    let hd ← decode_header buffer
    if hd.bytes_read = 0 then .error .null
    else
      let ptr := buffer.drop hd.bytes_read
      let max_bucket_id := header_top hd
      let new_capacity :=
        (if h.capacity > max_bucket_id + 1 then h.capacity else max_bucket_id + 1) % U16
      let result ← resize_result heistogram_create new_capacity
      let b1 ← add_counts result.buckets h.buckets h.capacity
      let b2 ← decode_buckets add_count hd.min_bucket_id
        (run_length max_bucket_id hd.min_bucket_id) ptr b1
      pure { result with
        buckets := b2
        total_count := (h.total_count + hd.total_count) % U64
        min := if h.min < hd.min then h.min else hd.min
        max := if h.max > hd.max then h.max else hd.max
        min_bucket_id := if h.min_bucket_id < hd.min_bucket_id then h.min_bucket_id
                         else hd.min_bucket_id }

/-- Embedding of `heistogram_merge_two_serialized` on non-null buffers. -/
def heistogram_merge_two_serialized (buffer1 : List Nat) (size1 : Nat)
    (buffer2 : List Nat) (size2 : Nat) : Except Fault Heistogram := do
  if size1 < 3 ∨ size2 < 3 then .error .null
  else
    let hd1 ← decode_header buffer1
    if hd1.bytes_read = 0 then .error .null
    else
      let ptr1 := buffer1.drop hd1.bytes_read
      let max_bucket_id1 := header_top hd1
      let hd2 ← decode_header buffer2
      if hd2.bytes_read = 0 then .error .null
      else
        let ptr2 := buffer2.drop hd2.bytes_read
        let max_bucket_id2 := header_top hd2
        let max_bucket_id :=
          if max_bucket_id1 > max_bucket_id2 then max_bucket_id1 else max_bucket_id2
        let min_bucket_id :=
          if hd1.min_bucket_id < hd2.min_bucket_id then hd1.min_bucket_id
          else hd2.min_bucket_id
        let new_capacity := (max_bucket_id + 1) % U16
        let result ← resize_result heistogram_create new_capacity
        let b1 ← decode_buckets add_count hd1.min_bucket_id
          (run_length max_bucket_id1 hd1.min_bucket_id) ptr1 result.buckets
        let b2 ← decode_buckets add_count hd2.min_bucket_id
          (run_length max_bucket_id2 hd2.min_bucket_id) ptr2 b1
        pure { result with
          buckets := b2
          total_count := (hd1.total_count + hd2.total_count) % U64
          min := if hd1.min < hd2.min then hd1.min else hd2.min
          max := if hd1.max > hd2.max then hd1.max else hd2.max
          min_bucket_id := min_bucket_id }

/-- The expansion block of `heistogram_merge_inplace_serialized`; here the new
size is the `uint16_t new_capacity = max_bucket_id + 1`. -/
def expand_inplace (h : Heistogram) (max_bucket_id : Nat) : Except Fault Heistogram :=
  if max_bucket_id ≥ h.capacity then
    match grow_buckets h.buckets h.capacity ((max_bucket_id + 1) % U16) with
    | .ok new_buckets =>
      .ok { h with buckets := new_buckets, capacity := (max_bucket_id + 1) % U16 }
    | .error e => .error e
  else .ok h

/-- Embedding of `heistogram_merge_inplace_serialized` on a non-null handle and
buffer: the new state of `h`; the C return value is 1 exactly when a state is
returned. -/
def heistogram_merge_inplace_serialized (h : Heistogram) (buffer : List Nat) (size : Nat) :
    Except Fault Heistogram := do
  if size < 3 then .error .null
  else
    let hd ← decode_header buffer
    if hd.bytes_read = 0 then .error .null
    else
      let ptr := buffer.drop hd.bytes_read
      let max_bucket_id := header_top hd
      let h1 ← expand_inplace h max_bucket_id
      let b ← decode_buckets add_count hd.min_bucket_id
        (run_length max_bucket_id hd.min_bucket_id) ptr h1.buckets
      pure { h1 with
        buckets := b
        total_count := (h1.total_count + hd.total_count) % U64
        min := if hd.min < h1.min then hd.min else h1.min
        max := if hd.max > h1.max then hd.max else h1.max
        min_bucket_id := if hd.min_bucket_id < h1.min_bucket_id then hd.min_bucket_id
                         else h1.min_bucket_id }

/-! ## Percentiles -/

/-- The `double` operations the percentile code uses.  The embedding is
generic in them, so whatever is proved for all `FloatOps` holds for IEEE
arithmetic with any rounding. -/
structure FloatOps (D : Type) where
  /-- Conversion of a `uint64_t` to `double`. -/
  of_u64 : Nat → D
  /-- The operator `-`. -/
  sub : D → D → D
  /-- The operator `*`. -/
  mul : D → D → D
  /-- The operator `/`. -/
  div : D → D → D
  /-- The comparison `<`. -/
  lt : D → D → Bool
  /-- The comparison `>=`. -/
  ge : D → D → Bool

/-- Exact rational arithmetic as an instance of the `double` operations. -/
def exactOps : FloatOps ℚ where
  of_u64 n := (n : ℚ)
  sub a b := a - b
  mul a b := a * b
  div a b := a / b
  lt a b := decide (a < b)
  ge a b := decide (b ≤ a)

/-- The `double target = ((100.0 - p) / 100.0) * total_count`. -/
def percentile_target {D : Type} (F : FloatOps D) (p : D) (total_count : Nat) : D :=
  F.mul (F.div (F.sub (F.of_u64 100) p) (F.of_u64 100)) (F.of_u64 total_count)

/-- The estimate returned from inside the bucket loop of `heistogram_percentile`
and `heistogram_percentile_serialized` for bucket `i` holding `count`:
`pos`, the clamped bucket bounds, and `max_val - pos * (max_val - min_val)`
with the subtraction of the bounds done in `uint64_t`. -/
def interpolate {D : Type} (F : FloatOps D) (E : Env) (target : D)
    (cumsum count i min max : Nat) : D :=
  let pos := F.div (F.sub target (F.of_u64 cumsum)) (F.of_u64 count)
  let min_val := get_bucket_min E i
  let max_val := get_bucket_max E min_val
  let max_val := if max_val > max then max else max_val
  let min_val := if min_val < min then min else min_val
  F.sub (F.of_u64 max_val) (F.mul pos (F.of_u64 ((max_val + (U64 - min_val % U64)) % U64)))

/-- The bucket loop `for (int16_t i = k - 1; i >= 0; i--)` of
`heistogram_percentile`, with the `return h->min` that follows it. -/
def percentile_scan {D : Type} (F : FloatOps D) (E : Env) (h : Heistogram) (target : D) :
    Nat → Nat → Except Fault D
  | 0, _ => .ok (F.of_u64 h.min)
  | k + 1, cumsum =>
    match read_bucket h.buckets k with
    | .ok c =>
      if c > 0 then
        if F.ge (F.of_u64 ((cumsum + c) % U64)) target then
          .ok (interpolate F E target cumsum c k h.min h.max)
        else percentile_scan F E h target k ((cumsum + c) % U64)
      else percentile_scan F E h target k cumsum
    | .error e => .error e

/-- Embedding of `heistogram_percentile` on a non-null handle. -/
def heistogram_percentile {D : Type} (F : FloatOps D) (E : Env) (h : Heistogram) (p : D) :
    Except Fault D :=
  if F.lt p (F.of_u64 0) || F.lt (F.of_u64 100) p then .ok (F.of_u64 0)
  else
    let start := toInt16 (h.capacity + (U16 - 1))
    percentile_scan F E h (percentile_target F p h.total_count)
      (if start < 0 then 0 else start.toNat + 1) 0

/-- The bucket loop `for (i = lo + n - 1; i >= lo; i--)` of
`heistogram_percentile_serialized`, with the `return min` that follows it. -/
def percentile_scan_serialized {D : Type} (F : FloatOps D) (E : Env) (min max : Nat)
    (target : D) (lo : Nat) : Nat → List Nat → Nat → Except Fault D
  | 0, _, _ => .ok (F.of_u64 min)
  | n + 1, ptr, cumsum =>
    match decode_bucket ptr with
    | .ok (count, bytes_read) =>
      if count > 0 ∧ F.ge (F.of_u64 ((cumsum + count) % U64)) target = true then
        .ok (interpolate F E target cumsum count (lo + n) min max)
      else
        percentile_scan_serialized F E min max target lo n (ptr.drop bytes_read)
          ((cumsum + count) % U64)
    | .error e => .error e

/-- Embedding of `heistogram_percentile_serialized` on a non-null buffer.  A
size below 3 and a failed header give the `return 0` exits, whose value is
`0.0`. -/
def heistogram_percentile_serialized {D : Type} (F : FloatOps D) (E : Env)
    (buffer : List Nat) (size : Nat) (p : D) : Except Fault D :=
  if size < 3 then .ok (F.of_u64 0)
  else
    match decode_header buffer with
    | .error .null => .ok (F.of_u64 0)
    | .error .oob => .error .oob
    | .ok hd =>
      if hd.bytes_read = 0 then .ok (F.of_u64 0)
      else
        percentile_scan_serialized F E hd.min hd.max
          (percentile_target F p hd.total_count) hd.min_bucket_id
          (run_length (header_top hd) hd.min_bucket_id) (buffer.drop hd.bytes_read) 0


/-! ## Histograms built by insertion -/

/-- What a histogram holds after the values `xs` were inserted into a fresh
one: the state of the counter array and the summary fields in terms of `xs`. -/
structure BuiltFrom (E : Env) (xs : List Nat) (h : Heistogram) : Prop where
  length_eq : h.buckets.length = h.capacity
  cap_ge : 16 ≤ h.capacity
  cap_le : h.capacity ≤ 2109
  total : h.total_count = xs.length
  counts : ∀ i, h.buckets.getD i 0 = (xs.map (get_bucket_id E)).count i
  bid_lt : ∀ x ∈ xs, get_bucket_id E x < h.capacity
  empty : xs = [] → h.min = 0 ∧ h.max = 0 ∧ h.min_bucket_id = 0
  min_le : ∀ x ∈ xs, h.min ≤ x
  min_mem : xs ≠ [] → h.min ∈ xs
  max_ge : ∀ x ∈ xs, x ≤ h.max
  max_mem : xs ≠ [] → h.max ∈ xs
  mbid_le : ∀ x ∈ xs, h.min_bucket_id ≤ get_bucket_id E x
  mbid_mem : xs ≠ [] → ∃ x ∈ xs, h.min_bucket_id = get_bucket_id E x

/-- A histogram value of the C type: the counter array holds at least
`capacity` counters and every counter is a `uint64_t`. -/
structure WellFormed (h : Heistogram) : Prop where
  cap_le : h.capacity ≤ h.buckets.length
  counts_lt : ∀ c ∈ h.buckets, c < U64

/-- The histogram that holds the value 5 exactly `2^63` times (the state
reached from a single insertion of 5 by merging the histogram with itself 63
times). -/
def half_full : Heistogram :=
  { capacity := 16, min_bucket_id := 5, total_count := 2 ^ 63, min := 5, max := 5,
    buckets := [0, 0, 0, 0, 0, 2 ^ 63, 0, 0, 0, 0, 0, 0, 0, 0, 0, 0] }

/-- The dense run of the wire format: the encoded counts of the `n` buckets
`lo + n - 1` down to `lo`, each truncated to 32 bits by `encode_bucket`. -/
def bucket_run (buckets : List Nat) (lo : Nat) : Nat → List Nat
  | 0 => []
  | n + 1 => encode_bucket (buckets.getD (lo + n) 0) ++ bucket_run buckets lo n

/-- The value `2^48`, the least value whose varint needs seven payload bytes. -/
def two_pow_48 : Nat := 281474976710656

/-- The state of a histogram after `k` insertions of the value 0. -/
def zeros_state (k : Nat) : Heistogram :=
  { capacity := 16, min_bucket_id := 0, total_count := k % U64, min := 0, max := 0,
    buckets := (k % U64) :: List.replicate 15 0 }

/-- Embedding of `heistogram_percentile` with the handle as the C function
receives it: `none` is the null pointer, for which the guard
`if (!h || p < 0 || p > 100) return 0;` returns before `p` is looked at. -/
def heistogram_percentile_handle {D : Type} (F : FloatOps D) (E : Env)
    (h : Option Heistogram) (p : D) : Except Fault D :=
  match h with
  | none => .ok (F.of_u64 0)
  | some hist => heistogram_percentile F E hist p

/-- The value `2^32`, the least bucket count that does not fit the `uint32_t`
parameter of `encode_bucket`. -/
def two_pow_32 : Nat := 4294967296

/-- The value `2^56`, the least value whose varint needs eight payload bytes. -/
def two_pow_56 : Nat := 72057594037927936

/-! ## IEEE 754 binary64 arithmetic

The C type `double` on the finite values the percentile code works with: a
value is a sign, a 53-bit mantissa and a binary exponent, and every operation
rounds its exact result to the nearest such value, ties to the even mantissa.
The exponent is not bounded (no overflow to infinity, no subnormals), there is
no NaN and no negative zero; none of them is reached from integer inputs. -/

/-- A finite `double`: the value `(-1)^neg * mant * 2^exp`, with
`2^52 ≤ mant < 2^53`, or zero as `⟨false, 0, 0⟩`. -/
structure Dbl where
  neg : Bool
  mant : Nat
  exp : Int
  deriving DecidableEq, Repr

/-- The integer nearest to `n / d`, a tie going to the even one. -/
def round_half_even (n d : Nat) : Nat :=
  if 2 * (n % d) < d then n / d
  else if d < 2 * (n % d) then n / d + 1
  else if (n / d) % 2 = 0 then n / d else n / d + 1

/-- The number of times `n` can be halved before it drops below 2. -/
def halvings : Nat → Nat → Nat
  | 0, _ => 0
  | fuel + 1, n => if n < 2 then 0 else halvings fuel (n / 2) + 1

/-- The integer part of `log2 n` for a positive `n`. -/
def floor_log2 (n : Nat) : Nat := halvings n n

/-- The integer part of `log2 (n / d)` for positive `n` and `d`. -/
def floor_log2_ratio (n d : Nat) : Int :=
  let l : Int := (floor_log2 n : Int) - (floor_log2 d : Int)
  if (if 0 ≤ l then d * 2 ^ l.toNat ≤ n else d ≤ n * 2 ^ (-l).toNat) then l else l - 1

/-- The `double` nearest to `(-1)^neg * (n / d) * 2^e`. -/
def Dbl.round (neg : Bool) (n d : Nat) (e : Int) : Dbl :=
  if n = 0 ∨ d = 0 then ⟨false, 0, 0⟩
  else
    let t : Int := floor_log2_ratio n d - 52
    let m := if 0 ≤ t then round_half_even n (d * 2 ^ t.toNat)
             else round_half_even (n * 2 ^ (-t).toNat) d
    if m = 2 ^ 53 then ⟨neg, 2 ^ 52, e + t + 1⟩ else ⟨neg, m, e + t⟩

/-- The integer `a / 2^e`, for an exponent `e` not above the exponent of `a`. -/
def Dbl.scaled (a : Dbl) (e : Int) : Int :=
  if a.neg then -((a.mant * 2 ^ (a.exp - e).toNat : Nat) : Int)
  else ((a.mant * 2 ^ (a.exp - e).toNat : Nat) : Int)

/-- Conversion of an unsigned integer to `double`. -/
def Dbl.ofNat (n : Nat) : Dbl := Dbl.round false n 1 0

/-- The rounded product. -/
def Dbl.mul (a b : Dbl) : Dbl :=
  Dbl.round (a.neg != b.neg) (a.mant * b.mant) 1 (a.exp + b.exp)

/-- The rounded quotient.  A zero divisor, for which IEEE 754 answers with an
infinity or a NaN, gives zero here; the embedded code divides by non-zero
counts only. -/
def Dbl.div (a b : Dbl) : Dbl :=
  Dbl.round (a.neg != b.neg) a.mant b.mant (a.exp - b.exp)

/-- The rounded difference. -/
def Dbl.sub (a b : Dbl) : Dbl :=
  Dbl.round (decide (a.scaled (min a.exp b.exp) - b.scaled (min a.exp b.exp) < 0))
    (a.scaled (min a.exp b.exp) - b.scaled (min a.exp b.exp)).natAbs 1 (min a.exp b.exp)

/-- The comparison `a < b`. -/
def Dbl.lt (a b : Dbl) : Bool :=
  decide (a.scaled (min a.exp b.exp) < b.scaled (min a.exp b.exp))

/-- The comparison `a >= b`. -/
def Dbl.ge (a b : Dbl) : Bool :=
  decide (b.scaled (min a.exp b.exp) ≤ a.scaled (min a.exp b.exp))

/-- IEEE 754 binary64 arithmetic as an instance of the `double` operations. -/
def ieeeOps : FloatOps Dbl where
  of_u64 := Dbl.ofNat
  sub := Dbl.sub
  mul := Dbl.mul
  div := Dbl.div
  lt := Dbl.lt
  ge := Dbl.ge

/-! ## Percentiles in one pass -/

/-- The body `if (p_sorted[i] < p_sorted[j]) { swap }` of the sorting loops. -/
def swap_if_less {D : Type} (F : FloatOps D) (ps : List D) (i j : Nat) : List D :=
  match ps.get? i, ps.get? j with
  | some a, some b => if F.lt a b then (ps.set i b).set j a else ps
  | _, _ => ps

/-- The inner sorting loop `for (j = i + 1; j < num_percentiles; j++)`, with
`n` iterations left. -/
def sort_inner {D : Type} (F : FloatOps D) (i : Nat) : Nat → Nat → List D → List D
  | 0, _, ps => ps
  | n + 1, j, ps => sort_inner F i n (j + 1) (swap_if_less F ps i j)

/-- The outer sorting loop `for (i = 0; i < num_percentiles; i++)`, with `n`
iterations left. -/
def sort_outer {D : Type} (F : FloatOps D) (num : Nat) : Nat → Nat → List D → List D
  | 0, _, ps => ps
  | n + 1, i, ps => sort_outer F num n (i + 1) (sort_inner F i (num - (i + 1)) (i + 1) ps)

/-- The sorted copy `p_sorted` of the requested percentiles. -/
def sort_percentiles {D : Type} (F : FloatOps D) (percentiles : List D) : List D :=
  sort_outer F percentiles.length percentiles.length 0 percentiles

/-- The search `for (j = 0; j < num_percentiles; j++) if (x == percentiles[j]) { p_indices[i] = j; break; }`
from position `j` on: the index stored, or `none` when nothing is stored and
`p_indices[i]` stays uninitialised. -/
def first_index {D : Type} (eq : D → D → Bool) (x : D) : List D → Nat → Option Nat
  | [], _ => none
  | y :: rest, j => if eq x y then some j else first_index eq x rest (j + 1)

/-- The array `p_indices`. -/
def percentile_indices {D : Type} (eq : D → D → Bool) (p_sorted percentiles : List D) :
    List (Option Nat) :=
  p_sorted.map (fun x => first_index eq x percentiles 0)

/-- The store `results[p_indices[current_p]] = value`.  The result array is a
list of cells, `none` for a cell that was never written; a store through an
uninitialised index or outside the array is an out-of-bounds access. -/
def write_result {D : Type} (results : List (Option D)) (p_indices : List (Option Nat))
    (current_p : Nat) (value : D) : Except Fault (List (Option D)) :=
  match p_indices.get? current_p with
  | some (some k) => if k < results.length then .ok (results.set k (some value)) else .error .oob
  | _ => .error .oob

/-- The loop `while (current_p < num_percentiles) { ... }` run for one bucket
`i` holding `count`, with `n` percentiles left: the new `current_p` and
results. -/
def percentiles_bucket {D : Type} (F : FloatOps D) (E : Env) (min max total_count : Nat)
    (p_sorted : List D) (p_indices : List (Option Nat)) (i count cumsum : Nat) :
    Nat → Nat → List (Option D) → Except Fault (Nat × List (Option D))
  | 0, current_p, results => .ok (current_p, results)
  | n + 1, current_p, results =>
    match p_sorted.get? current_p with
    | none => .error .oob
    | some p =>
      if F.ge (F.of_u64 ((cumsum + count) % U64)) (percentile_target F p total_count) then
        match write_result results p_indices current_p
            (interpolate F E (percentile_target F p total_count) cumsum count i min max) with
        | .ok new_results =>
          percentiles_bucket F E min max total_count p_sorted p_indices i count cumsum
            n (current_p + 1) new_results
        | .error e => .error e
      else .ok (current_p, results)

/-- The bucket loop `for (int16_t i = k - 1; i >= 0 && current_p < num_percentiles; i--)`
of `heistogram_percentiles`. -/
def percentiles_scan {D : Type} (F : FloatOps D) (E : Env) (h : Heistogram)
    (p_sorted : List D) (p_indices : List (Option Nat)) :
    Nat → Nat → Nat → List (Option D) → Except Fault (Nat × List (Option D))
  | 0, _, current_p, results => .ok (current_p, results)
  | k + 1, cumsum, current_p, results =>
    if current_p < p_sorted.length then
      match read_bucket h.buckets k with
      | .ok c =>
        if c > 0 then
          match percentiles_bucket F E h.min h.max h.total_count p_sorted p_indices k c cumsum
              (p_sorted.length - current_p) current_p results with
          | .ok (new_p, new_results) =>
            percentiles_scan F E h p_sorted p_indices k ((cumsum + c) % U64) new_p new_results
          | .error e => .error e
        else percentiles_scan F E h p_sorted p_indices k cumsum current_p results
      | .error e => .error e
    else .ok (current_p, results)

/-- The loop `while (current_p < num_percentiles) { results[p_indices[current_p]] = min; current_p++; }`
that handles the remaining percentiles, with `n` of them left. -/
def percentiles_rest {D : Type} (F : FloatOps D) (min : Nat) (p_indices : List (Option Nat)) :
    Nat → Nat → List (Option D) → Except Fault (List (Option D))
  | 0, _, results => .ok results
  | n + 1, current_p, results =>
    match write_result results p_indices current_p (F.of_u64 min) with
    | .ok new_results => percentiles_rest F min p_indices n (current_p + 1) new_results
    | .error e => .error e

/-- Embedding of `heistogram_percentiles` on non-null arguments: the state of
the caller's `results` array, given its state `results` before the call.
`eq` is the comparison `==` of two `double`s; `percentiles` holds the
`num_percentiles` requested values. -/
def heistogram_percentiles {D : Type} (F : FloatOps D) (eq : D → D → Bool) (E : Env)
    (h : Heistogram) (percentiles : List D) (results : List (Option D)) :
    Except Fault (List (Option D)) :=
  if percentiles.length = 0 then .ok results
  else
    let p_sorted := sort_percentiles F percentiles
    let p_indices := percentile_indices eq p_sorted percentiles
    let start := toInt16 (h.capacity + (U16 - 1))
    match percentiles_scan F E h p_sorted p_indices
        (if start < 0 then 0 else start.toNat + 1) 0 0 results with
    | .ok (current_p, new_results) =>
      percentiles_rest F h.min p_indices (p_sorted.length - current_p) current_p new_results
    | .error e => .error e

/-- The bucket loop `for (i = lo + n - 1; i >= lo && current_p < num_percentiles; i--)`
of `heistogram_percentiles_serialized`.  A bucket that fails to decode makes
the C function return at once; this is the result with `current_p` set to
`num_percentiles`, which leaves nothing for the loop over the remaining
percentiles. -/
def percentiles_scan_serialized {D : Type} (F : FloatOps D) (E : Env)
    (min max total_count : Nat) (p_sorted : List D) (p_indices : List (Option Nat)) (lo : Nat) :
    Nat → List Nat → Nat → Nat → List (Option D) → Except Fault (Nat × List (Option D))
  | 0, _, _, current_p, results => .ok (current_p, results)
  | n + 1, ptr, cumsum, current_p, results =>
    if current_p < p_sorted.length then
      match decode_bucket ptr with
      | .ok (count, bytes_read) =>
        if count > 0 then
          match percentiles_bucket F E min max total_count p_sorted p_indices (lo + n) count
              cumsum (p_sorted.length - current_p) current_p results with
          | .ok (new_p, new_results) =>
            percentiles_scan_serialized F E min max total_count p_sorted p_indices lo n
              (ptr.drop bytes_read) ((cumsum + count) % U64) new_p new_results
          | .error e => .error e
        else
          percentiles_scan_serialized F E min max total_count p_sorted p_indices lo n
            (ptr.drop bytes_read) cumsum current_p results
      | .error .null => .ok (p_sorted.length, results)
      | .error .oob => .error .oob
    else .ok (current_p, results)

/-- Embedding of `heistogram_percentiles_serialized` on non-null arguments: the
state of the caller's `results` array after the call.  The early `return`s
(size below 3, no percentiles, a header that fails to decode) leave the array
as it was. -/
def heistogram_percentiles_serialized {D : Type} (F : FloatOps D) (eq : D → D → Bool)
    (E : Env) (buffer : List Nat) (size : Nat) (percentiles : List D)
    (results : List (Option D)) : Except Fault (List (Option D)) :=
  if size < 3 ∨ percentiles.length = 0 then .ok results
  else
    match decode_header buffer with
    | .error .null => .ok results
    | .error .oob => .error .oob
    | .ok hd =>
      if hd.bytes_read = 0 then .ok results
      else
        let p_sorted := sort_percentiles F percentiles
        let p_indices := percentile_indices eq p_sorted percentiles
        match percentiles_scan_serialized F E hd.min hd.max hd.total_count p_sorted p_indices
            hd.min_bucket_id (run_length (header_top hd) hd.min_bucket_id)
            (buffer.drop hd.bytes_read) 0 0 results with
        | .ok (current_p, new_results) =>
          percentiles_rest F hd.min p_indices (p_sorted.length - current_p) current_p
            new_results
        | .error e => .error e

/-- The comparison `a == b` of two finite `double`s. -/
def Dbl.beq (a b : Dbl) : Bool := decide (a = b)

/-- The 25 values of the rounding example: 18 times the value 1 and 7 times
the value 2. -/
def ones_and_twos : List Nat := List.replicate 18 1 ++ List.replicate 7 2

/-- The comparison `a == b` in exact arithmetic. -/
def exact_eq (a b : ℚ) : Bool := decide (a = b)

/-- The number of values of `xs` that are at least `v`. -/
def count_ge (xs : List Nat) (v : Nat) : Nat :=
  xs.countP (fun x => decide (v ≤ x))

/-! ## Ranks -/

/-- The rounded sum. -/
def Dbl.add (a b : Dbl) : Dbl :=
  Dbl.round (decide (a.scaled (min a.exp b.exp) + b.scaled (min a.exp b.exp) < 0))
    (a.scaled (min a.exp b.exp) + b.scaled (min a.exp b.exp)).natAbs 1 (min a.exp b.exp)

/-- The `double` operations of `heistogram_prank`: those of the percentile
code, the operator `+` and the constant `0.5`. -/
structure RankOps (D : Type) extends FloatOps D where
  /-- The operator `+`. -/
  add : D → D → D
  /-- The constant `0.5`. -/
  half : D

/-- Exact rational arithmetic as an instance of the rank operations. -/
def exactRank : RankOps ℚ where
  toFloatOps := exactOps
  add a b := a + b
  half := 1 / 2

/-- IEEE 754 binary64 arithmetic as an instance of the rank operations. -/
def ieeeRank : RankOps Dbl where
  toFloatOps := ieeeOps
  add := Dbl.add
  half := ⟨false, 2 ^ 52, -53⟩

/-- The loop `for (int16_t i = 0; i < bid; i++) cumsum += h->buckets[i].count;`
of `heistogram_prank`. -/
def prank_sum (buckets : List Nat) : Nat → Except Fault Nat
  | 0 => .ok 0
  | n + 1 =>
    match prank_sum buckets n with
    | .ok cumsum =>
      match read_bucket buckets n with
      | .ok c => .ok ((cumsum + c) % U64)
      | .error e => .error e
    | .error e => .error e

/-- The position `pos` of `value` within bucket `bid` as `heistogram_prank`
computes it: `0.5` when the bounds of the bucket coincide, else
`(value - min_val) / (max_val - min_val)` with the difference of the bounds
taken in `uint64_t`. -/
def prank_pos {D : Type} (R : RankOps D) (E : Env) (value bid : Nat) : D :=
  let min_val := get_bucket_min E bid
  let max_val := get_bucket_max E min_val
  if max_val = min_val then R.half
  else R.div (R.sub (R.of_u64 value) (R.of_u64 min_val))
    (R.of_u64 ((max_val + (U64 - min_val % U64)) % U64))

/-- Embedding of `heistogram_prank` on a non-null handle, for a `value` that is
an unsigned 64-bit integer converted to `double`. -/
def heistogram_prank {D : Type} (R : RankOps D) (E : Env) (h : Heistogram) (value : Nat) :
    Except Fault D :=
  if R.lt (R.of_u64 value) (R.of_u64 0) then .ok (R.of_u64 0)
  else if R.ge (R.of_u64 value) (R.of_u64 h.max) then .ok (R.of_u64 h.max)
  else
    let bid := get_bucket_id E value
    if bid ≥ h.capacity then .ok (R.of_u64 100)
    else
      match prank_sum h.buckets bid with
      | .ok cumsum =>
        match read_bucket h.buckets bid with
        | .ok c =>
          .ok (R.div (R.mul (R.of_u64 100)
            (R.add (R.of_u64 cumsum) (R.mul (prank_pos R E value bid) (R.of_u64 c))))
            (R.of_u64 h.total_count))
        | .error e => .error e
      | .error e => .error e

/-- The histogram that holds the single value 5. -/
def single_five : Heistogram :=
  { capacity := 16, min_bucket_id := 5, total_count := 1, min := 5, max := 5,
    buckets := [0, 0, 0, 0, 0, 1, 0, 0, 0, 0, 0, 0, 0, 0, 0, 0] }

/-- The state after `k` further insertions of the value `v`, when none of them
changes min, max or min_bucket_id and the array does not grow. -/
def bump (h : Heistogram) (v k : Nat) : Heistogram :=
  { h with
    total_count := (h.total_count + k) % U64
    buckets := h.buckets.set v ((h.buckets.getD v 0 + k) % U64) }

/-- The histogram that holds the single value 1. -/
def single_one : Heistogram :=
  { capacity := 16, min_bucket_id := 1, total_count := 1, min := 1, max := 1,
    buckets := [0, 1, 0, 0, 0, 0, 0, 0, 0, 0, 0, 0, 0, 0, 0, 0] }

/-- The state after `2^64` insertions of the value 1: the count of bucket 1 and
the total count have wrapped to zero. -/
def wrapped_ones : Heistogram :=
  { capacity := 16, min_bucket_id := 1, total_count := 0, min := 1, max := 1,
    buckets := [0, 0, 0, 0, 0, 0, 0, 0, 0, 0, 0, 0, 0, 0, 0, 0] }

/-- The `size_t max_total_size` that `heistogram_serialize` passes to `malloc`:
`header_size + (max_bucket_id - min_bucket_id + 1) * bucket_size` with
`header_size = 5 * 9` and `bucket_size = 9`, the `int` span converted to a
64-bit `size_t`. -/
def serialize_buffer_size (h : Heistogram) : Except Fault Nat :=
  match serialize_top h with
  | .ok max_bucket_id =>
    .ok ((45 + ((max_bucket_id - (h.min_bucket_id : Int) + 1) % (U64 : Int)).toNat * 9) % U64)
  | .error e => .error e

/-- The bucket counts of the dense run as `encode_bucket` receives them, from
bucket `lo + n - 1` down to bucket `lo`. -/
def run_counts (buckets : List Nat) (lo n : Nat) : List Nat :=
  (List.range n).reverse.map (fun j => buckets.getD (lo + j) 0 % U32)

/-- The histogram after the insertions `0, 6, 6, ..., 6` with `2^64` sixes:
the count of bucket 6 has wrapped to zero and the last insertion, made at
total count 0, has set min, max and min_bucket_id to 6. -/
def wrapped_sixes : Heistogram :=
  { capacity := 16, min_bucket_id := 6, total_count := 1, min := 6, max := 6,
    buckets := [1, 0, 0, 0, 0, 0, 0, 0, 0, 0, 0, 0, 0, 0, 0, 0] }

/-! ## Reachable histograms -/

/-- The histograms reachable from `heistogram_create` by `heistogram_add`,
`heistogram_merge` and `heistogram_merge_inplace`, each together with the
values inserted into it or into a histogram merged into it. -/
inductive Reach (E : Env) : List Nat → Heistogram → Prop where
  /-- The state `heistogram_create` returns. -/
  | create : Reach E [] heistogram_create
  /-- The state after `heistogram_add(h, v)`. -/
  | add (xs : List Nat) (h h2 : Heistogram) (v : Nat) :
      Reach E xs h → v < U64 → heistogram_add E h v = .ok h2 → Reach E (xs ++ [v]) h2
  /-- The histogram `heistogram_merge(a, b)` returns. -/
  | merge (xs ys : List Nat) (a b r : Heistogram) :
      Reach E xs a → Reach E ys b → heistogram_merge a b = .ok r → Reach E (xs ++ ys) r
  /-- The state of `a` after `heistogram_merge_inplace(a, b)`. -/
  | merge_inplace (xs ys : List Nat) (a b r : Heistogram) :
      Reach E xs a → Reach E ys b → heistogram_merge_inplace a b = .ok r →
      Reach E (xs ++ ys) r

/-- The sum of the counts of all buckets of a histogram. -/
def bucket_sum (h : Heistogram) : Nat :=
  ((List.range h.capacity).map (bucket_count h)).sum

/-- What a reachable histogram holds when fewer than `2^64` values went into
it. -/
structure Tracked (E : Env) (xs : List Nat) (h : Heistogram) : Prop where
  length_eq : h.buckets.length = h.capacity
  total : h.total_count = xs.length
  counts : ∀ i, bucket_count h i = (xs.map (get_bucket_id E)).count i
  min_le : ∀ x ∈ xs, h.min ≤ x
  max_ge : ∀ x ∈ xs, x ≤ h.max

/-- The state after `2^64 - 1` insertions of 0 and one insertion of 1: the
total count has wrapped to zero, no bucket count has. -/
def wrapped_total : Heistogram :=
  { capacity := 16, min_bucket_id := 0, total_count := 0, min := 0, max := 1,
    buckets := [U64 - 1, 1, 0, 0, 0, 0, 0, 0, 0, 0, 0, 0, 0, 0, 0, 0] }

/-- The histogram `heistogram_merge` returns for the histogram built from 3 and
9 and the histogram built from 5. -/
def three_values : Heistogram :=
  { capacity := 16, min_bucket_id := 3, total_count := 3, min := 3, max := 9,
    buckets := [0, 0, 0, 1, 0, 1, 0, 0, 0, 1, 0, 0, 0, 0, 0, 0] }

/-! ## IEEE 754 binary32 arithmetic of the bucket mapper

The C type `float` on the finite non-negative values `get_bucket_id` works
with: a value is a 24-bit mantissa and a binary exponent, and every operation
rounds its exact result to the nearest such value, ties to the even mantissa.
As for `Dbl` the exponent is not bounded.  Products of two `float`s are
rounded to `float` (`FLT_EVAL_METHOD` 0). -/

/-- A finite non-negative `float`: the value `mant * 2^exp`, with
`2^23 ≤ mant < 2^24`, or zero as `⟨0, 0⟩`. -/
structure Flt where
  mant : Nat
  exp : Int
  deriving DecidableEq, Repr

/-- The integer nearest to `(n / d) / 2^t`, a tie going to the even one. -/
def round_scaled (n d : Nat) (t : Int) : Nat :=
  if 0 ≤ t then round_half_even n (d * 2 ^ t.toNat)
  else round_half_even (n * 2 ^ (-t).toNat) d

/-- The `float` nearest to `(n / d) * 2^e`. -/
def Flt.round (n d : Nat) (e : Int) : Flt :=
  if n = 0 ∨ d = 0 then ⟨0, 0⟩
  else
    let t : Int := floor_log2_ratio n d - 23
    let m := round_scaled n d t
    if m = 2 ^ 24 then ⟨2 ^ 23, e + t + 1⟩ else ⟨m, e + t⟩

/-- The conversion `(float)` of a non-negative `double`. -/
def Flt.ofDbl (a : Dbl) : Flt := Flt.round a.mant 1 a.exp

/-- The rounded product of two `float`s. -/
def Flt.mul (a b : Flt) : Flt := Flt.round (a.mant * b.mant) 1 (a.exp + b.exp)

/-- The conversion of a non-negative `float` to an integer type: the
fractional part is discarded. -/
def Flt.trunc (a : Flt) : Nat :=
  if 0 ≤ a.exp then a.mant * 2 ^ a.exp.toNat else a.mant / 2 ^ (-a.exp).toNat

/-- The constant `HEIST_INV_LOG_GROWTH_FACTOR`: the `double` literal
`35.00278878` stored in a `float`. -/
def HEIST_INV_LOG_GROWTH_FACTOR : Flt :=
  Flt.ofDbl (Dbl.round false 3500278878 100000000 0)

/-- The term `(int16_t)((float)log2(value) * HEIST_INV_LOG_GROWTH_FACTOR)` of
`get_bucket_id`, for the non-negative `double` `l` that the library function
`log2` returned.  The conversion to `int16_t` is exact up to 32767. -/
def log_scaled_float (l : Dbl) : Nat :=
  Flt.trunc (Flt.mul (Flt.ofDbl l) HEIST_INV_LOG_GROWTH_FACTOR)

/-- The rational value of a finite `double`. -/
def Dbl.val (a : Dbl) : ℚ :=
  if a.neg then -((a.mant : ℚ) * 2 ^ a.exp) else (a.mant : ℚ) * 2 ^ a.exp

/-- The rational value of a `float`. -/
def Flt.val (a : Flt) : ℚ := (a.mant : ℚ) * 2 ^ a.exp

/-- The `double` nearest to `log2(58) = 5.857980995127572...`. -/
def log2_58 : Dbl := ⟨false, 6595500256699995, -50⟩

/-- The natural number `k` is an integer nearest to the rational `y`, and the
even one of the two when `y` lies halfway between two integers. -/
def IsNearest (k : Nat) (y : ℚ) : Prop :=
  (k : ℚ) ≤ y + 1 / 2 ∧ y ≤ k + 1 / 2
    ∧ ((k : ℚ) = y + 1 / 2 → k % 2 = 0) ∧ (y = k + 1 / 2 → k % 2 = 0)

/-- A computable stand-in for the library function `log2` on the integers
from 2 up to `2^64`: the `double` with the value `floor(1024 * log2(v)) / 1024`,
which is below `log2(v)` by less than `1/1024`. -/
def log2_fine (v : Nat) : Dbl :=
  ⟨false, floor_log2 (v ^ 1024) * 2 ^ (52 - floor_log2 (floor_log2 (v ^ 1024))),
    (floor_log2 (floor_log2 (v ^ 1024)) : Int) - 62⟩

/-- The environment whose scaled logarithm is computed in `float` arithmetic
from `log2_fine`, cut to the range every environment has; bucket bounds as in
the exact environment. -/
def floatEnv : Env where
  log_scaled v := Nat.max 205 (Nat.min 2240 (log_scaled_float (log2_fine v)))
  pow_ceil := exactEnv.pow_ceil
  growth := exactEnv.growth
  log_scaled_ge _ _ := Nat.le_max_left _ _
  log_scaled_le _ := Nat.max_le.mpr ⟨by decide, Nat.min_le_left _ _⟩
  pow_ceil_lt := exactEnv.pow_ceil_lt
  growth_lt := exactEnv.growth_lt

/-- The rank formula of the specification, `100 * (B + pos * c) / total_count`:
`B` is the sum of the counts of all buckets with an id below that of `value`,
`c` the count of the bucket of `value`, and `pos` is `(value - lo) / (hi - lo)`
for the bounds `lo` and `hi` of that bucket, or `0.5` when the bounds
coincide. -/
def prank_formula {D : Type} (R : RankOps D) (E : Env) (h : Heistogram) (value : Nat) : D :=
  let bid := get_bucket_id E value
  let lo := get_bucket_min E bid
  let hi := get_bucket_max E lo
  let pos := if hi = lo then R.half
             else R.div (R.sub (R.of_u64 value) (R.of_u64 lo)) (R.of_u64 (hi - lo))
  R.div (R.mul (R.of_u64 100)
    (R.add (R.of_u64 ((List.range bid).map (bucket_count h)).sum)
      (R.mul pos (R.of_u64 (bucket_count h bid)))))
    (R.of_u64 h.total_count)

/-- The state after `2^63` insertions of 0 and `2^63` insertions of 1: the
total count has wrapped to zero. -/
def halves_state : Heistogram :=
  { capacity := 16, min_bucket_id := 0, total_count := 0, min := 0, max := 1,
    buckets := [2 ^ 63, 2 ^ 63, 0, 0, 0, 0, 0, 0, 0, 0, 0, 0, 0, 0, 0, 0] }

/-- The state after `2^63` insertions of 0, `2^63` insertions of 1 and one
insertion each of 2 and 3: the first of the two, made at total count 0, has
set min and min_bucket_id to 2. -/
def halves_two_three : Heistogram :=
  { capacity := 16, min_bucket_id := 2, total_count := 2, min := 2, max := 3,
    buckets := [2 ^ 63, 2 ^ 63, 1, 1, 0, 0, 0, 0, 0, 0, 0, 0, 0, 0, 0, 0] }

/-- The number of bytes `decode_varint` consumes, as its branches select it
from the first byte `a0` alone. -/
def varint_size (a0 : Nat) : Nat :=
  if a0 ≤ 240 then 1 else if a0 ≤ 248 then 2 else if a0 = 249 then 3 else (a0 - 249) + 1

/-- What `heistogram_deserialize` returns for the serialization of
`single_five`: the counters and summary fields of `single_five`, with the
`min_bucket_id` that `heistogram_create` stored. -/
def restored_five : Heistogram :=
  { capacity := 16, min_bucket_id := 0, total_count := 1, min := 5, max := 5,
    buckets := [0, 0, 0, 0, 0, 1, 0, 0, 0, 0, 0, 0, 0, 0, 0, 0] }

/-- The histogram that holds the single value 20; the insertion grew the
counter array to `20 + 16` counters. -/
def single_twenty : Heistogram :=
  { capacity := 36, min_bucket_id := 20, total_count := 1, min := 20, max := 20,
    buckets := List.replicate 20 0 ++ 1 :: List.replicate 15 0 }

/-- The state after `2^64 - 1` insertions of 0, one insertion of 1 and one
insertion of 7: the insertion of 7 found the total count wrapped to zero and
took the first-value branch, which set `min_bucket_id` to 7. -/
def wrapped_seven : Heistogram :=
  { capacity := 16, min_bucket_id := 7, total_count := 1, min := 7, max := 7,
    buckets := [U64 - 1, 1, 0, 0, 0, 0, 0, 1, 0, 0, 0, 0, 0, 0, 0, 0] }

/-- What `heistogram_merge` returns for `single_five` and a fresh histogram, in
either order: the counters, count and max of `single_five`, with the min and
the `min_bucket_id` of the fresh histogram. -/
def five_with_empty : Heistogram :=
  { capacity := 16, min_bucket_id := 0, total_count := 1, min := 0, max := 5,
    buckets := [0, 0, 0, 0, 0, 1, 0, 0, 0, 0, 0, 0, 0, 0, 0, 0] }

/-- The order properties of the `double` operations that the percentile
estimate relies on, stated with the C comparison `>=`.  The order is total and
the operations are monotone; integers below `bound` are subtracted exactly, a
quotient `n / n` is 1, and products with 0 and 1 are exact.  (IEEE 754
round-to-nearest arithmetic on finite values is of this kind with
`bound = 2^53`; the instance proved below is exact rational arithmetic.) -/
structure OrderedOps {D : Type} (F : FloatOps D) (bound : Nat) : Prop where
  bound_gt : 100 < bound
  ge_trans : ∀ a b c, F.ge a b = true → F.ge b c = true → F.ge a c = true
  ge_total : ∀ a b, F.ge a b = true ∨ F.ge b a = true
  lt_iff : ∀ a b, F.lt a b = true ↔ F.ge a b = false
  of_mono : ∀ m n, m ≤ n → F.ge (F.of_u64 n) (F.of_u64 m) = true
  sub_left : ∀ a b c, F.ge b a = true → F.ge (F.sub b c) (F.sub a c) = true
  sub_right : ∀ a b c, F.ge b a = true → F.ge (F.sub c a) (F.sub c b) = true
  mul_left : ∀ a b n, F.ge b a = true →
    F.ge (F.mul b (F.of_u64 n)) (F.mul a (F.of_u64 n)) = true
  div_left : ∀ a b n, 0 < n → F.ge b a = true →
    F.ge (F.div b (F.of_u64 n)) (F.div a (F.of_u64 n)) = true
  sub_exact : ∀ m n, n ≤ m → m < bound →
    F.sub (F.of_u64 m) (F.of_u64 n) = F.of_u64 (m - n)
  div_self : ∀ n, 0 < n → F.div (F.of_u64 n) (F.of_u64 n) = F.of_u64 1
  zero_div : ∀ n, 0 < n → F.div (F.of_u64 0) (F.of_u64 n) = F.of_u64 0
  zero_mul : ∀ n, F.mul (F.of_u64 0) (F.of_u64 n) = F.of_u64 0
  one_mul : ∀ n, F.mul (F.of_u64 1) (F.of_u64 n) = F.of_u64 n

/-- The histogram built from the values 661 and 663, which fall into the
adjacent buckets 180 and 181. -/
def overlap_pair : Heistogram :=
  { capacity := 196, min_bucket_id := 180, total_count := 2, min := 661, max := 663,
    buckets := List.replicate 180 0 ++ 1 :: 1 :: List.replicate 14 0 }

/-! ## Histograms in memory

Handles are positions in the list of the live histograms.  A call that
receives two handles may receive the same handle twice; the functions below
read through a handle each time the C code does, so a store through one handle
is seen by a later read through an equal one. -/

/-- Read of the histogram a handle points to. -/
def load (mem : List Heistogram) (p : Nat) : Except Fault Heistogram :=
  match mem.get? p with
  | some h => .ok h
  | none => .error .oob

/-- Write of the histogram a handle points to. -/
def store (mem : List Heistogram) (p : Nat) (h : Heistogram) :
    Except Fault (List Heistogram) :=
  if p < mem.length then .ok (mem.set p h) else .error .oob

/-- The loop `for (i = 0; i < h2->capacity; i++) h1->buckets[i].count += h2->buckets[i].count;`
of `heistogram_merge_inplace` on handles, run for `n` iterations; the loop
writes counters only, so its bound `h2->capacity` is the same in every
iteration. -/
def add_counts_at (p1 p2 : Nat) : Nat → List Heistogram → Except Fault (List Heistogram)
  | 0, mem => .ok mem
  | n + 1, mem => do
    let m ← add_counts_at p1 p2 n mem
    let h2 ← load m p2
    let s ← read_bucket h2.buckets n
    let h1 ← load m p1
    let c ← read_bucket h1.buckets n
    let b ← write_bucket h1.buckets n ((c + s) % U64)
    store m p1 { h1 with buckets := b }

/-- Embedding of `heistogram_merge_inplace` on two non-null handles `h1` and
`h2` into memory, which may be equal: the memory after the call; the C return
value is 1 exactly when a memory is returned. -/
def heistogram_merge_inplace_at (mem : List Heistogram) (p1 p2 : Nat) :
    Except Fault (List Heistogram) := do
  let h1 ← load mem p1
  let h2 ← load mem p2
  let h ← resize_result h1 h2.capacity
  let mem ← store mem p1 h
  let h2 ← load mem p2
  let mem ← add_counts_at p1 p2 h2.capacity mem
  let h1 ← load mem p1
  let h2 ← load mem p2
  let mem ← store mem p1 { h1 with total_count := (h1.total_count + h2.total_count) % U64 }
  let h1 ← load mem p1
  let h2 ← load mem p2
  let mem ← store mem p1 { h1 with min := if h2.min < h1.min then h2.min else h1.min }
  let h1 ← load mem p1
  let h2 ← load mem p2
  let mem ← store mem p1 { h1 with max := if h2.max > h1.max then h2.max else h1.max }
  let h1 ← load mem p1
  let h2 ← load mem p2
  store mem p1 { h1 with
    min_bucket_id := if h2.min_bucket_id < h1.min_bucket_id then h2.min_bucket_id
                     else h1.min_bucket_id }

/-- The histogram that holds the value 5 twice. -/
def double_five : Heistogram :=
  { capacity := 16, min_bucket_id := 5, total_count := 2, min := 5, max := 5,
    buckets := [0, 0, 0, 0, 0, 2, 0, 0, 0, 0, 0, 0, 0, 0, 0, 0] }
/-- The histogram after `n` rounds of `h = heistogram_merge(h, h)`. -/
def self_merges : Nat → Heistogram → Except Fault Heistogram
  | 0, h => .ok h
  | n + 1, h =>
    match heistogram_merge h h with
    | .ok r => self_merges n r
    | .error e => .error e

end Heist

/-! # Theorems -/

namespace Heist

/-! ## Memory helpers -/

theorem read_bucket_eq (bs : List Nat) (i : Nat) (hi : i < bs.length) :
    read_bucket bs i = .ok (bs.getD i 0) := by
  simp [read_bucket, List.getD, List.getElem?_eq_getElem hi]

theorem write_bucket_eq (bs : List Nat) (i c : Nat) (hi : i < bs.length) :
    write_bucket bs i c = .ok (bs.set i c) := by
  simp [write_bucket, hi]

theorem grow_buckets_eq (bs : List Nat) (cap n : Nat) (hlen : bs.length = cap) (hn : cap ≤ n) :
    grow_buckets bs cap n = .ok (bs ++ List.replicate (n - cap) 0) := by
  subst hlen
  simp [grow_buckets, hn]

theorem getD_set (bs : List Nat) (i j c : Nat) (hi : i < bs.length) :
    (bs.set i c).getD j 0 = if j = i then c else bs.getD j 0 := by
  simp only [List.getD_eq_getElem?_getD, List.getElem?_set]
  by_cases h : i = j
  · subst h; simp [hi]
  · simp [h, Ne.symm h]

theorem getD_append_zeros (bs : List Nat) (n j : Nat) :
    (bs ++ List.replicate n 0).getD j 0 = bs.getD j 0 := by
  simp only [List.getD_eq_getElem?_getD]
  by_cases h : j < bs.length
  · rw [List.getElem?_append_left h]
  · rw [List.getElem?_append_right (by omega)]
    simp only [List.getElem?_replicate]
    rw [List.getElem?_eq_none (by omega)]
    split <;> simp

theorem get_bucket_id_le (E : Env) (v : Nat) : get_bucket_id E v ≤ 2093 := by
  unfold get_bucket_id HEIST_MAX_UNMAPPED_BUCKET HEIST_BUCKET_MAPPING_DELTA
  have := E.log_scaled_le v
  split <;> omega

/-! ## Insertion -/

theorem add_metadata_buckets (h : Heistogram) (v b : Nat) :
    (add_metadata h v b).buckets = h.buckets ∧ (add_metadata h v b).capacity = h.capacity
      ∧ (add_metadata h v b).total_count = h.total_count := by
  unfold add_metadata
  split <;> simp

/-- On a histogram whose array length is its capacity, `heistogram_add`
returns a new state, given here field by field. -/
theorem heistogram_add_eq (E : Env) (h : Heistogram) (x : Nat)
    (hlen : h.buckets.length = h.capacity) :
    heistogram_add E h x = .ok
      { capacity := if get_bucket_id E x ≥ h.capacity then get_bucket_id E x + 16 else h.capacity
        min_bucket_id := (add_metadata h x (get_bucket_id E x)).min_bucket_id
        total_count := (h.total_count + 1) % U64
        min := (add_metadata h x (get_bucket_id E x)).min
        max := (add_metadata h x (get_bucket_id E x)).max
        buckets :=
          (if get_bucket_id E x ≥ h.capacity then
            h.buckets ++ List.replicate (get_bucket_id E x + 16 - h.capacity) 0
           else h.buckets).set (get_bucket_id E x)
            ((h.buckets.getD (get_bucket_id E x) 0 + 1) % U64) } := by
  have hb := get_bucket_id_le E x
  obtain ⟨m1, m2, m3⟩ := add_metadata_buckets h x (get_bucket_id E x)
  unfold heistogram_add
  simp only [bind, Except.bind, pure, Except.pure]
  generalize get_bucket_id E x = bid at *
  generalize add_metadata h x bid = hm at *
  obtain ⟨cap', mb', tot', mn', mx', bs'⟩ := hm
  obtain ⟨cap, mb, tot, mn, mx, bs⟩ := h
  simp only at m1 m2 m3 hlen
  subst m1 m2 m3
  by_cases hc : bid ≥ cap'
  · have hmod : (bid + 16) % U16 = bid + 16 := Nat.mod_eq_of_lt (by unfold U16; omega)
    simp only [add_expand, hc, if_true, grow_buckets_eq bs' cap' (bid + 16) hlen (by omega), hmod]
    rw [read_bucket_eq _ _ (by simp; omega)]
    dsimp only
    rw [write_bucket_eq _ _ _ (by simp; omega)]
    simp only [getD_append_zeros]
  · simp only [add_expand, hc, if_false]
    rw [read_bucket_eq _ _ (by omega)]
    dsimp only
    rw [write_bucket_eq _ _ _ (by omega)]

theorem add_metadata_fields (h : Heistogram) (v b : Nat) :
    (add_metadata h v b).min = (if h.total_count = 0 then v else if h.min > v then v else h.min)
    ∧ (add_metadata h v b).max = (if h.total_count = 0 then v else if h.max < v then v else h.max)
    ∧ (add_metadata h v b).min_bucket_id =
        (if h.total_count = 0 then b else if b < h.min_bucket_id then b else h.min_bucket_id) := by
  unfold add_metadata
  split <;> simp

/-- One insertion extends the description of a built histogram by one value. -/
theorem heistogram_add_built (E : Env) (pre : List Nat) (h : Heistogram) (x : Nat)
    (hb : BuiltFrom E pre h) (hlen : pre.length + 1 < U64) :
    ∃ h2, heistogram_add E h x = .ok h2 ∧ BuiltFrom E (pre ++ [x]) h2 := by
  refine ⟨_, heistogram_add_eq E h x hb.length_eq, ?_⟩
  have hbid := get_bucket_id_le E x
  obtain ⟨fmin, fmax, fmb⟩ := add_metadata_fields h x (get_bucket_id E x)
  have hcnt : h.buckets.getD (get_bucket_id E x) 0 ≤ pre.length := by
    rw [hb.counts]
    exact le_trans (List.count_le_length _ _) (by simp)
  have hempty : h.total_count = 0 ↔ pre = [] := by
    rw [hb.total]; exact List.length_eq_zero
  have h1 := hb.length_eq
  have h2 := hb.cap_ge
  have h3 := hb.cap_le
  constructor
  · dsimp only
    rw [List.length_set]
    split <;> (try simp) <;> omega
  · dsimp only
    split <;> omega
  · dsimp only
    split <;> omega
  · dsimp only
    rw [hb.total, Nat.mod_eq_of_lt hlen]; simp
  · intro i
    dsimp only
    rw [getD_set _ _ _ _ (by split <;> (try simp) <;> omega)]
    have hz : (if get_bucket_id E x ≥ h.capacity then
        h.buckets ++ List.replicate (get_bucket_id E x + 16 - h.capacity) 0
        else h.buckets).getD i 0 = h.buckets.getD i 0 := by
      split
      · exact getD_append_zeros _ _ _
      · rfl
    rw [hz, List.map_append, List.count_append, List.map_singleton, List.count_singleton]
    by_cases hi : i = get_bucket_id E x
    · subst hi
      rw [if_pos rfl, Nat.mod_eq_of_lt (by omega), hb.counts]
      simp
    · rw [if_neg hi, hb.counts]
      have : (get_bucket_id E x == i) = false := by
        simp only [beq_eq_false_iff_ne, ne_eq]; exact fun e => hi e.symm
      simp [this]
  · intro y hy
    dsimp only
    rcases List.mem_append.mp hy with hy | hy
    · have := hb.bid_lt y hy
      split <;> omega
    · rw [List.mem_singleton.mp hy]
      split <;> omega
  · intro he; simp at he
  · intro y hy
    show (add_metadata h x (get_bucket_id E x)).min ≤ y
    rw [fmin]
    rcases List.mem_append.mp hy with hy | hy
    · have := hb.min_le y hy
      have hne : h.total_count ≠ 0 := fun e => by
        rw [hempty.mp e] at hy; exact List.not_mem_nil _ hy
      rw [if_neg hne]; split <;> omega
    · rw [List.mem_singleton.mp hy]
      split
      · exact le_refl _
      · split <;> omega
  · intro _
    dsimp only
    rw [fmin]
    by_cases he : h.total_count = 0
    · rw [if_pos he]; simp
    · rw [if_neg he]
      have := hb.min_mem (fun e => he (hempty.mpr e))
      split
      · simp
      · exact List.mem_append_left _ this
  · intro y hy
    show y ≤ (add_metadata h x (get_bucket_id E x)).max
    rw [fmax]
    rcases List.mem_append.mp hy with hy | hy
    · have := hb.max_ge y hy
      have hne : h.total_count ≠ 0 := fun e => by
        rw [hempty.mp e] at hy; exact List.not_mem_nil _ hy
      rw [if_neg hne]; split <;> omega
    · rw [List.mem_singleton.mp hy]
      split
      · exact le_refl _
      · split <;> omega
  · intro _
    dsimp only
    rw [fmax]
    by_cases he : h.total_count = 0
    · rw [if_pos he]; simp
    · rw [if_neg he]
      have := hb.max_mem (fun e => he (hempty.mpr e))
      split
      · simp
      · exact List.mem_append_left _ this
  · intro y hy
    dsimp only
    rw [fmb]
    rcases List.mem_append.mp hy with hy | hy
    · have := hb.mbid_le y hy
      have hne : h.total_count ≠ 0 := fun e => by
        rw [hempty.mp e] at hy; exact List.not_mem_nil _ hy
      rw [if_neg hne]; split <;> omega
    · rw [List.mem_singleton.mp hy]
      split
      · exact le_refl _
      · split <;> omega
  · intro _
    dsimp only
    rw [fmb]
    by_cases he : h.total_count = 0
    · rw [if_pos he]; exact ⟨x, by simp, rfl⟩
    · rw [if_neg he]
      obtain ⟨y, hy, hyb⟩ := hb.mbid_mem (fun e => he (hempty.mpr e))
      split
      · exact ⟨x, by simp, rfl⟩
      · exact ⟨y, List.mem_append_left _ hy, hyb⟩

/-- The fresh histogram is the histogram built from no values. -/
theorem built_create (E : Env) : BuiltFrom E [] heistogram_create := by
  constructor
  case counts =>
    intro i
    have := getD_append_zeros [] 16 i
    simpa [heistogram_create] using this
  all_goals simp [heistogram_create]

/-- Insertions started from a built histogram. -/
theorem foldlM_add_built (E : Env) (xs pre : List Nat) (h : Heistogram)
    (hb : BuiltFrom E pre h) (hlen : pre.length + xs.length < U64) :
    ∃ h2, xs.foldlM (heistogram_add E) h = .ok h2 ∧ BuiltFrom E (pre ++ xs) h2 := by
  induction xs generalizing pre h with
  | nil => exact ⟨h, rfl, by simpa using hb⟩
  | cons x xs ih =>
    simp only [List.length_cons] at hlen
    obtain ⟨h1, e1, b1⟩ := heistogram_add_built E pre h x hb (by omega)
    obtain ⟨h2, e2, b2⟩ := ih (pre ++ [x]) h1 b1 (by simp; omega)
    refine ⟨h2, ?_, by simpa using b2⟩
    simp only [List.foldlM, bind, Except.bind, e1]
    exact e2

/-- Every sequence of fewer than `2^64` insertions into a fresh histogram
succeeds and yields the histogram described by `BuiltFrom`. -/
theorem build_built (E : Env) (xs : List Nat) (hlen : xs.length < U64) :
    ∃ h, build E xs = .ok h ∧ BuiltFrom E xs h := by
  obtain ⟨h, e, b⟩ := foldlM_add_built E xs [] heistogram_create (built_create E) (by simpa using hlen)
  exact ⟨h, e, by simpa using b⟩

/-- One more insertion of the value 0. -/
theorem heistogram_add_zero (E : Env) (k : Nat) :
    heistogram_add E (zeros_state k) 0 = .ok (zeros_state (k + 1)) := by
  rw [heistogram_add_eq E (zeros_state k) 0 rfl]
  have hb : get_bucket_id E 0 = 0 := rfl
  have hmod : (k % U64 + 1) % U64 = (k + 1) % U64 := by unfold U64; omega
  obtain ⟨f1, f2, f3⟩ := add_metadata_fields (zeros_state k) 0 0
  have g1 : (add_metadata (zeros_state k) 0 0).min = 0 := by
    rw [f1]; split
    · rfl
    · split <;> rfl
  have g2 : (add_metadata (zeros_state k) 0 0).max = 0 := by
    rw [f2]; split
    · rfl
    · split <;> rfl
  have g3 : (add_metadata (zeros_state k) 0 0).min_bucket_id = 0 := by
    rw [f3]; split
    · rfl
    · split <;> rfl
  rw [hb, g1, g2, g3]
  simp only [zeros_state, hmod, ge_iff_le, Nat.not_succ_le_zero, if_false, List.set_cons_zero,
    List.getD_cons_zero, show ¬ (16 ≤ 0) by decide]

/-- Inserting the value 0 `n` times into a fresh histogram. -/
theorem foldlM_add_zeros (E : Env) (n k : Nat) :
    (List.replicate n 0).foldlM (heistogram_add E) (zeros_state k) = .ok (zeros_state (k + n)) := by
  induction n generalizing k with
  | zero => rfl
  | succ n ih =>
    simp only [List.replicate_succ, List.foldlM, bind, Except.bind, heistogram_add_zero]
    rw [ih (k + 1)]
    congr 2
    omega

theorem build_zeros (E : Env) (n : Nat) :
    build E (List.replicate n 0) = .ok (zeros_state n) := by
  have := foldlM_add_zeros E n 0
  rw [Nat.zero_add] at this
  exact this

/-- C3 as stated fails at the sequence of `2^64` zeros: all insertions succeed
and `heistogram_count` returns 0, not the length `2^64`. -/
theorem heistogram_count_wraps :
    ∃ h, build exactEnv (List.replicate U64 0) = .ok h
      ∧ heistogram_count h = 0
      ∧ heistogram_count h ≠ (List.replicate U64 0).length :=
  ⟨_, build_zeros exactEnv U64, by decide, by
    rw [List.length_replicate]; decide⟩

/-- C3, amended: for every sequence `xs` of fewer than `2^64` values, inserting
`xs` into a fresh histogram succeeds, `heistogram_count` returns the length of
`xs`, `heistogram_min` and `heistogram_max` return the least and the greatest
inserted value, and all three return 0 for the empty sequence. -/
theorem heistogram_add_count_min_max (E : Env) (xs : List Nat) (hlen : xs.length < U64) :
    ∃ h, build E xs = .ok h
      ∧ heistogram_count h = xs.length
      ∧ (xs = [] → heistogram_min h = 0 ∧ heistogram_max h = 0)
      ∧ (xs ≠ [] → heistogram_min h ∈ xs ∧ (∀ x ∈ xs, heistogram_min h ≤ x)
          ∧ heistogram_max h ∈ xs ∧ ∀ x ∈ xs, x ≤ heistogram_max h) := by
  obtain ⟨h, e, b⟩ := build_built E xs hlen
  exact ⟨h, e, b.total, fun he => ⟨(b.empty he).1, (b.empty he).2.1⟩,
    fun hne => ⟨b.min_mem hne, b.min_le, b.max_mem hne, b.max_ge⟩⟩

/-- C3, amended, at the values of the basic functionality test. -/
theorem heistogram_add_count_min_max_witness :
    [100, 200, 300, 400, 500, 5, 5000].length < U64
    ∧ ∃ h, build exactEnv [100, 200, 300, 400, 500, 5, 5000] = .ok h
      ∧ heistogram_count h = [100, 200, 300, 400, 500, 5, 5000].length
      ∧ ([100, 200, 300, 400, 500, 5, 5000] = [] → heistogram_min h = 0 ∧ heistogram_max h = 0)
      ∧ ([100, 200, 300, 400, 500, 5, 5000] ≠ [] →
          heistogram_min h ∈ [100, 200, 300, 400, 500, 5, 5000]
          ∧ (∀ x ∈ [100, 200, 300, 400, 500, 5, 5000], heistogram_min h ≤ x)
          ∧ heistogram_max h ∈ [100, 200, 300, 400, 500, 5, 5000]
          ∧ ∀ x ∈ [100, 200, 300, 400, 500, 5, 5000], x ≤ heistogram_max h) :=
  ⟨by decide, heistogram_add_count_min_max exactEnv _ (by decide)⟩

/-! ## Merging live histograms -/

/-- The loop adding the first `n` counters of `src` to `dst`. -/
theorem add_counts_eq (dst src : List Nat) (n : Nat) (hd : n ≤ dst.length) (hs : n ≤ src.length) :
    ∃ r, add_counts dst src n = .ok r ∧ r.length = dst.length
      ∧ ∀ i, r.getD i 0 = if i < n then (dst.getD i 0 + src.getD i 0) % U64 else dst.getD i 0 := by
  induction n with
  | zero => exact ⟨dst, rfl, rfl, fun i => by simp⟩
  | succ n ih =>
    obtain ⟨r, e, hl, hg⟩ := ih (by omega) (by omega)
    refine ⟨r.set n ((r.getD n 0 + src.getD n 0) % U64), ?_, by simp [hl], ?_⟩
    · simp only [add_counts, bind, Except.bind, e]
      rw [read_bucket_eq _ _ (by omega)]
      dsimp only
      rw [read_bucket_eq _ _ (by omega)]
      dsimp only
      rw [write_bucket_eq _ _ _ (by omega)]
    · intro i
      rw [getD_set _ _ _ _ (by omega)]
      by_cases hi : i = n
      · subst hi
        rw [if_pos rfl, if_pos (by omega), hg, if_neg (by omega)]
      · rw [if_neg hi, hg]
        by_cases hlt : i < n
        · rw [if_pos hlt, if_pos (by omega)]
        · rw [if_neg hlt, if_neg (by omega)]

theorem getD_replicate_zero (n i : Nat) : (List.replicate n 0).getD i 0 = 0 := by
  simp

theorem getD_take (bs : List Nat) (n i : Nat) :
    (bs.take n).getD i 0 = if i < n then bs.getD i 0 else 0 := by
  simp only [List.getD_eq_getElem?_getD, List.getElem?_take]
  split <;> simp

theorem getD_of_length_le (bs : List Nat) (i : Nat) (h : bs.length ≤ i) : bs.getD i 0 = 0 := by
  simp [List.getD_eq_getElem?_getD, List.getElem?_eq_none h]

/-- The resize block: the result has capacity `max capacity n`, an array of at
least that length, and the counts it had below its old capacity. -/
theorem resize_result_eq (h : Heistogram) (n : Nat) (hcap : h.capacity ≤ h.buckets.length) :
    ∃ r, resize_result h n = .ok r
      ∧ r.capacity = max h.capacity n
      ∧ r.capacity ≤ r.buckets.length
      ∧ r.total_count = h.total_count ∧ r.min = h.min ∧ r.max = h.max
      ∧ r.min_bucket_id = h.min_bucket_id
      ∧ (n ≤ h.capacity → r = h)
      ∧ (h.buckets.length = h.capacity → r.buckets.length = r.capacity)
      ∧ ∀ i, i < r.capacity → r.buckets.getD i 0 = bucket_count h i := by
  unfold resize_result
  by_cases hn : n > h.capacity
  · simp only [hn, if_true, grow_buckets, hcap, and_true, Nat.le_of_lt hn]
    refine ⟨_, rfl, ?_, ?_, rfl, rfl, rfl, rfl, fun hle => absurd hle (by omega), ?_, ?_⟩
    · dsimp only; omega
    · simp; omega
    · intro _; simp; omega
    · intro i _
      dsimp only
      rw [getD_append_zeros, getD_take]
      rfl
  · simp only [hn, if_false]
    refine ⟨h, rfl, ?_, hcap, rfl, rfl, rfl, rfl, fun _ => rfl, fun e => e, ?_⟩
    · dsimp only; omega
    · intro i hi
      have : i < h.capacity := by omega
      simp [bucket_count, this]

theorem bucket_count_create (i : Nat) : bucket_count heistogram_create i = 0 := by
  unfold bucket_count heistogram_create
  split
  · exact getD_replicate_zero 16 i
  · rfl

/-- What `heistogram_merge` returns on two well-allocated histograms. -/
theorem heistogram_merge_eq (a b : Heistogram) (ha : a.capacity ≤ a.buckets.length)
    (hb : b.capacity ≤ b.buckets.length) :
    ∃ r, heistogram_merge a b = .ok r
      ∧ r.capacity = max 16 (max a.capacity b.capacity)
      ∧ r.buckets.length = r.capacity
      ∧ r.total_count = (a.total_count + b.total_count) % U64
      ∧ r.min = min a.min b.min
      ∧ r.max = max a.max b.max
      ∧ r.min_bucket_id = min a.min_bucket_id b.min_bucket_id
      ∧ ∀ i, bucket_count r i = (bucket_count a i + bucket_count b i) % U64 := by
  obtain ⟨r0, e0, c0, -, -, -, -, -, -, l0, g0⟩ :=
    resize_result_eq heistogram_create (if a.capacity > b.capacity then a.capacity else b.capacity)
      (by simp [heistogram_create])
  have l0 := l0 (by simp [heistogram_create])
  have hc16 : heistogram_create.capacity = 16 := rfl
  have hmc : (if a.capacity > b.capacity then a.capacity else b.capacity)
      = max a.capacity b.capacity := by split <;> omega
  rw [hmc, hc16] at c0
  obtain ⟨b1, e1, l1, g1⟩ := add_counts_eq r0.buckets a.buckets a.capacity (by omega) ha
  obtain ⟨b2, e2, l2, g2⟩ := add_counts_eq b1 b.buckets b.capacity (by omega) hb
  refine ⟨{ r0 with
      buckets := b2
      total_count := (a.total_count + b.total_count) % U64
      min := if a.min < b.min then a.min else b.min
      max := if a.max > b.max then a.max else b.max
      min_bucket_id := if a.min_bucket_id < b.min_bucket_id then a.min_bucket_id
                       else b.min_bucket_id }, ?_, c0, by dsimp only; omega, rfl,
      by dsimp only; split <;> omega, by dsimp only; split <;> omega,
      by dsimp only; split <;> omega, ?_⟩
  · simp only [heistogram_merge, bind, Except.bind, e0, e1, e2, pure, Except.pure]
  · intro i
    simp only [bucket_count]
    by_cases hi : i < r0.capacity
    · rw [if_pos hi, g2, g1, g0 i hi, bucket_count_create]
      unfold U64
      split <;> split <;> omega
    · rw [if_neg hi, if_neg (by omega), if_neg (by omega)]
      rfl

/-- What `heistogram_merge_inplace` leaves in its first operand. -/
theorem heistogram_merge_inplace_eq (a b : Heistogram) (ha : a.capacity ≤ a.buckets.length)
    (hb : b.capacity ≤ b.buckets.length) :
    ∃ r, heistogram_merge_inplace a b = .ok r
      ∧ r.capacity = max a.capacity b.capacity
      ∧ r.capacity ≤ r.buckets.length
      ∧ r.total_count = (a.total_count + b.total_count) % U64
      ∧ r.min = min a.min b.min
      ∧ r.max = max a.max b.max
      ∧ r.min_bucket_id = min a.min_bucket_id b.min_bucket_id
      ∧ ∀ i, bucket_count r i =
          if i < b.capacity then (bucket_count a i + bucket_count b i) % U64
          else bucket_count a i := by
  obtain ⟨r0, e0, c0, l0, t0, m0, x0, mb0, -, -, g0⟩ := resize_result_eq a b.capacity ha
  obtain ⟨b1, e1, l1, g1⟩ := add_counts_eq r0.buckets b.buckets b.capacity (by omega) hb
  refine ⟨{ r0 with
      buckets := b1
      total_count := (r0.total_count + b.total_count) % U64
      min := if b.min < r0.min then b.min else r0.min
      max := if b.max > r0.max then b.max else r0.max
      min_bucket_id := if b.min_bucket_id < r0.min_bucket_id then b.min_bucket_id
                       else r0.min_bucket_id }, ?_, c0, by dsimp only; omega, by rw [t0],
      by dsimp only; rw [m0]; split <;> omega, by dsimp only; rw [x0]; split <;> omega,
      by dsimp only; rw [mb0]; split <;> omega, ?_⟩
  · simp only [heistogram_merge_inplace, bind, Except.bind, e0, e1, pure, Except.pure]
  · intro i
    simp only [bucket_count]
    by_cases hi : i < r0.capacity
    · rw [if_pos hi, g1, g0 i hi]
      simp only [bucket_count]
      split
      · rfl
      · rfl
    · rw [if_neg hi, if_neg (by omega), if_neg (by omega)]

/-- C4 as stated fails: merging the histogram that holds `2^63` copies of the
value 5 with itself gives total count 0 and count 0 in bucket 5, not the sums
`2^64`. -/
theorem heistogram_merge_sum_wraps :
    ∃ r, heistogram_merge half_full half_full = .ok r
      ∧ r.total_count = 0
      ∧ r.total_count ≠ half_full.total_count + half_full.total_count
      ∧ bucket_count r 5 = 0
      ∧ bucket_count r 5 ≠ bucket_count half_full 5 + bucket_count half_full 5 :=
  ⟨_, rfl, by decide, by decide, by decide, by decide⟩

/-- C4, amended: for all histograms `a` and `b` whose capacity lies within
their counter array, `heistogram_merge` returns a histogram whose total count
is the sum of the two total counts modulo `2^64`, whose min, max and
min_bucket_id are the smaller min, the larger max and the smaller
min_bucket_id, and whose count in every bucket id is the sum of the two counts
modulo `2^64`, an id at or beyond an operand's capacity counting as zero. -/
theorem heistogram_merge_fields (a b : Heistogram) (ha : a.capacity ≤ a.buckets.length)
    (hb : b.capacity ≤ b.buckets.length) :
    ∃ r, heistogram_merge a b = .ok r
      ∧ r.total_count = (a.total_count + b.total_count) % U64
      ∧ r.min = min a.min b.min
      ∧ r.max = max a.max b.max
      ∧ r.min_bucket_id = min a.min_bucket_id b.min_bucket_id
      ∧ ∀ i, bucket_count r i = (bucket_count a i + bucket_count b i) % U64 := by
  obtain ⟨r, e, -, -, t, mn, mx, mb, g⟩ := heistogram_merge_eq a b ha hb
  exact ⟨r, e, t, mn, mx, mb, g⟩

/-- C4, amended, at the histogram of `2^63` copies of 5 merged with the fresh
histogram. -/
theorem heistogram_merge_fields_witness :
    half_full.capacity ≤ half_full.buckets.length
    ∧ heistogram_create.capacity ≤ heistogram_create.buckets.length
    ∧ ∃ r, heistogram_merge half_full heistogram_create = .ok r
      ∧ r.total_count = (half_full.total_count + heistogram_create.total_count) % U64
      ∧ r.min = min half_full.min heistogram_create.min
      ∧ r.max = max half_full.max heistogram_create.max
      ∧ r.min_bucket_id = min half_full.min_bucket_id heistogram_create.min_bucket_id
      ∧ ∀ i, bucket_count r i
          = (bucket_count half_full i + bucket_count heistogram_create i) % U64 :=
  ⟨by decide, by decide,
    heistogram_merge_fields half_full heistogram_create (by decide) (by decide)⟩

theorem bucket_count_built (E : Env) (xs : List Nat) (h : Heistogram) (hb : BuiltFrom E xs h)
    (i : Nat) : bucket_count h i = (xs.map (get_bucket_id E)).count i := by
  unfold bucket_count
  split
  · exact hb.counts i
  · rw [← hb.counts i, getD_of_length_le _ _ (by rw [hb.length_eq]; omega)]

theorem count_map_le_length (E : Env) (xs : List Nat) (i : Nat) :
    (xs.map (get_bucket_id E)).count i ≤ xs.length :=
  le_trans (List.count_le_length _ _) (by simp)

/-- C5 as stated fails at `xs = ys =` the sequence of `2^63` zeros: the merge
of the two built histograms has count 0, not `|xs| + |ys| = 2^64`. -/
theorem heistogram_merge_count_wraps :
    ∃ a m, build exactEnv (List.replicate (2 ^ 63) 0) = .ok a
      ∧ heistogram_merge a a = .ok m
      ∧ heistogram_count m = 0
      ∧ heistogram_count m
          ≠ (List.replicate (2 ^ 63) 0).length + (List.replicate (2 ^ 63) 0).length :=
  ⟨_, _, build_zeros exactEnv (2 ^ 63), rfl, by decide, by
    rw [List.length_replicate]; decide⟩

/-- C5, amended: for two non-empty value sequences of fewer than `2^64`
values together, the merge of the histograms built from `xs` and from `ys`
has count `|xs| + |ys|`, min and max the least and greatest value of
`xs ++ ys`, and in every bucket id the count of the histogram built from
`xs ++ ys`. -/
theorem heistogram_merge_built (E : Env) (xs ys : List Nat) (hx : xs ≠ []) (hy : ys ≠ [])
    (hlen : xs.length + ys.length < U64) :
    ∃ a b m c, build E xs = .ok a ∧ build E ys = .ok b ∧ heistogram_merge a b = .ok m
      ∧ build E (xs ++ ys) = .ok c
      ∧ heistogram_count m = xs.length + ys.length
      ∧ heistogram_min m ∈ xs ++ ys ∧ (∀ v ∈ xs ++ ys, heistogram_min m ≤ v)
      ∧ heistogram_max m ∈ xs ++ ys ∧ (∀ v ∈ xs ++ ys, v ≤ heistogram_max m)
      ∧ ∀ i, bucket_count m i = bucket_count c i := by
  obtain ⟨a, ea, ba⟩ := build_built E xs (by omega)
  obtain ⟨b, eb, bb⟩ := build_built E ys (by omega)
  obtain ⟨c, ec, bc⟩ := build_built E (xs ++ ys) (by simpa using hlen)
  obtain ⟨m, em, -, -, t, mn, mx, -, g⟩ := heistogram_merge_eq a b
    (by rw [ba.length_eq]) (by rw [bb.length_eq])
  have hamin := ba.min_mem hx
  have hbmin := bb.min_mem hy
  have hamax := ba.max_mem hx
  have hbmax := bb.max_mem hy
  refine ⟨a, b, m, c, ea, eb, em, ec, ?_, ?_, ?_, ?_, ?_, ?_⟩
  · show m.total_count = _
    rw [t, ba.total, bb.total, Nat.mod_eq_of_lt hlen]
  · show m.min ∈ _
    rw [mn]
    rcases Nat.le_total a.min b.min with h | h
    · rw [Nat.min_eq_left h]; exact List.mem_append_left _ hamin
    · rw [Nat.min_eq_right h]; exact List.mem_append_right _ hbmin
  · intro v hv
    show m.min ≤ v
    rw [mn]
    rcases List.mem_append.mp hv with hv | hv
    · exact le_trans (Nat.min_le_left _ _) (ba.min_le v hv)
    · exact le_trans (Nat.min_le_right _ _) (bb.min_le v hv)
  · show m.max ∈ _
    rw [mx]
    rcases Nat.le_total a.max b.max with h | h
    · rw [Nat.max_eq_right h]; exact List.mem_append_right _ hbmax
    · rw [Nat.max_eq_left h]; exact List.mem_append_left _ hamax
  · intro v hv
    show v ≤ m.max
    rw [mx]
    rcases List.mem_append.mp hv with hv | hv
    · exact le_trans (ba.max_ge v hv) (Nat.le_max_left _ _)
    · exact le_trans (bb.max_ge v hv) (Nat.le_max_right _ _)
  · intro i
    rw [g, bucket_count_built E xs a ba, bucket_count_built E ys b bb,
      bucket_count_built E (xs ++ ys) c bc, List.map_append, List.count_append]
    have h1 := count_map_le_length E xs i
    have h2 := count_map_le_length E ys i
    exact Nat.mod_eq_of_lt (by omega)

/-- C5, amended, at the halves of the merge test, shortened: 1..5 and 51..55. -/
theorem heistogram_merge_built_witness :
    [1, 2, 3, 4, 5] ≠ [] ∧ [51, 52, 53, 54, 55] ≠ []
    ∧ [1, 2, 3, 4, 5].length + [51, 52, 53, 54, 55].length < U64
    ∧ ∃ a b m c, build exactEnv [1, 2, 3, 4, 5] = .ok a
      ∧ build exactEnv [51, 52, 53, 54, 55] = .ok b ∧ heistogram_merge a b = .ok m
      ∧ build exactEnv ([1, 2, 3, 4, 5] ++ [51, 52, 53, 54, 55]) = .ok c
      ∧ heistogram_count m = [1, 2, 3, 4, 5].length + [51, 52, 53, 54, 55].length
      ∧ heistogram_min m ∈ [1, 2, 3, 4, 5] ++ [51, 52, 53, 54, 55]
      ∧ (∀ v ∈ [1, 2, 3, 4, 5] ++ [51, 52, 53, 54, 55], heistogram_min m ≤ v)
      ∧ heistogram_max m ∈ [1, 2, 3, 4, 5] ++ [51, 52, 53, 54, 55]
      ∧ (∀ v ∈ [1, 2, 3, 4, 5] ++ [51, 52, 53, 54, 55], v ≤ heistogram_max m)
      ∧ ∀ i, bucket_count m i = bucket_count c i :=
  ⟨by decide, by decide, by decide,
    heistogram_merge_built exactEnv _ _ (by decide) (by decide) (by decide)⟩

theorem getD_lt_of_forall (bs : List Nat) (h : ∀ c ∈ bs, c < U64) (i : Nat) :
    bs.getD i 0 < U64 := by
  by_cases hi : i < bs.length
  · rw [List.getD_eq_getElem _ _ hi]
    exact h _ (List.getElem_mem _)
  · rw [getD_of_length_le _ _ (by omega)]
    decide

/-- On values: for all well-formed histograms `a` and `b`, the state that
`heistogram_merge_inplace` computes for its first operand has the total count,
min, max, min_bucket_id and count in every bucket id of the histogram that
`heistogram_merge` returns for `a` and `b`.  What the call does to the two
histograms in memory is `heistogram_merge_inplace_at`. -/
theorem heistogram_merge_inplace_agrees (a b : Heistogram) (ha : WellFormed a)
    (hb : WellFormed b) :
    ∃ r m, heistogram_merge_inplace a b = .ok r ∧ heistogram_merge a b = .ok m
      ∧ r.total_count = m.total_count ∧ r.min = m.min ∧ r.max = m.max
      ∧ r.min_bucket_id = m.min_bucket_id
      ∧ ∀ i, bucket_count r i = bucket_count m i := by
  obtain ⟨m, em, -, -, t, mn, mx, mb, g⟩ := heistogram_merge_eq a b ha.cap_le hb.cap_le
  obtain ⟨r, er, c, -, t2, mn2, mx2, mb2, g2⟩ := heistogram_merge_inplace_eq a b ha.cap_le hb.cap_le
  refine ⟨r, m, er, em, by rw [t, t2], by rw [mn, mn2], by rw [mx, mx2], by rw [mb, mb2], ?_⟩
  intro i
  rw [g, g2]
  split
  · rfl
  · have hz : bucket_count b i = 0 := by
      unfold bucket_count; rw [if_neg (by assumption)]
    have hlt : bucket_count a i < U64 := by
      unfold bucket_count
      split
      · exact getD_lt_of_forall _ ha.counts_lt i
      · decide
    rw [hz, Nat.add_zero, Nat.mod_eq_of_lt hlt]

/-- The agreement on values at the histogram of `2^63` copies of 5 and the fresh
histogram. -/
theorem heistogram_merge_inplace_agrees_witness :
    WellFormed heistogram_create ∧ WellFormed half_full
    ∧ ∃ r m, heistogram_merge_inplace heistogram_create half_full = .ok r
      ∧ heistogram_merge heistogram_create half_full = .ok m
      ∧ r.total_count = m.total_count ∧ r.min = m.min ∧ r.max = m.max
      ∧ r.min_bucket_id = m.min_bucket_id
      ∧ ∀ i, bucket_count r i = bucket_count m i :=
  ⟨⟨by decide, by decide⟩, ⟨by decide, by decide⟩,
    heistogram_merge_inplace_agrees heistogram_create half_full
      ⟨by decide, by decide⟩ ⟨by decide, by decide⟩⟩

/-! ## The varint codec -/

/-- C1, evaluated at `2^48`: `encode_varint` writes the first byte
`(uint8_t)(249 + 7) = 0` and seven payload bytes, and `decode_varint` reads
these eight bytes as the one-byte value 0. -/
theorem varint_roundtrip_fails_at_two_pow_48 :
    encode_varint two_pow_48 = [0, 1, 0, 0, 0, 0, 0, 0]
    ∧ decode_varint (encode_varint two_pow_48) = .ok (0, 1) :=
  ⟨by decide, rfl⟩

/-! ## Serialization -/

/-- The search for the highest used bucket stops at the highest non-zero
counter below `k`. -/
theorem scan_top_eq (bs : List Nat) (k j : Nat) (hk : k ≤ bs.length) (hj : j < k)
    (hnz : bs.getD j 0 ≠ 0) (hz : ∀ i, j < i → i < k → bs.getD i 0 = 0) :
    scan_top bs k = .ok (j + 1) := by
  induction k with
  | zero => omega
  | succ k ih =>
    unfold scan_top
    rw [read_bucket_eq _ _ (by omega)]
    dsimp only
    by_cases hjk : j = k
    · subst hjk
      rw [if_neg hnz]
    · rw [if_pos (hz k (by omega) (by omega))]
      exact ih (by omega) (by omega) (fun i h1 h2 => hz i h1 (by omega))

theorem toInt16_pred (c : Nat) (h1 : 0 < c) (h2 : c ≤ 32768) :
    toInt16 (c + (U16 - 1)) = (c : Int) - 1 := by
  unfold toInt16 U16
  have : (c + (65536 - 1)) % 65536 = c - 1 := by omega
  rw [this]
  split <;> omega

theorem serialize_top_eq (h : Heistogram) (j : Nat) (hlen : h.buckets.length = h.capacity)
    (hc : h.capacity ≤ 32768) (hj : j < h.capacity)
    (hnz : h.buckets.getD j 0 ≠ 0) (hz : ∀ i, j < i → i < h.capacity → h.buckets.getD i 0 = 0) :
    serialize_top h = .ok (j : Int) := by
  unfold serialize_top
  rw [toInt16_pred _ (by omega) hc]
  have h1 : ¬ ((h.capacity : Int) - 1 < 0) := by omega
  have h2 : ((h.capacity : Int) - 1).toNat + 1 = h.capacity := by omega
  simp only [h1, if_false, h2]
  rw [scan_top_eq _ _ j (by omega) hj hnz hz]
  simp

theorem encode_buckets_eq (bs : List Nat) (lo n : Nat) (h : lo + n ≤ bs.length) :
    encode_buckets bs lo n = .ok (bucket_run bs lo n) := by
  induction n with
  | zero => rfl
  | succ n ih =>
    unfold encode_buckets
    rw [read_bucket_eq _ _ (by omega)]
    dsimp only
    rw [ih (by omega)]
    rfl

/-- The bytes `heistogram_serialize` produces for a histogram built from
64-bit values, `top` being the highest bucket id of an inserted value. -/
theorem heistogram_serialize_built (E : Env) (xs : List Nat) (h : Heistogram)
    (hb : BuiltFrom E xs h) (hv : ∀ x ∈ xs, x < U64) (top : Nat)
    (hmem : top ∈ xs.map (get_bucket_id E)) (hmax : ∀ x ∈ xs, get_bucket_id E x ≤ top) :
    heistogram_serialize h = .ok
      (encode_varint (top - h.min_bucket_id + 1)
        ++ encode_varint h.total_count
        ++ encode_varint h.min
        ++ encode_varint (h.max - h.min)
        ++ encode_varint h.min_bucket_id
        ++ bucket_run h.buckets h.min_bucket_id (top - h.min_bucket_id + 1)) := by
  obtain ⟨x, hx, hxt⟩ := List.mem_map.mp hmem
  have hne : xs ≠ [] := List.ne_nil_of_mem hx
  have hcap := hb.cap_le
  have htop : top < h.capacity := hxt ▸ hb.bid_lt x hx
  have hmb : h.min_bucket_id ≤ top := hxt ▸ hb.mbid_le x hx
  have hnz : h.buckets.getD top 0 ≠ 0 := by
    rw [hb.counts]
    exact Nat.pos_iff_ne_zero.mp (List.count_pos_iff.mpr hmem)
  have hz : ∀ i, top < i → i < h.capacity → h.buckets.getD i 0 = 0 := by
    intro i hi _
    rw [hb.counts]
    apply List.count_eq_zero.mpr
    intro hmem2
    obtain ⟨y, hy, hyi⟩ := List.mem_map.mp hmem2
    have := hmax y hy
    omega
  have etop := serialize_top_eq h top hb.length_eq (by omega) htop hnz hz
  have hspan : ((top : Int) - (h.min_bucket_id : Int) + 1) = ((top - h.min_bucket_id + 1 : Nat) : Int) := by
    omega
  have hmin := hb.min_le _ (hb.max_mem hne)
  have hmaxlt := hv _ (hb.max_mem hne)
  have hdelta : (h.max + (U64 - h.min % U64)) % U64 = h.max - h.min := by
    unfold U64 at *; omega
  have hspan2 : (((top - h.min_bucket_id + 1 : Nat) : Int) % (U64 : Int)).toNat
      = top - h.min_bucket_id + 1 := by
    unfold U64; omega
  simp only [heistogram_serialize, bind, Except.bind, etop, hspan, Int.toNat_ofNat, pure,
    Except.pure, hdelta, hspan2]
  rw [encode_buckets_eq _ _ _ (by rw [hb.length_eq]; omega)]

/-- The histogram holding one value, and its serialization. -/
theorem build_single (E : Env) (v : Nat) (hv : v < U64) :
    ∃ h, build E [v] = .ok h ∧ BuiltFrom E [v] h
      ∧ h.total_count = 1 ∧ h.min = v ∧ h.max = v ∧ h.min_bucket_id = get_bucket_id E v
      ∧ bucket_count h (get_bucket_id E v) = 1
      ∧ heistogram_serialize h = .ok
          (1 :: 1 :: (encode_varint v ++ 0 :: (encode_varint (get_bucket_id E v) ++ [1]))) := by
  obtain ⟨h, e, b⟩ := build_built E [v] (by unfold U64; simp)
  have hmin : h.min = v := List.mem_singleton.mp (b.min_mem (by simp))
  have hmax : h.max = v := List.mem_singleton.mp (b.max_mem (by simp))
  have hmb : h.min_bucket_id = get_bucket_id E v := by
    obtain ⟨y, hy, e⟩ := b.mbid_mem (by simp)
    rw [e, List.mem_singleton.mp hy]
  have hcnt : h.buckets.getD (get_bucket_id E v) 0 = 1 := by
    rw [b.counts]; simp
  have hbc : bucket_count h (get_bucket_id E v) = 1 := by
    rw [bucket_count_built E [v] h b]; simp
  refine ⟨h, e, b, by rw [b.total]; rfl, hmin, hmax, hmb, hbc, ?_⟩
  rw [heistogram_serialize_built E [v] h b (by simpa using hv) (get_bucket_id E v) (by simp)
    (by simp)]
  rw [b.total, hmin, hmax, hmb]
  have e1 : encode_varint 1 = [1] := by decide
  have e0 : encode_varint 0 = [0] := by decide
  have eb : encode_bucket 1 = [1] := by decide
  simp only [Nat.sub_self, Nat.zero_add, List.length_singleton, bucket_run, Nat.add_zero, hcnt,
    e1, e0, eb, List.append_assoc, List.singleton_append, List.append_nil, List.cons_append,
    List.nil_append]

/-- C2, evaluated at the histogram holding the single value `2^48`:
serialization succeeds, deserialization of the bytes succeeds, but the
histogram read back has min 0, max 1 and an empty bucket where the original has
min `2^48`, max `2^48` and count 1. -/
theorem deserialize_serialize_two_pow_48 (E : Env) :
    ∃ h bytes r, build E [two_pow_48] = .ok h ∧ heistogram_serialize h = .ok bytes
      ∧ heistogram_deserialize bytes bytes.length = .ok r
      ∧ heistogram_min h = two_pow_48 ∧ heistogram_min r = 0
      ∧ heistogram_max h = two_pow_48 ∧ heistogram_max r = 1
      ∧ bucket_count h (get_bucket_id E two_pow_48) = 1
      ∧ bucket_count r (get_bucket_id E two_pow_48) = 0 := by
  obtain ⟨h, e, -, -, hmin, hmax, -, hbc, es⟩ := build_single E two_pow_48 (by decide)
  have henc : encode_varint two_pow_48 = [0, 1, 0, 0, 0, 0, 0, 0] := by decide
  rw [henc] at es
  refine ⟨h, _, ⟨16, 0, 1, 0, 1, List.replicate 16 0⟩, e, es, rfl, hmin, rfl, hmax, rfl, hbc, ?_⟩
  unfold bucket_count
  split
  · exact getD_replicate_zero _ _
  · rfl

theorem get_bucket_id_ge (E : Env) (v : Nat) (hv : 57 < v) : 58 ≤ get_bucket_id E v := by
  unfold get_bucket_id HEIST_MAX_UNMAPPED_BUCKET HEIST_BUCKET_MAPPING_DELTA
  have := E.log_scaled_ge v hv
  rw [if_neg (by omega)]
  omega

/-! ## Merging serialized histograms -/

/-- C7, evaluated at `a` holding the value 1 and `b` holding the value `2^48`:
`heistogram_merge_serialized(a, serialize(b))` returns a histogram with min 0,
max 1 and nothing in the bucket of `2^48`, where `heistogram_merge(a, b)` has
min 1, max `2^48` and count 1 in that bucket. -/
theorem merge_serialized_two_pow_48 (E : Env) :
    ∃ a b bytes r m, build E [1] = .ok a ∧ build E [two_pow_48] = .ok b
      ∧ heistogram_serialize b = .ok bytes
      ∧ heistogram_merge_serialized a bytes bytes.length = .ok r
      ∧ heistogram_merge a b = .ok m
      ∧ r.min = 0 ∧ m.min = 1 ∧ r.max = 1 ∧ m.max = two_pow_48
      ∧ bucket_count r (get_bucket_id E two_pow_48) = 0
      ∧ bucket_count m (get_bucket_id E two_pow_48) = 1 := by
  obtain ⟨b, eb, bb, -, hmin, hmax, -, hbc, es⟩ := build_single E two_pow_48 (by decide)
  obtain ⟨a, ea, ba, -, hamin, hamax, -, -, -⟩ := build_single E 1 (by decide)
  have ea2 : build E [1] = .ok ⟨16, 1, 1, 1, 1, [0, 1, 0, 0, 0, 0, 0, 0, 0, 0, 0, 0, 0, 0, 0, 0]⟩ := rfl
  have ha : a = ⟨16, 1, 1, 1, 1, [0, 1, 0, 0, 0, 0, 0, 0, 0, 0, 0, 0, 0, 0, 0, 0]⟩ := by
    rw [ea] at ea2; exact Except.ok.inj ea2
  have henc : encode_varint two_pow_48 = [0, 1, 0, 0, 0, 0, 0, 0] := by decide
  rw [henc] at es
  obtain ⟨m, em, -, -, -, mn, mx, -, g⟩ := heistogram_merge_eq a b
    (by rw [ba.length_eq]) (by rw [bb.length_eq])
  have hbid := get_bucket_id_ge E two_pow_48 (by decide)
  refine ⟨a, b, _, ⟨16, 0, 2, 0, 1, [0, 1, 0, 0, 0, 0, 0, 0, 0, 0, 0, 0, 0, 0, 0, 0]⟩, m,
    ea, eb, es, ?_, em, rfl, ?_, rfl, ?_, ?_, ?_⟩
  · subst ha
    rfl
  · rw [mn, hamin, hmin]; decide
  · rw [mx, hamax, hmax]; decide
  · unfold bucket_count
    rw [if_neg (by dsimp only; omega)]
  · rw [g, hbc]
    subst ha
    unfold bucket_count
    rw [if_neg (by dsimp only; omega)]
    decide

/-- C8, evaluated at `a` holding the value 1 and `b` holding the value `2^48`:
`heistogram_merge_two_serialized(serialize(a), serialize(b))` returns a
histogram with min 0, max 1 and nothing in the bucket of `2^48`, where
`heistogram_merge(a, b)` has min 1, max `2^48` and count 1 in that bucket. -/
theorem merge_two_serialized_two_pow_48 (E : Env) :
    ∃ a b bytes_a bytes_b r m, build E [1] = .ok a ∧ build E [two_pow_48] = .ok b
      ∧ heistogram_serialize a = .ok bytes_a ∧ heistogram_serialize b = .ok bytes_b
      ∧ heistogram_merge_two_serialized bytes_a bytes_a.length bytes_b bytes_b.length = .ok r
      ∧ heistogram_merge a b = .ok m
      ∧ r.min = 0 ∧ m.min = 1 ∧ r.max = 1 ∧ m.max = two_pow_48
      ∧ bucket_count r (get_bucket_id E two_pow_48) = 0
      ∧ bucket_count m (get_bucket_id E two_pow_48) = 1 := by
  obtain ⟨b, eb, bb, -, hmin, hmax, -, hbc, es⟩ := build_single E two_pow_48 (by decide)
  obtain ⟨a, ea, ba, -, hamin, hamax, -, -, -⟩ := build_single E 1 (by decide)
  have ea2 : build E [1] = .ok ⟨16, 1, 1, 1, 1, [0, 1, 0, 0, 0, 0, 0, 0, 0, 0, 0, 0, 0, 0, 0, 0]⟩ := rfl
  have ha : a = ⟨16, 1, 1, 1, 1, [0, 1, 0, 0, 0, 0, 0, 0, 0, 0, 0, 0, 0, 0, 0, 0]⟩ := by
    rw [ea] at ea2; exact Except.ok.inj ea2
  have henc : encode_varint two_pow_48 = [0, 1, 0, 0, 0, 0, 0, 0] := by decide
  rw [henc] at es
  obtain ⟨m, em, -, -, -, mn, mx, -, g⟩ := heistogram_merge_eq a b
    (by rw [ba.length_eq]) (by rw [bb.length_eq])
  have hbid := get_bucket_id_ge E two_pow_48 (by decide)
  refine ⟨a, b, [1, 1, 1, 0, 1, 1], _,
    ⟨16, 0, 2, 0, 1, [0, 1, 0, 0, 0, 0, 0, 0, 0, 0, 0, 0, 0, 0, 0, 0]⟩, m,
    ea, eb, ?_, es, rfl, em, rfl, ?_, rfl, ?_, ?_, ?_⟩
  · subst ha
    rfl
  · rw [mn, hamin, hmin]; decide
  · rw [mx, hamax, hmax]; decide
  · unfold bucket_count
    rw [if_neg (by dsimp only; omega)]
  · rw [g, hbc]
    subst ha
    unfold bucket_count
    rw [if_neg (by dsimp only; omega)]
    decide

/-- C10, evaluated at `a` holding the value 1 and `b` holding the value `2^48`:
`heistogram_merge_inplace_serialized(a, serialize(b))` leaves in `a` min 0,
max 1 and nothing in the bucket of `2^48`, where `heistogram_merge(a, b)` has
min 1, max `2^48` and count 1 in that bucket. -/
theorem merge_inplace_serialized_two_pow_48 (E : Env) :
    ∃ a b bytes r m, build E [1] = .ok a ∧ build E [two_pow_48] = .ok b
      ∧ heistogram_serialize b = .ok bytes
      ∧ heistogram_merge_inplace_serialized a bytes bytes.length = .ok r
      ∧ heistogram_merge a b = .ok m
      ∧ r.min = 0 ∧ m.min = 1 ∧ r.max = 1 ∧ m.max = two_pow_48
      ∧ bucket_count r (get_bucket_id E two_pow_48) = 0
      ∧ bucket_count m (get_bucket_id E two_pow_48) = 1 := by
  obtain ⟨b, eb, bb, -, hmin, hmax, -, hbc, es⟩ := build_single E two_pow_48 (by decide)
  obtain ⟨a, ea, ba, -, hamin, hamax, -, -, -⟩ := build_single E 1 (by decide)
  have ea2 : build E [1] = .ok ⟨16, 1, 1, 1, 1, [0, 1, 0, 0, 0, 0, 0, 0, 0, 0, 0, 0, 0, 0, 0, 0]⟩ := rfl
  have ha : a = ⟨16, 1, 1, 1, 1, [0, 1, 0, 0, 0, 0, 0, 0, 0, 0, 0, 0, 0, 0, 0, 0]⟩ := by
    rw [ea] at ea2; exact Except.ok.inj ea2
  have henc : encode_varint two_pow_48 = [0, 1, 0, 0, 0, 0, 0, 0] := by decide
  rw [henc] at es
  obtain ⟨m, em, -, -, -, mn, mx, -, g⟩ := heistogram_merge_eq a b
    (by rw [ba.length_eq]) (by rw [bb.length_eq])
  have hbid := get_bucket_id_ge E two_pow_48 (by decide)
  refine ⟨a, b, _, ⟨16, 0, 2, 0, 1, [0, 1, 0, 0, 0, 0, 0, 0, 0, 0, 0, 0, 0, 0, 0, 0]⟩, m,
    ea, eb, es, ?_, em, rfl, ?_, rfl, ?_, ?_, ?_⟩
  · subst ha
    rfl
  · rw [mn, hamin, hmin]; decide
  · rw [mx, hamax, hmax]; decide
  · unfold bucket_count
    rw [if_neg (by dsimp only; omega)]
  · rw [g, hbc]
    subst ha
    unfold bucket_count
    rw [if_neg (by dsimp only; omega)]
    decide

/-! ## Percentiles -/

/-- The bucket loop of `heistogram_percentile` passes over empty buckets. -/
theorem percentile_scan_skip {D : Type} (F : FloatOps D) (E : Env) (h : Heistogram) (t : D)
    (k j cs : Nat) (hk : k ≤ h.buckets.length) (hj : j < k)
    (hz : ∀ i, j < i → i < k → h.buckets.getD i 0 = 0) :
    percentile_scan F E h t k cs = percentile_scan F E h t (j + 1) cs := by
  induction k with
  | zero => omega
  | succ k ih =>
    by_cases hjk : j = k
    · subst hjk; rfl
    · rw [percentile_scan, read_bucket_eq _ _ (by omega)]
      dsimp only
      rw [hz k (by omega) (by omega), if_neg (by decide)]
      exact ih (by omega) (by omega) (fun i h1 h2 => hz i h1 (by omega))

/-- C6, evaluated at the histogram holding the single value `2^48`: on its
serialization `heistogram_percentile_serialized` returns `0.0` for every `p`
and every interpretation of the `double` operations, while
`heistogram_percentile` at `p = 0` returns, in exact arithmetic, a value other
than 0. -/
theorem percentile_serialized_two_pow_48 (E : Env) :
    ∃ h bytes, build E [two_pow_48] = .ok h ∧ heistogram_serialize h = .ok bytes
      ∧ (∀ (D : Type) (F : FloatOps D) (p : D),
          heistogram_percentile_serialized F E bytes bytes.length p = .ok (F.of_u64 0))
      ∧ ∃ q : ℚ, heistogram_percentile exactOps E h 0 = .ok q ∧ q ≠ 0 := by
  obtain ⟨h, e, b, htot, hmin, hmax, -, -, es⟩ := build_single E two_pow_48 (by decide)
  have henc : encode_varint two_pow_48 = [0, 1, 0, 0, 0, 0, 0, 0] := by decide
  rw [henc] at es
  have hbid := get_bucket_id_ge E two_pow_48 (by decide)
  have hlt := b.bid_lt two_pow_48 (by simp)
  have hcap := b.cap_le
  have hcnt : h.buckets.getD (get_bucket_id E two_pow_48) 0 = 1 := by
    rw [b.counts]; simp
  have hz : ∀ i, get_bucket_id E two_pow_48 < i → i < h.capacity → h.buckets.getD i 0 = 0 := by
    intro i hi _
    rw [b.counts]
    simp only [List.map_singleton, List.count_singleton, beq_iff_eq]
    rw [if_neg (by omega)]
  refine ⟨h, _, e, es, fun D F p => rfl, ?_⟩
  have hstart : toInt16 (h.capacity + (U16 - 1)) = (h.capacity : Int) - 1 :=
    toInt16_pred _ (by omega) (by omega)
  have h1 : ¬ ((h.capacity : Int) - 1 < 0) := by omega
  have h2 : ((h.capacity : Int) - 1).toNat + 1 = h.capacity := by omega
  have hpre : ¬ ((exactOps.lt 0 (exactOps.of_u64 0) || exactOps.lt (exactOps.of_u64 100) 0) = true) := by
    simp [exactOps]
  have htarget : percentile_target exactOps 0 h.total_count = 1 := by
    rw [htot]; simp [percentile_target, exactOps]
  unfold heistogram_percentile
  rw [if_neg hpre]
  simp only [hstart, h1, if_false, h2, htarget]
  rw [percentile_scan_skip exactOps E h 1 h.capacity (get_bucket_id E two_pow_48) 0
    (by rw [b.length_eq]) hlt hz]
  rw [percentile_scan, read_bucket_eq _ _ (by rw [b.length_eq]; omega)]
  dsimp only
  rw [hcnt, if_pos (by decide)]
  have hge : exactOps.ge (exactOps.of_u64 ((0 + 1) % U64)) 1 = true := by
    simp [exactOps, U64]
  rw [if_pos hge]
  refine ⟨_, rfl, ?_⟩
  unfold interpolate
  rw [hmin, hmax]
  simp only [exactOps, Nat.cast_zero, sub_zero, Nat.cast_one, div_one, one_mul]
  generalize get_bucket_max E (get_bucket_min E (get_bucket_id E two_pow_48)) = mx
  have hlo : get_bucket_min E (get_bucket_id E two_pow_48) < U64 := by
    unfold get_bucket_min HEIST_MAX_UNMAPPED_BUCKET
    rw [if_neg (by omega)]
    exact E.pow_ceil_lt _
  generalize get_bucket_min E (get_bucket_id E two_pow_48) = mn at hlo
  generalize hA : (if mx > two_pow_48 then two_pow_48 else mx) = A
  generalize hB : (if mn < two_pow_48 then two_pow_48 else mn) = B
  have hA1 : A ≤ two_pow_48 := by rw [← hA]; split <;> omega
  have hB1 : two_pow_48 ≤ B := by rw [← hB]; split <;> omega
  have hB2 : B < U64 := by
    rw [← hB]; split
    · decide
    · exact hlo
  have h48 : two_pow_48 = 281474976710656 := rfl
  intro hq
  have hq2 : (A : ℚ) = (((A + (U64 - B % U64)) % U64 : Nat) : ℚ) := by linarith
  have hq3 : A = (A + (U64 - B % U64)) % U64 := by exact_mod_cast hq2
  unfold U64 at hq3 hB2
  omega

/-! ## The wire format -/

/-- C11, evaluated at the histogram holding the value 0 exactly `2^32` times:
the count of bucket 0 is `2^32`, whose varint is `254 1 0 0 0 0`, but
`heistogram_serialize` ends the buffer with the single byte 0, the varint of
the count truncated to 32 bits. -/
theorem serialize_truncates_count (E : Env) :
    ∃ h bytes, build E (List.replicate two_pow_32 0) = .ok h
      ∧ heistogram_serialize h = .ok bytes
      ∧ bucket_count h 0 = two_pow_32
      ∧ (∀ i, 0 < i → bucket_count h i = 0)
      ∧ bytes = [1, 254, 1, 0, 0, 0, 0, 0, 0, 0, 0]
      ∧ bytes ≠ encode_varint (0 - h.min_bucket_id + 1) ++ encode_varint h.total_count
          ++ encode_varint h.min ++ encode_varint (h.max - h.min)
          ++ encode_varint h.min_bucket_id ++ encode_varint (bucket_count h 0) := by
  refine ⟨_, _, build_zeros E two_pow_32, rfl, by decide, ?_, by decide, by decide⟩
  intro i hi
  unfold bucket_count zeros_state
  split
  · obtain ⟨j, rfl⟩ : ∃ j, i = j + 1 := ⟨i - 1, by omega⟩
    simp only [List.getD_cons_succ, getD_replicate_zero]
  · rfl

/-- C12: for every value up to 67823 `encode_varint` writes the single byte
`v` when `v ≤ 240`; the two bytes `241 + ((v - 240) >> 8)`, which lies in
241..248, and `(v - 240) & 0xFF` when `241 ≤ v ≤ 2287`; and the three bytes
249, high byte and low byte of the 16-bit value `v - 2288` when
`2288 ≤ v ≤ 67823`. -/
theorem encode_varint_small (v : Nat) :
    (v ≤ 240 → encode_varint v = [v])
    ∧ (241 ≤ v → v ≤ 2287 →
        encode_varint v = [241 + ((v - 240) >>> 8), (v - 240) &&& 0xFF]
        ∧ 241 ≤ 241 + ((v - 240) >>> 8) ∧ 241 + ((v - 240) >>> 8) ≤ 248)
    ∧ (2288 ≤ v → v ≤ 67823 →
        encode_varint v = [249, (v - 2288) >>> 8, (v - 2288) &&& 0xFF]
        ∧ v - 2288 < 65536
        ∧ 256 * ((v - 2288) >>> 8) + ((v - 2288) &&& 0xFF) = v - 2288) := by
  refine ⟨fun h1 => ?_, fun h1 h2 => ?_, fun h1 h2 => ?_⟩
  · unfold encode_varint U8
    rw [if_pos h1, Nat.mod_eq_of_lt (by omega)]
  · have hs : (v - 240) >>> 8 = (v - 240) / 256 := Nat.shiftRight_eq_div_pow _ 8
    unfold encode_varint U8
    rw [if_neg (by omega), if_pos h2, hs, Nat.mod_eq_of_lt (by omega), Nat.add_comm]
    exact ⟨rfl, by omega, by omega⟩
  · have hs : (v - 2288) >>> 8 = (v - 2288) / 256 := Nat.shiftRight_eq_div_pow _ 8
    have ha : (v - 2288) &&& 0xFF = (v - 2288) % 256 := Nat.and_pow_two_sub_one_eq_mod _ 8
    unfold encode_varint U8
    rw [if_neg (by omega), if_neg (by omega), if_pos h2, hs, ha, Nat.mod_eq_of_lt (by omega)]
    exact ⟨rfl, by omega, by omega⟩

/-- C12 at one value of each band: 100, 1000 and 50000. -/
theorem encode_varint_small_witness :
    (100 ≤ 240 ∧ encode_varint 100 = [100])
    ∧ (241 ≤ 1000 ∧ 1000 ≤ 2287
        ∧ encode_varint 1000 = [241 + ((1000 - 240) >>> 8), (1000 - 240) &&& 0xFF]
        ∧ 241 ≤ 241 + ((1000 - 240) >>> 8) ∧ 241 + ((1000 - 240) >>> 8) ≤ 248)
    ∧ (2288 ≤ 50000 ∧ 50000 ≤ 67823
        ∧ encode_varint 50000 = [249, (50000 - 2288) >>> 8, (50000 - 2288) &&& 0xFF]
        ∧ 50000 - 2288 < 65536
        ∧ 256 * ((50000 - 2288) >>> 8) + ((50000 - 2288) &&& 0xFF) = 50000 - 2288) :=
  ⟨⟨by decide, (encode_varint_small 100).1 (by decide)⟩,
    ⟨by decide, by decide, (encode_varint_small 1000).2.1 (by decide) (by decide)⟩,
    ⟨by decide, by decide, (encode_varint_small 50000).2.2 (by decide) (by decide)⟩⟩

/-- C13, evaluated at `2^48` and `2^56`: the payload sizes are 7 and 8, and the
first bytes written are `(uint8_t)(249 + 7) = 0` and `(uint8_t)(249 + 8) = 1`,
outside 250..255. -/
theorem encode_varint_first_byte_wraps :
    payload_bytes two_pow_48 = 7 ∧ (encode_varint two_pow_48).head? = some 0
    ∧ payload_bytes two_pow_56 = 8 ∧ (encode_varint two_pow_56).head? = some 1
    ∧ encode_varint two_pow_56 = [1, 1, 0, 0, 0, 0, 0, 0, 0]
    ∧ ¬ (250 ≤ 0 ∧ 0 ≤ 255) ∧ ¬ (250 ≤ 1 ∧ 1 ≤ 255) := by
  decide

/-- C14, evaluated at the histogram holding the value 1, whose serialization
is the six bytes `1 1 1 0 1 1`, cut to its first five bytes: when only the
five bytes are accessible `heistogram_deserialize` reads the byte at offset
5, beyond the length it was given; when the sixth byte is still in memory
behind the prefix, it returns a histogram instead of failing. -/
theorem deserialize_reads_past_size (E : Env) :
    ∃ h r, build E [1] = .ok h
      ∧ heistogram_serialize h = .ok [1, 1, 1, 0, 1, 1]
      ∧ heistogram_deserialize (List.take 5 [1, 1, 1, 0, 1, 1]) 5 = .error .oob
      ∧ heistogram_deserialize [1, 1, 1, 0, 1, 1] 5 = .ok r
      ∧ r.total_count = 1 ∧ bucket_count r 1 = 1 := by
  obtain ⟨h, e, -, -, -, -, -, -, es⟩ := build_single E 1 (by decide)
  exact ⟨h, _, e, es, rfl, rfl, rfl, rfl⟩

/-! ## Percentile guards -/

/-- C20: `heistogram_percentile(h, p)` returns 0 whenever the handle is absent
or `p < 0` or `p > 100`, for every histogram and every interpretation of the
`double` operations. -/
theorem heistogram_percentile_guard {D : Type} (F : FloatOps D) (E : Env)
    (h : Option Heistogram) (p : D)
    (hp : h = none ∨ F.lt p (F.of_u64 0) = true ∨ F.lt (F.of_u64 100) p = true) :
    heistogram_percentile_handle F E h p = .ok (F.of_u64 0) := by
  cases h with
  | none => rfl
  | some hist =>
    have hp2 : (F.lt p (F.of_u64 0) || F.lt (F.of_u64 100) p) = true := by
      rcases hp with h0 | h1 | h2
      · cases h0
      · simp [h1]
      · simp [h2]
    simp only [heistogram_percentile_handle, heistogram_percentile, hp2, if_true]

/-- C20 in exact arithmetic at the fresh histogram and `p = 101`. -/
theorem heistogram_percentile_guard_witness :
    ((some heistogram_create = none ∨ exactOps.lt 101 (exactOps.of_u64 0) = true
        ∨ exactOps.lt (exactOps.of_u64 100) 101 = true)
      ∧ heistogram_percentile_handle exactOps exactEnv (some heistogram_create) 101
          = .ok (exactOps.of_u64 0)) :=
  ⟨Or.inr (Or.inr (by norm_num [exactOps])),
    heistogram_percentile_guard exactOps exactEnv (some heistogram_create) 101
      (Or.inr (Or.inr (by norm_num [exactOps])))⟩

/-! ## Percentiles in the identity region -/

set_option maxRecDepth 100000 in
/-- C17 as stated fails in binary64 arithmetic at the histogram of 18 ones and
7 twos with `p = 72`: seven values are at least 2 and `(1 - 72/100) * 25 = 7`,
so the claim names 2, but the `double` target `((100.0 - 72) / 100.0) * 25` is
`7.000000000000001`, the test `7 >= target` fails and `heistogram_percentile`
returns 1. -/
theorem percentile_target_rounds_up :
    build exactEnv ones_and_twos
        = .ok ⟨16, 1, 25, 1, 2, [0, 18, 7, 0, 0, 0, 0, 0, 0, 0, 0, 0, 0, 0, 0, 0]⟩
    ∧ heistogram_percentile ieeeOps exactEnv
        ⟨16, 1, 25, 1, 2, [0, 18, 7, 0, 0, 0, 0, 0, 0, 0, 0, 0, 0, 0, 0, 0]⟩ (ieeeOps.of_u64 72)
        = .ok (ieeeOps.of_u64 1)
    ∧ ieeeOps.of_u64 1 ≠ ieeeOps.of_u64 2
    ∧ percentile_target ieeeOps (ieeeOps.of_u64 72) 25 = ⟨false, 7881299347898369, -50⟩
    ∧ ieeeOps.of_u64 7 = ⟨false, 7881299347898368, -50⟩
    ∧ (∀ x ∈ ones_and_twos, x ≤ 57) ∧ 2 ∈ ones_and_twos
    ∧ ones_and_twos.length = 25 ∧ count_ge ones_and_twos 2 = 7
    ∧ ((1 : ℚ) - 72 / 100) * 25 ≤ 7 := by
  refine ⟨by decide, by decide, by decide, by decide, by decide, by decide, by decide,
    by decide, by decide, by norm_num⟩

theorem map_get_bucket_id_small (E : Env) (xs : List Nat) (hsmall : ∀ x ∈ xs, x ≤ 57) :
    xs.map (get_bucket_id E) = xs := by
  induction xs with
  | nil => rfl
  | cons x xs ih =>
    have hx : get_bucket_id E x = x := by
      unfold get_bucket_id HEIST_MAX_UNMAPPED_BUCKET
      rw [if_pos (hsmall x (List.mem_cons_self _ _))]
    rw [List.map_cons, hx, ih (fun y hy => hsmall y (List.mem_cons_of_mem _ hy))]

theorem count_ge_succ (xs : List Nat) (k : Nat) :
    count_ge xs k = count_ge xs (k + 1) + xs.count k := by
  induction xs with
  | nil => rfl
  | cons x xs ih =>
    unfold count_ge at *
    rw [List.countP_cons, List.countP_cons, List.count_cons, ih]
    by_cases h1 : k + 1 ≤ x
    · have h2 : k ≤ x := by omega
      have h3 : ¬ x = k := by omega
      simp [h1, h2, h3]
      omega
    · by_cases h2 : x = k
      · subst h2
        simp
        omega
      · have h3 : ¬ k ≤ x := by omega
        simp [h1, h2, h3]

theorem count_ge_le_length (xs : List Nat) (k : Nat) : count_ge xs k ≤ xs.length :=
  List.countP_le_length _

theorem count_ge_eq_zero (xs : List Nat) (k : Nat) (h : ∀ x ∈ xs, x < k) :
    count_ge xs k = 0 := by
  unfold count_ge
  rw [List.countP_eq_zero]
  intro x hx
  have := h x hx
  simp only [decide_eq_true_eq]
  omega

/-- In the identity region a bucket has width zero and the interpolation gives
the bucket id itself. -/
theorem interpolate_identity {D : Type} (F : FloatOps D) (E : Env) (T : D)
    (cs c k mn mx : Nat) (hk : k ≤ 57) (h1 : mn ≤ k) (h2 : k ≤ mx)
    (hF : ∀ (n : Nat) (y : D), F.sub (F.of_u64 n) (F.mul y (F.of_u64 0)) = F.of_u64 n) :
    interpolate F E T cs c k mn mx = F.of_u64 k := by
  have e1 : get_bucket_min E k = k := by
    unfold get_bucket_min HEIST_MAX_UNMAPPED_BUCKET
    rw [if_pos hk]
  have e2 : get_bucket_max E k = k := by
    unfold get_bucket_max HEIST_MAX_UNMAPPED_BUCKET U32
    have : k % 4294967296 = k := Nat.mod_eq_of_lt (by omega)
    rw [this, if_pos hk]
  have e3 : (k + (U64 - k % U64)) % U64 = 0 := by
    unfold U64; omega
  unfold interpolate
  simp only [e1, e2]
  rw [if_neg (by omega), if_neg (by omega), e3, hF]

/-- The bucket loop of `heistogram_percentile` on a histogram of values up to
57, entered at bucket `k - 1` with the count of the values at least `k`. -/
theorem percentile_scan_identity {D : Type} (F : FloatOps D) (E : Env) (xs : List Nat)
    (h : Heistogram) (T : D) (hb : BuiltFrom E xs h) (hne : xs ≠ []) (hlen : xs.length < U64)
    (hsmall : ∀ x ∈ xs, x ≤ 57)
    (hF : ∀ (n : Nat) (y : D), F.sub (F.of_u64 n) (F.mul y (F.of_u64 0)) = F.of_u64 n)
    (k : Nat) (hk : k ≤ h.capacity) :
    ∃ v, v ∈ xs ∧ percentile_scan F E h T k (count_ge xs k) = .ok (F.of_u64 v)
      ∧ ((v < k ∧ F.ge (F.of_u64 (count_ge xs v)) T = true
            ∧ ∀ w ∈ xs, v < w → w < k → F.ge (F.of_u64 (count_ge xs w)) T = false)
         ∨ ((∀ x ∈ xs, v ≤ x)
            ∧ ∀ w ∈ xs, w < k → F.ge (F.of_u64 (count_ge xs w)) T = false)) := by
  induction k with
  | zero =>
    exact ⟨h.min, hb.min_mem hne, rfl, Or.inr ⟨hb.min_le, fun w _ hw => absurd hw (by omega)⟩⟩
  | succ k ih =>
    have hc : h.buckets.getD k 0 = xs.count k := by
      rw [hb.counts, map_get_bucket_id_small E xs hsmall]
    have hsucc := count_ge_succ xs k
    have hle := count_ge_le_length xs k
    rw [percentile_scan, read_bucket_eq _ _ (by rw [hb.length_eq]; omega)]
    dsimp only
    by_cases hpos : h.buckets.getD k 0 > 0
    · rw [if_pos hpos]
      have hmem : k ∈ xs := List.count_pos_iff.mp (hc ▸ hpos)
      have hsum : (count_ge xs (k + 1) + h.buckets.getD k 0) % U64 = count_ge xs k := by
        rw [hc, ← hsucc, Nat.mod_eq_of_lt (by omega)]
      rw [hsum]
      by_cases hg : F.ge (F.of_u64 (count_ge xs k)) T = true
      · rw [if_pos hg]
        refine ⟨k, hmem, ?_, Or.inl ⟨by omega, hg, fun w _ h1 h2 => absurd h1 (by omega)⟩⟩
        rw [interpolate_identity F E T _ _ k h.min h.max (hsmall k hmem) (hb.min_le k hmem)
          (hb.max_ge k hmem) hF]
      · rw [if_neg hg]
        obtain ⟨v, hv, e, hchar⟩ := ih (by omega)
        refine ⟨v, hv, e, ?_⟩
        have hgk : F.ge (F.of_u64 (count_ge xs k)) T = false := by
          cases hgv : F.ge (F.of_u64 (count_ge xs k)) T
          · rfl
          · exact absurd hgv hg
        rcases hchar with ⟨h1, h2, h3⟩ | ⟨h1, h2⟩
        · refine Or.inl ⟨by omega, h2, fun w hw hvw hwk => ?_⟩
          by_cases hwk2 : w = k
          · rw [hwk2]; exact hgk
          · exact h3 w hw hvw (by omega)
        · refine Or.inr ⟨h1, fun w hw hwk => ?_⟩
          by_cases hwk2 : w = k
          · rw [hwk2]; exact hgk
          · exact h2 w hw (by omega)
    · rw [if_neg hpos]
      have hzero : xs.count k = 0 := by omega
      have hnot : k ∉ xs := fun hm => by
        have := List.count_pos_iff.mpr hm
        omega
      have hsame : count_ge xs (k + 1) = count_ge xs k := by omega
      rw [hsame]
      obtain ⟨v, hv, e, hchar⟩ := ih (by omega)
      refine ⟨v, hv, e, ?_⟩
      rcases hchar with ⟨h1, h2, h3⟩ | ⟨h1, h2⟩
      · refine Or.inl ⟨by omega, h2, fun w hw hvw hwk => ?_⟩
        have : w ≠ k := fun e => hnot (e ▸ hw)
        exact h3 w hw hvw (by omega)
      · refine Or.inr ⟨h1, fun w hw hwk => ?_⟩
        have : w ≠ k := fun e => hnot (e ▸ hw)
        exact h2 w hw (by omega)

/-- C17, amended: for every non-empty sequence of fewer than `2^64` values, all
at most 57, and every `p` that passes the guard of `heistogram_percentile`
(`0 ≤ p ≤ 100`), the percentile of the built histogram is exactly an inserted
value `v`: the largest one for which the number of inserted values at least
`v`, as a `double`, is `>=` the target `((100.0 - p) / 100.0) * count` as the
code computes it, or the smallest inserted value when no inserted value passes
that test.  The `double` operations are arbitrary but for `x - y * 0 = x`. -/
theorem percentile_identity_region {D : Type} (F : FloatOps D) (E : Env) (xs : List Nat)
    (p : D) (hne : xs ≠ []) (hlen : xs.length < U64) (hsmall : ∀ x ∈ xs, x ≤ 57)
    (hp0 : F.lt p (F.of_u64 0) = false) (hp100 : F.lt (F.of_u64 100) p = false)
    (hF : ∀ (n : Nat) (y : D), F.sub (F.of_u64 n) (F.mul y (F.of_u64 0)) = F.of_u64 n) :
    ∃ h v, build E xs = .ok h ∧ v ∈ xs
      ∧ heistogram_percentile F E h p = .ok (F.of_u64 v)
      ∧ ((F.ge (F.of_u64 (count_ge xs v)) (percentile_target F p (heistogram_count h)) = true
            ∧ ∀ w ∈ xs, v < w →
                F.ge (F.of_u64 (count_ge xs w)) (percentile_target F p (heistogram_count h))
                  = false)
         ∨ ((∀ x ∈ xs, v ≤ x)
            ∧ ∀ w ∈ xs,
                F.ge (F.of_u64 (count_ge xs w)) (percentile_target F p (heistogram_count h))
                  = false)) := by
  obtain ⟨h, e, hb⟩ := build_built E xs hlen
  have hcap := hb.cap_le
  have hcap2 := hb.cap_ge
  have hstart : toInt16 (h.capacity + (U16 - 1)) = (h.capacity : Int) - 1 :=
    toInt16_pred _ (by omega) (by omega)
  have h1 : ¬ ((h.capacity : Int) - 1 < 0) := by omega
  have h2 : ((h.capacity : Int) - 1).toNat + 1 = h.capacity := by omega
  have hlt : ∀ x ∈ xs, x < h.capacity := fun x hx => by
    have := hb.bid_lt x hx
    have hx2 : get_bucket_id E x = x := by
      unfold get_bucket_id HEIST_MAX_UNMAPPED_BUCKET
      rw [if_pos (hsmall x hx)]
    omega
  have hz : count_ge xs h.capacity = 0 := count_ge_eq_zero xs _ hlt
  obtain ⟨v, hv, es, hchar⟩ := percentile_scan_identity F E xs h
    (percentile_target F p h.total_count) hb hne hlen hsmall hF h.capacity (le_refl _)
  rw [hz] at es
  refine ⟨h, v, e, hv, ?_, ?_⟩
  · unfold heistogram_percentile
    simp only [hp0, hp100, Bool.or_self, Bool.false_eq_true, if_false, hstart, h1, h2]
    exact es
  · rcases hchar with ⟨_, h4, h5⟩ | ⟨h4, h5⟩
    · exact Or.inl ⟨h4, fun w hw hvw => h5 w hw hvw (hlt w hw)⟩
    · exact Or.inr ⟨h4, fun w hw => h5 w hw (hlt w hw)⟩

/-- C17, amended, in exact arithmetic at the values 1, 1, 2 and `p = 50`. -/
theorem percentile_identity_region_witness :
    [1, 1, 2] ≠ [] ∧ [1, 1, 2].length < U64 ∧ (∀ x ∈ [1, 1, 2], x ≤ 57)
    ∧ exactOps.lt 50 (exactOps.of_u64 0) = false
    ∧ exactOps.lt (exactOps.of_u64 100) 50 = false
    ∧ (∀ (n : Nat) (y : ℚ),
        exactOps.sub (exactOps.of_u64 n) (exactOps.mul y (exactOps.of_u64 0))
          = exactOps.of_u64 n)
    ∧ ∃ h v, build exactEnv [1, 1, 2] = .ok h ∧ v ∈ [1, 1, 2]
      ∧ heistogram_percentile exactOps exactEnv h 50 = .ok (exactOps.of_u64 v)
      ∧ ((exactOps.ge (exactOps.of_u64 (count_ge [1, 1, 2] v))
            (percentile_target exactOps 50 (heistogram_count h)) = true
            ∧ ∀ w ∈ [1, 1, 2], v < w →
                exactOps.ge (exactOps.of_u64 (count_ge [1, 1, 2] w))
                  (percentile_target exactOps 50 (heistogram_count h)) = false)
         ∨ ((∀ x ∈ [1, 1, 2], v ≤ x)
            ∧ ∀ w ∈ [1, 1, 2],
                exactOps.ge (exactOps.of_u64 (count_ge [1, 1, 2] w))
                  (percentile_target exactOps 50 (heistogram_count h)) = false)) :=
  ⟨by decide, by decide, by decide, by norm_num [exactOps], by norm_num [exactOps],
    fun n y => by simp [exactOps],
    percentile_identity_region exactOps exactEnv [1, 1, 2] 50 (by decide) (by decide)
      (by decide) (by norm_num [exactOps]) (by norm_num [exactOps])
      (fun n y => by simp [exactOps])⟩

/-! ## Percentiles in one pass -/

set_option maxRecDepth 100000 in
/-- C18, evaluated in binary64 arithmetic at the histogram holding the value 1
and the request `[50, 50]`: `heistogram_percentiles` stores both results
through the index of the first 50, so position 0 holds the percentile and
position 1 of the result array is never written. -/
theorem percentiles_duplicate_unwritten :
    build exactEnv [1] = .ok ⟨16, 1, 1, 1, 1, [0, 1, 0, 0, 0, 0, 0, 0, 0, 0, 0, 0, 0, 0, 0, 0]⟩
    ∧ percentile_indices Dbl.beq
        (sort_percentiles ieeeOps [ieeeOps.of_u64 50, ieeeOps.of_u64 50])
        [ieeeOps.of_u64 50, ieeeOps.of_u64 50] = [some 0, some 0]
    ∧ heistogram_percentiles ieeeOps Dbl.beq exactEnv
        ⟨16, 1, 1, 1, 1, [0, 1, 0, 0, 0, 0, 0, 0, 0, 0, 0, 0, 0, 0, 0, 0]⟩
        [ieeeOps.of_u64 50, ieeeOps.of_u64 50] [none, none]
        = .ok [some (ieeeOps.of_u64 1), none]
    ∧ heistogram_percentile ieeeOps exactEnv
        ⟨16, 1, 1, 1, 1, [0, 1, 0, 0, 0, 0, 0, 0, 0, 0, 0, 0, 0, 0, 0, 0]⟩ (ieeeOps.of_u64 50)
        = .ok (ieeeOps.of_u64 1) := by
  refine ⟨by decide, by decide, by decide, by decide⟩

/-! ## Percentiles of large values -/

/-- The percentile of the histogram holding one value, when the bucket of the
value passes the test against the target. -/
theorem percentile_single {D : Type} (F : FloatOps D) (E : Env) (v : Nat) (p : D)
    (hv : v < U64) (hp0 : F.lt p (F.of_u64 0) = false) (hp100 : F.lt (F.of_u64 100) p = false)
    (hge : F.ge (F.of_u64 1) (percentile_target F p 1) = true) :
    ∃ h, build E [v] = .ok h ∧ h.min = v ∧ h.max = v ∧ h.total_count = 1
      ∧ heistogram_percentile F E h p
          = .ok (interpolate F E (percentile_target F p 1) 0 1 (get_bucket_id E v) v v) := by
  obtain ⟨h, e, b, htot, hmin, hmax, -, -, -⟩ := build_single E v hv
  have hlt := b.bid_lt v (by simp)
  have hcap := b.cap_le
  have hcnt : h.buckets.getD (get_bucket_id E v) 0 = 1 := by
    rw [b.counts]; simp
  have hz : ∀ i, get_bucket_id E v < i → i < h.capacity → h.buckets.getD i 0 = 0 := by
    intro i hi _
    rw [b.counts]
    simp only [List.map_singleton, List.count_singleton, beq_iff_eq]
    rw [if_neg (by omega)]
  have hstart : toInt16 (h.capacity + (U16 - 1)) = (h.capacity : Int) - 1 :=
    toInt16_pred _ (by omega) (by omega)
  have h1 : ¬ ((h.capacity : Int) - 1 < 0) := by omega
  have h2 : ((h.capacity : Int) - 1).toNat + 1 = h.capacity := by omega
  have hmod : (0 + 1) % U64 = 1 := by decide
  refine ⟨h, e, hmin, hmax, htot, ?_⟩
  unfold heistogram_percentile
  simp only [hp0, hp100, Bool.or_self, Bool.false_eq_true, if_false, hstart, h1, h2, htot]
  rw [percentile_scan_skip F E h _ h.capacity (get_bucket_id E v) 0
    (by rw [b.length_eq]) hlt hz]
  rw [percentile_scan, read_bucket_eq _ _ (by rw [b.length_eq]; omega)]
  dsimp only
  rw [hcnt, if_pos (by decide), hmod, if_pos hge, hmin, hmax]

theorem get_bucket_max_lt (E : Env) (hg : ∀ m, E.growth m ≤ m) (m : Nat) :
    get_bucket_max E m < 2 * U32 := by
  have h1 : m % U32 < U32 := Nat.mod_lt _ (by decide)
  have h2 := hg (m % U32)
  unfold get_bucket_max
  split
  · omega
  · exact lt_of_le_of_lt (Nat.mod_le _ _) (by omega)

/-- The percentile at `p = 100` of the histogram holding the value `2^48`: the
upper bound that `get_bucket_max` computes from the 32-bit truncation of the
bucket's lower bound, which lies below `2^33`. -/
theorem percentile_hundred_two_pow_48 (E : Env) (hg : ∀ m, E.growth m ≤ m) :
    ∃ h A, build E [two_pow_48] = .ok h ∧ h.min = two_pow_48 ∧ h.max = two_pow_48
      ∧ A < 2 * U32
      ∧ heistogram_percentile exactOps E h 100 = .ok ((A : Nat) : ℚ) := by
  obtain ⟨h, e, hmin, hmax, -, ep⟩ := percentile_single exactOps E two_pow_48 100 (by decide)
    (by norm_num [exactOps]) (by norm_num [exactOps])
    (by norm_num [exactOps, percentile_target])
  have hlt := get_bucket_max_lt E hg (get_bucket_min E (get_bucket_id E two_pow_48))
  refine ⟨h, get_bucket_max E (get_bucket_min E (get_bucket_id E two_pow_48)), e, hmin, hmax,
    hlt, ?_⟩
  rw [ep]
  have h48 : two_pow_48 = 281474976710656 := rfl
  have hnot : ¬ get_bucket_max E (get_bucket_min E (get_bucket_id E two_pow_48)) > two_pow_48 := by
    unfold U32 at hlt; omega
  unfold interpolate
  simp only [hnot, if_false]
  simp [exactOps, percentile_target]

/-- C15, evaluated at the histogram holding the single value `2^48`:
`heistogram_percentile(h, 100)` is a value below `2^33`, not
`heistogram_max(h) = 2^48`.  The arithmetic is exact (and exact in binary64 as
well: the target is 0 and `pos` is 0); the only assumption on the
floating-point bucket mapper is that `(uint64_t)(min * 0.02)` is at most
`min`. -/
theorem percentile_hundred_not_max (E : Env) (hg : ∀ m, E.growth m ≤ m) :
    ∃ h q, build E [two_pow_48] = .ok h
      ∧ heistogram_percentile exactOps E h 100 = .ok q
      ∧ heistogram_max h = two_pow_48
      ∧ q < 8589934592
      ∧ q ≠ (heistogram_max h : ℚ) := by
  obtain ⟨h, A, e, -, hmax, hA, ep⟩ := percentile_hundred_two_pow_48 E hg
  have hA2 : A < 8589934592 := by unfold U32 at hA; omega
  have hq : ((A : Nat) : ℚ) < 8589934592 := by exact_mod_cast hA2
  refine ⟨h, _, e, ep, hmax, hq, ?_⟩
  show ((A : Nat) : ℚ) ≠ ((h.max : Nat) : ℚ)
  rw [hmax]
  have h48 : two_pow_48 = 281474976710656 := rfl
  intro hc
  have : A = two_pow_48 := by exact_mod_cast hc
  omega

theorem exactEnv_growth_le (m : Nat) : exactEnv.growth m ≤ m :=
  Nat.le_trans (Nat.mod_le _ _) (Nat.div_le_self _ _)

/-- C15 evaluated with the bucket mapper computed in exact arithmetic. -/
theorem percentile_hundred_not_max_witness :
    (∀ m, exactEnv.growth m ≤ m)
    ∧ ∃ h q, build exactEnv [two_pow_48] = .ok h
      ∧ heistogram_percentile exactOps exactEnv h 100 = .ok q
      ∧ heistogram_max h = two_pow_48
      ∧ q < 8589934592
      ∧ q ≠ (heistogram_max h : ℚ) :=
  ⟨exactEnv_growth_le, percentile_hundred_not_max exactEnv exactEnv_growth_le⟩

/-- C16, evaluated at the histogram holding the single value `2^48` and
`p = 100`: `heistogram_percentile(h, p)` lies below `heistogram_min(h)`.  The
only assumption on the floating-point bucket mapper is that
`(uint64_t)(min * 0.02)` is at most `min`. -/
theorem percentile_below_min (E : Env) (hg : ∀ m, E.growth m ≤ m) :
    ∃ h q, build E [two_pow_48] = .ok h
      ∧ heistogram_percentile exactOps E h 100 = .ok q
      ∧ heistogram_min h = two_pow_48
      ∧ q < (heistogram_min h : ℚ)
      ∧ ¬ ((heistogram_min h : ℚ) ≤ q ∧ q ≤ (heistogram_max h : ℚ)) := by
  obtain ⟨h, A, e, hmin, -, hA, ep⟩ := percentile_hundred_two_pow_48 E hg
  have h48 : two_pow_48 = 281474976710656 := rfl
  have hA2 : A < two_pow_48 := by unfold U32 at hA; omega
  have hq : ((A : Nat) : ℚ) < ((h.min : Nat) : ℚ) := by
    rw [hmin]; exact_mod_cast hA2
  exact ⟨h, _, e, ep, hmin, hq, fun hc => absurd hc.1 (not_le.mpr hq)⟩

/-- C16 evaluated with the bucket mapper computed in exact arithmetic. -/
theorem percentile_below_min_witness :
    (∀ m, exactEnv.growth m ≤ m)
    ∧ ∃ h q, build exactEnv [two_pow_48] = .ok h
      ∧ heistogram_percentile exactOps exactEnv h 100 = .ok q
      ∧ heistogram_min h = two_pow_48
      ∧ q < (heistogram_min h : ℚ)
      ∧ ¬ ((heistogram_min h : ℚ) ≤ q ∧ q ≤ (heistogram_max h : ℚ)) :=
  ⟨exactEnv_growth_le, percentile_below_min exactEnv exactEnv_growth_le⟩

/-! ## Percentiles in one pass over serialized data -/

/-- The bucket loop of `heistogram_percentiles` passes over empty buckets. -/
theorem percentiles_scan_skip {D : Type} (F : FloatOps D) (E : Env) (h : Heistogram)
    (ps : List D) (idx : List (Option Nat)) (k j cs cp : Nat) (res : List (Option D))
    (hk : k ≤ h.buckets.length) (hj : j < k) (hcp : cp < ps.length)
    (hz : ∀ i, j < i → i < k → h.buckets.getD i 0 = 0) :
    percentiles_scan F E h ps idx k cs cp res = percentiles_scan F E h ps idx (j + 1) cs cp res := by
  induction k with
  | zero => omega
  | succ k ih =>
    by_cases hjk : j = k
    · subst hjk; rfl
    · rw [percentiles_scan, if_pos hcp, read_bucket_eq _ _ (by omega)]
      dsimp only
      rw [hz k (by omega) (by omega), if_neg (by decide)]
      exact ih (by omega) (by omega) (fun i h1 h2 => hz i h1 (by omega))

theorem percentiles_scan_done {D : Type} (F : FloatOps D) (E : Env) (h : Heistogram)
    (ps : List D) (idx : List (Option Nat)) (k cs cp : Nat) (res : List (Option D))
    (hcp : ¬ cp < ps.length) :
    percentiles_scan F E h ps idx k cs cp res = .ok (cp, res) := by
  cases k with
  | zero => rfl
  | succ k => rw [percentiles_scan, if_neg hcp]

/-- The result of `heistogram_percentiles` for one requested percentile on the
histogram holding one value, when the bucket of the value passes the test
against the target. -/
theorem percentiles_single {D : Type} (F : FloatOps D) (eq : D → D → Bool) (E : Env)
    (v : Nat) (p : D) (hv : v < U64) (heq : eq p p = true)
    (hge : F.ge (F.of_u64 1) (percentile_target F p 1) = true) :
    ∃ h, build E [v] = .ok h
      ∧ heistogram_percentiles F eq E h [p] [none]
          = .ok [some (interpolate F E (percentile_target F p 1) 0 1 (get_bucket_id E v) v v)] := by
  obtain ⟨h, e, b, htot, hmin, hmax, -, -, -⟩ := build_single E v hv
  have hlt := b.bid_lt v (by simp)
  have hcap := b.cap_le
  have hcnt : h.buckets.getD (get_bucket_id E v) 0 = 1 := by
    rw [b.counts]; simp
  have hz : ∀ i, get_bucket_id E v < i → i < h.capacity → h.buckets.getD i 0 = 0 := by
    intro i hi _
    rw [b.counts]
    simp only [List.map_singleton, List.count_singleton, beq_iff_eq]
    rw [if_neg (by omega)]
  have hstart : toInt16 (h.capacity + (U16 - 1)) = (h.capacity : Int) - 1 :=
    toInt16_pred _ (by omega) (by omega)
  have h1 : ¬ ((h.capacity : Int) - 1 < 0) := by omega
  have h2 : ((h.capacity : Int) - 1).toNat + 1 = h.capacity := by omega
  have hmod : (0 + 1) % U64 = 1 := by decide
  have hsort : sort_percentiles F [p] = [p] := rfl
  have hidx : percentile_indices eq [p] [p] = [some 0] := by
    simp [percentile_indices, first_index, heq]
  refine ⟨h, e, ?_⟩
  unfold heistogram_percentiles
  rw [if_neg (by simp)]
  simp only [hsort, hidx, hstart, h1, if_false, h2]
  rw [percentiles_scan_skip F E h [p] [some 0] h.capacity (get_bucket_id E v) 0 0 [none]
    (by rw [b.length_eq]) hlt (by simp) hz]
  rw [percentiles_scan, if_pos (by simp), read_bucket_eq _ _ (by rw [b.length_eq]; omega)]
  dsimp only
  rw [hcnt, if_pos (by decide)]
  have hb1 : percentiles_bucket F E h.min h.max h.total_count [p] [some 0]
      (get_bucket_id E v) 1 0 ([p].length - 0) 0 [none]
      = .ok (1, [some (interpolate F E (percentile_target F p 1) 0 1 (get_bucket_id E v) v v)]) := by
    simp [percentiles_bucket, write_result, hmod, htot, hge, hmin, hmax]
  rw [hb1]
  dsimp only
  rw [percentiles_scan_done F E h [p] [some 0] _ _ 1 _ (by simp)]
  rfl

/-- The interpolation in the bucket of `2^48` with `pos = 1` is not zero. -/
theorem interpolate_two_pow_48_ne_zero (E : Env) :
    interpolate exactOps E (percentile_target exactOps 0 1) 0 1
      (get_bucket_id E two_pow_48) two_pow_48 two_pow_48 ≠ 0 := by
  have hbid := get_bucket_id_ge E two_pow_48 (by decide)
  unfold interpolate
  simp only [exactOps, percentile_target, Nat.cast_zero, sub_zero, Nat.cast_one, div_one,
    one_mul, Nat.cast_ofNat, mul_one]
  generalize get_bucket_max E (get_bucket_min E (get_bucket_id E two_pow_48)) = mx
  have hlo : get_bucket_min E (get_bucket_id E two_pow_48) < U64 := by
    unfold get_bucket_min HEIST_MAX_UNMAPPED_BUCKET
    rw [if_neg (by omega)]
    exact E.pow_ceil_lt _
  generalize get_bucket_min E (get_bucket_id E two_pow_48) = mn at hlo
  generalize hA : (if mx > two_pow_48 then two_pow_48 else mx) = A
  generalize hB : (if mn < two_pow_48 then two_pow_48 else mn) = B
  have hA1 : A ≤ two_pow_48 := by rw [← hA]; split <;> omega
  have hB1 : two_pow_48 ≤ B := by rw [← hB]; split <;> omega
  have hB2 : B < U64 := by
    rw [← hB]; split
    · decide
    · exact hlo
  have h48 : two_pow_48 = 281474976710656 := rfl
  intro hq
  have hq2 : (A : ℚ) = (((A + (U64 - B % U64)) % U64 : Nat) : ℚ) := by
    have h100 : ((100 : ℚ) / 100) = 1 := by norm_num
    simp only [h100, one_mul] at hq
    linarith
  have hq3 : A = (A + (U64 - B % U64)) % U64 := by exact_mod_cast hq2
  unfold U64 at hq3 hB2
  omega

/-- C19, evaluated at the histogram holding the single value `2^48` and the
request `[0]`, in exact arithmetic: `heistogram_percentiles_serialized` on the
serialization writes `0.0`, `heistogram_percentiles` on the histogram writes a
value other than 0. -/
theorem percentiles_serialized_two_pow_48 (E : Env) :
    ∃ h bytes q, build E [two_pow_48] = .ok h ∧ heistogram_serialize h = .ok bytes
      ∧ heistogram_percentiles_serialized exactOps exact_eq E bytes bytes.length [0] [none]
          = .ok [some 0]
      ∧ heistogram_percentiles exactOps exact_eq E h [0] [none] = .ok [some q]
      ∧ q ≠ 0 := by
  obtain ⟨h, e, b, -, -, -, -, -, es⟩ := build_single E two_pow_48 (by decide)
  obtain ⟨h2, e2, ep⟩ := percentiles_single exactOps exact_eq E two_pow_48 0 (by decide)
    (by simp [exact_eq]) (by norm_num [exactOps, percentile_target])
  have hh : h2 = h := by
    rw [e] at e2; exact (Except.ok.inj e2).symm
  subst hh
  have henc : encode_varint two_pow_48 = [0, 1, 0, 0, 0, 0, 0, 0] := by decide
  rw [henc] at es
  exact ⟨h2, _, _, e, es, rfl, ep, interpolate_two_pow_48_ne_zero E⟩

/-! ## Percentiles out of range -/

set_option maxRecDepth 100000 in
/-- C21, evaluated at the histogram holding the single value 5: for `p = 200`
and for `p = -1` the live `heistogram_percentile` returns 0, but
`heistogram_percentile_serialized`, which does not check `p`, reads the bucket
run and returns 5. -/
theorem percentile_serialized_no_range_check :
    build exactEnv [5] = .ok single_five
    ∧ heistogram_serialize single_five = .ok [1, 1, 5, 0, 5, 1]
    ∧ Dbl.lt (Dbl.ofNat 100) (Dbl.ofNat 200) = true
    ∧ heistogram_percentile ieeeOps exactEnv single_five (Dbl.ofNat 200) = .ok (Dbl.ofNat 0)
    ∧ heistogram_percentile_serialized ieeeOps exactEnv [1, 1, 5, 0, 5, 1] 6 (Dbl.ofNat 200)
        = .ok (Dbl.ofNat 5)
    ∧ Dbl.lt (Dbl.sub (Dbl.ofNat 0) (Dbl.ofNat 1)) (Dbl.ofNat 0) = true
    ∧ heistogram_percentile ieeeOps exactEnv single_five (Dbl.sub (Dbl.ofNat 0) (Dbl.ofNat 1))
        = .ok (Dbl.ofNat 0)
    ∧ heistogram_percentile_serialized ieeeOps exactEnv [1, 1, 5, 0, 5, 1] 6
        (Dbl.sub (Dbl.ofNat 0) (Dbl.ofNat 1)) = .ok (Dbl.ofNat 5)
    ∧ Dbl.ofNat 5 ≠ Dbl.ofNat 0 := by
  decide

/-! ## Ranks -/

set_option maxRecDepth 100000 in
/-- C23, evaluated at the histogram holding the single value 5: for the values
5 and 9, both at least the maximum, `heistogram_prank` returns the maximum 5,
not 100. -/
theorem prank_returns_max :
    build exactEnv [5] = .ok single_five
    ∧ heistogram_max single_five = 5
    ∧ heistogram_prank ieeeRank exactEnv single_five 5 = .ok (Dbl.ofNat 5)
    ∧ heistogram_prank ieeeRank exactEnv single_five 9 = .ok (Dbl.ofNat 5)
    ∧ Dbl.ofNat 5 ≠ Dbl.ofNat 100 := by
  decide

/-! ## The bucket mapper -/

/-- C25: for every integer `v` with `0 ≤ v ≤ 57`, `get_bucket_id` returns `v`. -/
theorem get_bucket_id_identity (E : Env) (v : Nat) (hv : v ≤ 57) : get_bucket_id E v = v := by
  unfold get_bucket_id HEIST_MAX_UNMAPPED_BUCKET
  rw [if_pos hv]

/-- C25 at the last value of the identity region. -/
theorem get_bucket_id_identity_witness : 57 ≤ 57 ∧ get_bucket_id exactEnv 57 = 57 :=
  ⟨by decide, get_bucket_id_identity exactEnv 57 (by decide)⟩

/-! ## The varint round trip below `2^48` -/

theorem and_255 (x : Nat) : x &&& 0xFF = x % 256 :=
  Nat.and_pow_two_sub_one_eq_mod x 8

theorem shr_8 (x : Nat) : x >>> 8 = x / 256 :=
  Nat.shiftRight_eq_div_pow x 8

theorem shl_8_or (r b : Nat) (hb : b < 256) : (r <<< 8) ||| b = r * 256 + b := by
  rw [Nat.shiftLeft_eq, Nat.mul_comm]
  exact (Nat.mul_add_lt_is_or (i := 8) hb r).symm

theorem encode_payload_length (n v : Nat) : (encode_payload n v).length = n := by
  induction n generalizing v with
  | zero => rfl
  | succ n ih => simp [encode_payload, ih]

/-- Reading back the payload bytes `encode_payload` wrote. -/
theorem decode_payload_encode (n : Nat) : ∀ (v acc : Nat) (tail : List Nat) (m : Nat),
    v < 256 ^ n → acc * 256 ^ n + v < U64 →
    decode_payload (encode_payload n v ++ tail) (n + m) acc
      = decode_payload tail m (acc * 256 ^ n + v) := by
  induction n with
  | zero =>
    intro v acc tail m hv _
    have : v = 0 := by simpa using hv
    subst this
    simp [encode_payload]
  | succ n ih =>
    intro v acc tail m hv hacc
    have hdiv : v / 256 < 256 ^ n := by
      rw [Nat.div_lt_iff_lt_mul (by decide)]
      rw [pow_succ] at hv; exact hv
    have hsplit : v = 256 * (v / 256) + v % 256 := (Nat.div_add_mod v 256).symm
    have hpow : 256 ^ (n + 1) = 256 ^ n * 256 := pow_succ 256 n
    have hr : (acc * 256 ^ n + v / 256) * 256 + v % 256 = acc * 256 ^ (n + 1) + v := by
      rw [hpow]; nlinarith
    have hlt : acc * 256 ^ n + v / 256 < U64 := by
      have : acc * 256 ^ n + v / 256 ≤ (acc * 256 ^ n + v / 256) * 256 + v % 256 := by omega
      omega
    have e1 : encode_payload (n + 1) v ++ tail
        = encode_payload n (v / 256) ++ ((v % 256) :: tail) := by
      simp [encode_payload, shr_8, and_255]
    rw [e1, show n + 1 + m = n + (m + 1) by omega, ih (v / 256) acc _ (m + 1) hdiv hlt]
    simp only [decode_payload]
    rw [Nat.shiftLeft_eq, show (2:Nat) ^ 8 = 256 by decide]
    have hm : (acc * 256 ^ n + v / 256) * 256 % U64 = (acc * 256 ^ n + v / 256) * 256 := by
      apply Nat.mod_eq_of_lt; omega
    rw [hm]
    have := shl_8_or (acc * 256 ^ n + v / 256) (v % 256) (Nat.mod_lt _ (by decide))
    rw [Nat.shiftLeft_eq, show (2:Nat) ^ 8 = 256 by decide] at this
    rw [this, hr]

/-- The length of a varint. -/
theorem encode_varint_length (v : Nat) :
    (encode_varint v).length =
      if v ≤ 240 then 1 else if v ≤ 2287 then 2 else if v ≤ 67823 then 3
      else payload_bytes v + 1 := by
  unfold encode_varint
  split
  · rfl
  · split
    · rfl
    · split
      · rfl
      · simp [encode_payload_length]

theorem payload_bytes_range (v : Nat) : 3 ≤ payload_bytes v ∧ payload_bytes v ≤ 8 := by
  unfold payload_bytes
  split_ifs <;> omega

/-- Every varint is 1 to 9 bytes long. -/
theorem encode_varint_length_le (v : Nat) :
    1 ≤ (encode_varint v).length ∧ (encode_varint v).length ≤ 9 := by
  rw [encode_varint_length]
  have := payload_bytes_range v
  split_ifs <;> omega

/-- The varint round trip below `2^48`: decoding the bytes of `encode_varint v`,
whatever follows them, gives `v` and the number of bytes written. -/
theorem decode_varint_encode (v : Nat) (hv : v < two_pow_48) (tail : List Nat) :
    decode_varint (encode_varint v ++ tail) = .ok (v, (encode_varint v).length) := by
  unfold two_pow_48 at hv
  rw [encode_varint_length]
  unfold encode_varint
  by_cases h1 : v ≤ 240
  · have : v % U8 = v := Nat.mod_eq_of_lt (by unfold U8; omega)
    simp [h1, this, decode_varint]
  · by_cases h2 : v ≤ 2287
    · rw [if_neg h1, if_pos h2, if_neg h1, if_pos h2, shr_8, and_255]
      have ha : ((v - 240) / 256 + 241) % U8 = (v - 240) / 256 + 241 := by unfold U8; omega
      rw [ha]
      generalize hq : (v - 240) / 256 = q
      generalize hr : (v - 240) % 256 = r
      have hq7 : q ≤ 7 := by omega
      show decode_varint ((q + 241) :: r :: tail) = _
      simp only [decode_varint]
      rw [if_neg (by omega), if_pos (by omega)]
      have e : 240 + 256 * (q + 241 - 241) + r = v := by omega
      rw [e]
    · by_cases h3 : v ≤ 67823
      · rw [if_neg h1, if_neg h2, if_pos h3, if_neg h1, if_neg h2, if_pos h3, shr_8, and_255]
        have ha : (v - 2288) / 256 % U8 = (v - 2288) / 256 := by unfold U8; omega
        rw [ha]
        generalize hq : (v - 2288) / 256 = q
        generalize hr : (v - 2288) % 256 = r
        show decode_varint (249 :: q :: r :: tail) = _
        simp only [decode_varint]
        rw [if_pos trivial]
        have e : 2288 + 256 * q + r = v := by omega
        rw [e, if_neg (by decide), if_neg (by decide)]
      · simp only [h1, h2, h3, if_false, List.cons_append, decode_varint]
        have hpb : 3 ≤ payload_bytes v ∧ payload_bytes v ≤ 6 ∧ v < 256 ^ payload_bytes v := by
          unfold payload_bytes
          split_ifs <;> refine ⟨by omega, by omega, ?_⟩ <;> norm_num <;> omega
        obtain ⟨p3, p6, pv⟩ := hpb
        have ha : (249 + payload_bytes v) % U8 = 249 + payload_bytes v :=
          Nat.mod_eq_of_lt (by unfold U8; omega)
        rw [ha, if_neg (by omega), if_neg (by omega), if_neg (by omega)]
        have hsub : 249 + payload_bytes v - 249 = payload_bytes v + 0 := by omega
        rw [hsub, decode_payload_encode _ v 0 tail 0 pv (by
          have : (256:Nat) ^ payload_bytes v ≤ 256 ^ 6 := Nat.pow_le_pow_right (by decide) p6
          have h6 : (256:Nat) ^ 6 = 281474976710656 := by norm_num
          unfold U64; omega)]
        simp [decode_payload]


theorem decode_field_encode (v : Nat) (hv : v < two_pow_48) (tail : List Nat) :
    decode_field (encode_varint v ++ tail) = .ok (v, (encode_varint v).length) := by
  unfold decode_field
  rw [decode_varint_encode v hv tail]
  have := (encode_varint_length_le v).1
  simp only
  rw [if_neg (by omega)]

theorem drop_encode_append (v : Nat) (tail : List Nat) :
    (encode_varint v ++ tail).drop (encode_varint v).length = tail :=
  List.drop_left _ _

/-- Reading back a header of five varints below `2^48`. -/
theorem decode_header_encode (a b c d e : Nat) (ha : a < two_pow_48) (hb : b < two_pow_48)
    (hc : c < two_pow_48) (hd : d < two_pow_48) (he : e < two_pow_48) (tail : List Nat) :
    decode_header (encode_varint a ++ (encode_varint b ++ (encode_varint c
        ++ (encode_varint d ++ (encode_varint e ++ tail)))))
      = .ok { bucket_count := a % U16, total_count := b, min := c, max := (d + c) % U64,
              min_bucket_id := e % U16,
              bytes_read := (encode_varint a).length + (encode_varint b).length
                + (encode_varint c).length + (encode_varint d).length
                + (encode_varint e).length } := by
  unfold decode_header
  rw [decode_field_encode a ha]
  simp only [drop_encode_append]
  rw [decode_field_encode b hb]
  simp only [drop_encode_append]
  rw [decode_field_encode c hc]
  simp only [drop_encode_append]
  rw [decode_field_encode d hd]
  simp only [drop_encode_append]
  rw [decode_field_encode e he]

theorem drop_header_encode (a b c d e : List Nat) (tail : List Nat) :
    (a ++ (b ++ (c ++ (d ++ (e ++ tail))))).drop
      (a.length + b.length + c.length + d.length + e.length) = tail := by
  have : a ++ (b ++ (c ++ (d ++ (e ++ tail)))) = (a ++ b ++ c ++ d ++ e) ++ tail := by
    simp only [List.append_assoc]
  rw [this]
  have hl : a.length + b.length + c.length + d.length + e.length
      = (a ++ b ++ c ++ d ++ e).length := by simp only [List.length_append]
  rw [hl]
  exact List.drop_left _ _

/-! ## Repeated insertion of one value -/

/-- One more insertion of a value below 16 that lies between min and max. -/
theorem heistogram_add_bump (E : Env) (h : Heistogram) (v k : Nat) (hcap : h.capacity = 16)
    (hlen : h.buckets.length = 16) (hv : v < 16) (hmin : h.min ≤ v) (hmax : v ≤ h.max)
    (hmb : h.min_bucket_id ≤ v) (ht : (h.total_count + k) % U64 ≠ 0) :
    heistogram_add E (bump h v k) v = .ok (bump h v (k + 1)) := by
  have hlen2 : (bump h v k).buckets.length = (bump h v k).capacity := by
    simp [bump, hlen, hcap]
  rw [heistogram_add_eq E (bump h v k) v hlen2]
  have hb : get_bucket_id E v = v := by
    unfold get_bucket_id HEIST_MAX_UNMAPPED_BUCKET
    rw [if_pos (by omega)]
  obtain ⟨f1, f2, f3⟩ := add_metadata_fields (bump h v k) v v
  have t0 : (bump h v k).total_count ≠ 0 := ht
  rw [if_neg t0] at f1 f2 f3
  have g1 : (add_metadata (bump h v k) v v).min = h.min := by
    rw [f1]; show (if h.min > v then v else h.min) = h.min
    rw [if_neg (by omega)]
  have g2 : (add_metadata (bump h v k) v v).max = h.max := by
    rw [f2]; show (if h.max < v then v else h.max) = h.max
    rw [if_neg (by omega)]
  have g3 : (add_metadata (bump h v k) v v).min_bucket_id = h.min_bucket_id := by
    rw [f3]; show (if v < h.min_bucket_id then v else h.min_bucket_id) = h.min_bucket_id
    rw [if_neg (by omega)]
  rw [hb, g1, g2, g3]
  have hc : (bump h v k).capacity = 16 := hcap
  have hge : ¬ (v ≥ (bump h v k).capacity) := by rw [hc]; omega
  simp only [hge, if_false]
  have hget : (bump h v k).buckets.getD v 0 = (h.buckets.getD v 0 + k) % U64 := by
    show (h.buckets.set v _).getD v 0 = _
    rw [getD_set _ _ _ _ (by omega), if_pos rfl]
  rw [hget]
  have hm1 : ((h.buckets.getD v 0 + k) % U64 + 1) % U64 = (h.buckets.getD v 0 + (k + 1)) % U64 := by
    unfold U64; omega
  have hm2 : ((bump h v k).total_count + 1) % U64 = (h.total_count + (k + 1)) % U64 := by
    show ((h.total_count + k) % U64 + 1) % U64 = _
    unfold U64; omega
  rw [hm1, hm2]
  simp only [bump, List.set_set, hcap]

/-- Repeated insertion of a value below 16 that lies between min and max, as
long as the total count does not pass through zero. -/
theorem foldlM_add_bump (E : Env) (h : Heistogram) (v : Nat) (hcap : h.capacity = 16)
    (hlen : h.buckets.length = 16) (hv : v < 16) (hmin : h.min ≤ v) (hmax : v ≤ h.max)
    (hmb : h.min_bucket_id ≤ v) (n k : Nat)
    (ht : ∀ j, k ≤ j → j < k + n → (h.total_count + j) % U64 ≠ 0) :
    (List.replicate n v).foldlM (heistogram_add E) (bump h v k) = .ok (bump h v (k + n)) := by
  induction n generalizing k with
  | zero => rfl
  | succ n ih =>
    simp only [List.replicate_succ, List.foldlM, bind, Except.bind]
    rw [heistogram_add_bump E h v k hcap hlen hv hmin hmax hmb (ht k (by omega) (by omega))]
    dsimp only
    rw [ih (k + 1) (fun j h1 h2 => ht j (by omega) (by omega))]
    congr 2
    omega

theorem build_append (E : Env) (xs ys : List Nat) (h : Heistogram) (e : build E xs = .ok h) :
    build E (xs ++ ys) = ys.foldlM (heistogram_add E) h := by
  unfold build at *
  rw [List.foldlM_append, e]
  rfl


/-- Inserting the value 1 `2^64` times. -/
theorem build_wrapped_ones (E : Env) :
    build E (List.replicate U64 1) = .ok wrapped_ones := by
  have hrep : List.replicate U64 1 = [1] ++ List.replicate (U64 - 1) 1 := by
    show List.replicate ((U64 - 1) + 1) 1 = _
    rw [List.replicate_succ]; rfl
  have e1 : build E [1] = .ok single_one := rfl
  rw [hrep, build_append E _ _ _ e1]
  have h0 : bump single_one 1 0 = single_one := by decide
  have := foldlM_add_bump E single_one 1 rfl rfl (by decide) (by decide) (by decide) (by decide)
    (U64 - 1) 0 (fun j _ hj => by
      show (1 + j) % U64 ≠ 0
      unfold U64 at *; omega)
  rw [h0] at this
  rw [this]
  decide

theorem percentile_scan_zero {D : Type} (F : FloatOps D) (E : Env) (h : Heistogram) (t : D)
    (k cs : Nat) (hk : k ≤ h.buckets.length) (hz : ∀ i, i < k → h.buckets.getD i 0 = 0) :
    percentile_scan F E h t k cs = .ok (F.of_u64 h.min) := by
  induction k with
  | zero => rfl
  | succ k ih =>
    rw [percentile_scan, read_bucket_eq _ _ (by omega)]
    dsimp only
    rw [hz k (by omega), if_neg (by decide)]
    exact ih (by omega) (fun i hi => hz i (by omega))

theorem scan_top_zero (bs : List Nat) (k : Nat) (hk : k ≤ bs.length)
    (hz : ∀ i, i < k → bs.getD i 0 = 0) : scan_top bs k = .ok 0 := by
  induction k with
  | zero => rfl
  | succ k ih =>
    unfold scan_top
    rw [read_bucket_eq _ _ (by omega)]
    dsimp only
    rw [if_pos (hz k (by omega))]
    exact ih (by omega) (fun i hi => hz i (by omega))

theorem serialize_top_zero (h : Heistogram) (hcap : h.capacity ≤ h.buckets.length)
    (hc : h.capacity ≤ 32768) (hz : ∀ i, i < h.capacity → h.buckets.getD i 0 = 0) :
    serialize_top h = .ok (-1) := by
  unfold serialize_top
  by_cases h0 : h.capacity = 0
  · rw [h0]; rfl
  · rw [toInt16_pred _ (by omega) hc]
    have h1 : ¬ ((h.capacity : Int) - 1 < 0) := by omega
    have h2 : ((h.capacity : Int) - 1).toNat + 1 = h.capacity := by omega
    simp only [h1, if_false, h2]
    rw [scan_top_zero _ _ hcap hz]
    rfl

/-- The serialization of a histogram without a non-zero bucket whose
min_bucket_id is 0: five varints. -/
theorem heistogram_serialize_zero (h : Heistogram) (hcap : h.capacity ≤ h.buckets.length)
    (hc : h.capacity ≤ 32768) (hz : ∀ i, i < h.capacity → h.buckets.getD i 0 = 0)
    (hmb : h.min_bucket_id = 0) (hmin : h.min ≤ h.max) (hmax : h.max < U64) :
    heistogram_serialize h = .ok (encode_varint 0 ++ (encode_varint h.total_count
      ++ (encode_varint h.min ++ (encode_varint (h.max - h.min) ++ (encode_varint 0 ++ []))))) := by
  have hdelta : (h.max + (U64 - h.min % U64)) % U64 = h.max - h.min := by
    unfold U64 at *; omega
  simp only [heistogram_serialize, bind, Except.bind, serialize_top_zero h hcap hc hz, hmb,
    pure, Except.pure, hdelta]
  have : ((-1 : Int) - ((0 : Nat) : Int) + 1) = 0 := by norm_num
  rw [this]
  simp [encode_buckets]


/-! ## Percentiles of a histogram without a non-zero bucket -/

/-- The live percentile of a histogram without a non-zero bucket. -/
theorem percentile_zero {D : Type} (F : FloatOps D) (E : Env) (h : Heistogram) (p : D)
    (hcap : h.capacity ≤ h.buckets.length) (hz : ∀ i, i < h.capacity → h.buckets.getD i 0 = 0)
    (hp0 : F.lt p (F.of_u64 0) = false) (hp100 : F.lt (F.of_u64 100) p = false) :
    heistogram_percentile F E h p = .ok (F.of_u64 h.min) := by
  unfold heistogram_percentile
  rw [hp0, hp100]
  simp only [Bool.or_self, Bool.false_eq_true, if_false]
  split
  · rfl
  · rename_i hs
    apply percentile_scan_zero
    · unfold toInt16 U16 at *
      split at hs <;> omega
    · intro i hi
      apply hz
      unfold toInt16 U16 at *
      split at hs <;> omega

/-- The serialized percentile of a histogram without a non-zero bucket whose
min_bucket_id is 0 and whose header fields are below `2^48`. -/
theorem percentile_serialized_zero {D : Type} (F : FloatOps D) (E : Env) (h : Heistogram) (p : D)
    (hcap : h.capacity ≤ h.buckets.length) (hc : h.capacity ≤ 32768)
    (hz : ∀ i, i < h.capacity → h.buckets.getD i 0 = 0)
    (hmb : h.min_bucket_id = 0) (ht : h.total_count < two_pow_48) (hmin : h.min ≤ h.max)
    (hmax : h.max < two_pow_48) :
    ∃ bytes, heistogram_serialize h = .ok bytes
      ∧ heistogram_percentile_serialized F E bytes bytes.length p = .ok (F.of_u64 h.min) := by
  have h48 : two_pow_48 < U64 := by decide
  refine ⟨_, heistogram_serialize_zero h hcap hc hz hmb hmin (by omega), ?_⟩
  have l0 := encode_varint_length_le 0
  have l1 := encode_varint_length_le h.total_count
  have l2 := encode_varint_length_le h.min
  have l3 := encode_varint_length_le (h.max - h.min)
  unfold heistogram_percentile_serialized
  rw [if_neg (by simp only [List.length_append]; omega)]
  rw [decode_header_encode 0 h.total_count h.min (h.max - h.min) 0 (by decide) ht (by omega)
    (by omega) (by decide) []]
  dsimp only
  rw [if_neg (by omega)]
  have hrl : run_length (header_top
      { bucket_count := 0 % U16, total_count := h.total_count, min := h.min,
        max := (h.max - h.min + h.min) % U64, min_bucket_id := 0 % U16,
        bytes_read := (encode_varint 0).length + (encode_varint h.total_count).length
          + (encode_varint h.min).length + (encode_varint (h.max - h.min)).length
          + (encode_varint 0).length }) (0 % U16) = 0 := by
    show run_length ((0 % U16 + 0 % U16 + (U16 - 1)) % U16) (0 % U16) = 0
    decide
  rw [hrl]
  rfl


set_option maxRecDepth 100000 in
/-- C22, evaluated at the histogram built by `2^64` insertions of the value 1,
which has no non-zero bucket: `heistogram_percentile` at `p = 50` returns the
stored min 1.  The serialization starts with the varint of the span `-1`
converted to `uint64_t`, which `encode_varint` writes with the first byte
`(uint8_t)(249 + 8) = 1` and eight payload bytes; `decode_varint` reads that
first byte as the one-byte value 1, and `heistogram_percentile_serialized`
reads past the end of the 13 bytes while decoding the header. -/
theorem percentile_serialized_wrapped_ones :
    build exactEnv (List.replicate U64 1) = .ok wrapped_ones
    ∧ (∀ i, bucket_count wrapped_ones i = 0)
    ∧ heistogram_min wrapped_ones = 1
    ∧ Dbl.lt (Dbl.ofNat 50) (Dbl.ofNat 0) = false ∧ Dbl.lt (Dbl.ofNat 100) (Dbl.ofNat 50) = false
    ∧ heistogram_percentile ieeeOps exactEnv wrapped_ones (Dbl.ofNat 50) = .ok (Dbl.ofNat 1)
    ∧ heistogram_serialize wrapped_ones
        = .ok [1, 255, 255, 255, 255, 255, 255, 255, 255, 0, 1, 0, 1]
    ∧ heistogram_percentile_serialized ieeeOps exactEnv
        [1, 255, 255, 255, 255, 255, 255, 255, 255, 0, 1, 0, 1] 13 (Dbl.ofNat 50)
        = .error .oob :=
  ⟨build_wrapped_ones exactEnv, fun i => by
      unfold bucket_count
      split
      · exact getD_replicate_zero 16 i
      · rfl, by decide, by decide, by decide, by decide, by decide, by decide⟩

/-- Where no header field reaches the varint sizes of seven and eight payload
bytes: for a histogram with no non-zero bucket whose capacity is at most
32768, whose min_bucket_id is 0 and whose total count, min and max are below
`2^48` with min at most max (in particular one fresh from
`heistogram_create`), and for every `p` with `0 ≤ p ≤ 100`,
`heistogram_percentile` returns the stored min, serialization succeeds, and
`heistogram_percentile_serialized` on the serialization returns the stored
min as well. -/
theorem percentile_no_nonzero_bucket {D : Type} (F : FloatOps D) (E : Env) (h : Heistogram)
    (p : D) (hcap : h.capacity ≤ h.buckets.length) (hc : h.capacity ≤ 32768)
    (hz : ∀ i, bucket_count h i = 0) (hmb : h.min_bucket_id = 0)
    (ht : h.total_count < two_pow_48) (hmin : heistogram_min h ≤ heistogram_max h)
    (hmax : heistogram_max h < two_pow_48)
    (hp0 : F.lt p (F.of_u64 0) = false) (hp100 : F.lt (F.of_u64 100) p = false) :
    heistogram_percentile F E h p = .ok (F.of_u64 (heistogram_min h))
    ∧ ∃ bytes, heistogram_serialize h = .ok bytes
      ∧ heistogram_percentile_serialized F E bytes bytes.length p
          = .ok (F.of_u64 (heistogram_min h)) := by
  have hz2 : ∀ i, i < h.capacity → h.buckets.getD i 0 = 0 := by
    intro i hi
    have := hz i
    unfold bucket_count at this
    rwa [if_pos hi] at this
  exact ⟨percentile_zero F E h p hcap hz2 hp0 hp100,
    percentile_serialized_zero F E h p hcap hc hz2 hmb ht hmin hmax⟩

set_option maxRecDepth 100000 in
/-- The fresh histogram at `p = 50` in binary64 arithmetic: both percentile
functions return 0. -/
theorem percentile_no_nonzero_bucket_witness :
    heistogram_percentile ieeeOps exactEnv heistogram_create (Dbl.ofNat 50)
      = .ok (Dbl.ofNat (heistogram_min heistogram_create))
    ∧ ∃ bytes, heistogram_serialize heistogram_create = .ok bytes
      ∧ heistogram_percentile_serialized ieeeOps exactEnv bytes bytes.length (Dbl.ofNat 50)
          = .ok (Dbl.ofNat (heistogram_min heistogram_create)) :=
  percentile_no_nonzero_bucket ieeeOps exactEnv heistogram_create (Dbl.ofNat 50) (by decide)
    (by decide) bucket_count_create rfl (by decide) (by decide) (by decide) (by decide)
    (by decide)

/-! ## The size of a serialization -/

theorem bucket_run_eq (bs : List Nat) (lo n : Nat) :
    bucket_run bs lo n = (run_counts bs lo n).flatMap encode_varint := by
  induction n with
  | zero => rfl
  | succ n ih =>
    unfold run_counts at *
    rw [List.range_succ, List.reverse_append]
    simp only [List.reverse_cons, List.reverse_nil, List.nil_append, List.singleton_append,
      List.map_cons, List.flatMap_cons]
    rw [← ih]
    rfl

theorem run_counts_length (bs : List Nat) (lo n : Nat) : (run_counts bs lo n).length = n := by
  simp [run_counts]

/-- A sequence of `n` varints takes between `n` and `9 * n` bytes. -/
theorem flatMap_encode_varint_length (l : List Nat) :
    l.length ≤ (l.flatMap encode_varint).length
    ∧ (l.flatMap encode_varint).length ≤ 9 * l.length := by
  induction l with
  | nil => simp
  | cons v l ih =>
    have := encode_varint_length_le v
    simp only [List.flatMap_cons, List.length_append, List.length_cons]
    omega

theorem exists_top (l : List Nat) (hne : l ≠ []) : ∃ m ∈ l, ∀ x ∈ l, x ≤ m := by
  induction l with
  | nil => exact absurd rfl hne
  | cons a l ih =>
    by_cases hl : l = []
    · subst hl; exact ⟨a, by simp, by simp⟩
    · obtain ⟨m, hm, hmax⟩ := ih hl
      by_cases ham : a ≤ m
      · exact ⟨m, List.mem_cons_of_mem _ hm, fun x hx => by
          rcases List.mem_cons.mp hx with h | h
          · rw [h]; exact ham
          · exact hmax x h⟩
      · exact ⟨a, by simp, fun x hx => by
          rcases List.mem_cons.mp hx with h | h
          · rw [h]
          · have := hmax x h; omega⟩

theorem serialize_buffer_size_built (E : Env) (xs : List Nat) (h : Heistogram)
    (hb : BuiltFrom E xs h) (top : Nat)
    (hmem : top ∈ xs.map (get_bucket_id E)) (hmax : ∀ x ∈ xs, get_bucket_id E x ≤ top) :
    serialize_top h = .ok (top : Int)
    ∧ serialize_buffer_size h = .ok (45 + (top - h.min_bucket_id + 1) * 9) := by
  obtain ⟨x, hx, hxt⟩ := List.mem_map.mp hmem
  have hcap := hb.cap_le
  have htop : top < h.capacity := hxt ▸ hb.bid_lt x hx
  have hmb : h.min_bucket_id ≤ top := hxt ▸ hb.mbid_le x hx
  have hnz : h.buckets.getD top 0 ≠ 0 := by
    rw [hb.counts]
    exact Nat.pos_iff_ne_zero.mp (List.count_pos_iff.mpr hmem)
  have hz : ∀ i, top < i → i < h.capacity → h.buckets.getD i 0 = 0 := by
    intro i hi _
    rw [hb.counts]
    apply List.count_eq_zero.mpr
    intro hmem2
    obtain ⟨y, hy, hyi⟩ := List.mem_map.mp hmem2
    have := hmax y hy
    omega
  have etop := serialize_top_eq h top hb.length_eq (by omega) htop hnz hz
  refine ⟨etop, ?_⟩
  unfold serialize_buffer_size
  rw [etop]
  have hspan : (((top : Int) - (h.min_bucket_id : Int) + 1) % (U64 : Int)).toNat
      = top - h.min_bucket_id + 1 := by
    unfold U64; omega
  simp only [hspan]
  rw [Nat.mod_eq_of_lt (by unfold U64; omega)]

/-- The insertions `0, 6, 6, ..., 6` with `2^64` sixes. -/
theorem build_wrapped_sixes (E : Env) :
    build E (0 :: List.replicate U64 6) = .ok wrapped_sixes := by
  have hrep : 0 :: List.replicate U64 6 = [0, 6] ++ (List.replicate (U64 - 2) 6 ++ [6]) := by
    have : List.replicate U64 6 = List.replicate ((U64 - 2) + 1 + 1) 6 := rfl
    rw [this, List.replicate_succ, List.replicate_succ']
    rfl
  have e1 : build E [0, 6] = .ok ⟨16, 0, 2, 0, 6, [1, 0, 0, 0, 0, 0, 1, 0, 0, 0, 0, 0, 0, 0, 0, 0]⟩ :=
    rfl
  rw [hrep, build_append E _ _ _ e1, List.foldlM_append]
  have h0 : bump ⟨16, 0, 2, 0, 6, [1, 0, 0, 0, 0, 0, 1, 0, 0, 0, 0, 0, 0, 0, 0, 0]⟩ 6 0
      = ⟨16, 0, 2, 0, 6, [1, 0, 0, 0, 0, 0, 1, 0, 0, 0, 0, 0, 0, 0, 0, 0]⟩ := by decide
  have := foldlM_add_bump E ⟨16, 0, 2, 0, 6, [1, 0, 0, 0, 0, 0, 1, 0, 0, 0, 0, 0, 0, 0, 0, 0]⟩ 6
    rfl rfl (by decide) (by decide) (by decide) (by decide)
    (U64 - 2) 0 (fun j _ hj => by
      show (2 + j) % U64 ≠ 0
      unfold U64 at *; omega)
  rw [h0] at this
  rw [this]
  have hb : bump ⟨16, 0, 2, 0, 6, [1, 0, 0, 0, 0, 0, 1, 0, 0, 0, 0, 0, 0, 0, 0, 0]⟩ 6 (0 + (U64 - 2))
      = ⟨16, 0, 0, 0, 6, [1, 0, 0, 0, 0, 0, U64 - 1, 0, 0, 0, 0, 0, 0, 0, 0, 0]⟩ := by decide
  rw [hb]
  rfl

/-- C28 as stated fails at the insertions `0, 6, 6, ..., 6` with `2^64` sixes:
the highest non-empty bucket id is 0 and min_bucket_id is 6, so the span is
`-5`, yet five varints are written, 13 bytes in all, more than
`9 * (5 + span) = 0` and more than the 0 bytes requested from `malloc`. -/
theorem heistogram_serialize_negative_span :
    build exactEnv (0 :: List.replicate U64 6) = .ok wrapped_sixes
    ∧ bucket_count wrapped_sixes 0 ≠ 0 ∧ (∀ i, 0 < i → bucket_count wrapped_sixes i = 0)
    ∧ wrapped_sixes.min_bucket_id = 6
    ∧ heistogram_serialize wrapped_sixes
        = .ok ([U64 - 5, 1, 6, 0, 6].flatMap encode_varint)
    ∧ ([U64 - 5, 1, 6, 0, 6].flatMap encode_varint).length = 13
    ∧ ¬ ((5 : Int) = 5 + ((0 : Int) - 6 + 1))
    ∧ ¬ ((13 : Int) ≤ 9 * (5 + ((0 : Int) - 6 + 1)))
    ∧ serialize_buffer_size wrapped_sixes = .ok 0 :=
  ⟨build_wrapped_sixes exactEnv, by decide, fun i hi => by
      unfold bucket_count
      split
      · show ([1] ++ List.replicate 15 0).getD i 0 = 0
        rw [List.getD_append_right _ _ _ _ (by simpa using hi)]
        exact getD_replicate_zero _ _
      · rfl, rfl, by decide, by decide, by decide, by decide, by decide⟩

/-- C28, amended: for every sequence `xs` of fewer than `2^64` values of 64
bits, the histogram built from `xs` serializes to exactly `5 + span` varints,
each 1 to 9 bytes long, where `span` is 0 for the empty sequence and
otherwise `top - min_bucket_id + 1` for the highest bucket id `top` with a
non-zero count; the reported size is at most `9 * (5 + span)`, it does not
exceed the `45 + 9 * span` bytes allocated, and it is at most
`9 * (5 + (hi - lo + 1))` whenever all inserted values have bucket ids from
`lo` to `hi`, however many values were inserted. -/
theorem heistogram_serialize_size (E : Env) (xs : List Nat) (hlen : xs.length < U64)
    (hv : ∀ x ∈ xs, x < U64) :
    ∃ h bytes span, build E xs = .ok h ∧ heistogram_serialize h = .ok bytes
      ∧ (xs = [] → span = 0)
      ∧ (xs ≠ [] → ∃ top, bucket_count h top ≠ 0 ∧ (∀ i, top < i → bucket_count h i = 0)
          ∧ h.min_bucket_id ≤ top ∧ span = top - h.min_bucket_id + 1)
      ∧ bytes = ([span, h.total_count, h.min, h.max - h.min, h.min_bucket_id]
          ++ run_counts h.buckets h.min_bucket_id span).flatMap encode_varint
      ∧ ([span, h.total_count, h.min, h.max - h.min, h.min_bucket_id]
          ++ run_counts h.buckets h.min_bucket_id span).length = 5 + span
      ∧ (∀ v, 1 ≤ (encode_varint v).length ∧ (encode_varint v).length ≤ 9)
      ∧ bytes.length ≤ 9 * (5 + span)
      ∧ serialize_buffer_size h = .ok (45 + 9 * span)
      ∧ bytes.length ≤ 45 + 9 * span
      ∧ ∀ lo hi, (∀ x ∈ xs, lo ≤ get_bucket_id E x ∧ get_bucket_id E x ≤ hi) →
          bytes.length ≤ 9 * (5 + (hi - lo + 1)) := by
  obtain ⟨h, e, b⟩ := build_built E xs hlen
  by_cases hne : xs = []
  · subst hne
    have hh : h = heistogram_create := by
      have : build E [] = .ok heistogram_create := rfl
      rw [this] at e
      exact (Except.ok.inj e).symm
    subst hh
    refine ⟨heistogram_create, [0, 0, 0, 0, 0], 0, e, by decide, fun _ => rfl,
      fun h => absurd rfl h, by decide, by decide, encode_varint_length_le, by decide,
      by decide, by decide, ?_⟩
    intro lo hi _
    show 5 ≤ _
    omega
  · obtain ⟨top, hmem, hmax⟩ := exists_top (xs.map (get_bucket_id E)) (by simpa using hne)
    have hmax2 : ∀ x ∈ xs, get_bucket_id E x ≤ top :=
      fun x hx => hmax _ (List.mem_map.mpr ⟨x, hx, rfl⟩)
    have es := heistogram_serialize_built E xs h b hv top hmem hmax2
    obtain ⟨-, ea⟩ := serialize_buffer_size_built E xs h b top hmem hmax2
    obtain ⟨x, hx, hxt⟩ := List.mem_map.mp hmem
    have hmb : h.min_bucket_id ≤ top := hxt ▸ b.mbid_le x hx
    have hbytes : encode_varint (top - h.min_bucket_id + 1)
          ++ encode_varint h.total_count ++ encode_varint h.min
          ++ encode_varint (h.max - h.min) ++ encode_varint h.min_bucket_id
          ++ bucket_run h.buckets h.min_bucket_id (top - h.min_bucket_id + 1)
        = ([top - h.min_bucket_id + 1, h.total_count, h.min, h.max - h.min, h.min_bucket_id]
          ++ run_counts h.buckets h.min_bucket_id (top - h.min_bucket_id + 1)).flatMap
            encode_varint := by
      rw [bucket_run_eq]
      simp only [List.flatMap_append, List.flatMap_cons, List.flatMap_nil, List.append_nil,
        List.append_assoc]
    have hl : ([top - h.min_bucket_id + 1, h.total_count, h.min, h.max - h.min, h.min_bucket_id]
          ++ run_counts h.buckets h.min_bucket_id (top - h.min_bucket_id + 1)).length
        = 5 + (top - h.min_bucket_id + 1) := by
      rw [List.length_append, run_counts_length]; rfl
    have hsz := (flatMap_encode_varint_length
      ([top - h.min_bucket_id + 1, h.total_count, h.min, h.max - h.min, h.min_bucket_id]
          ++ run_counts h.buckets h.min_bucket_id (top - h.min_bucket_id + 1))).2
    rw [hl] at hsz
    refine ⟨h, _, top - h.min_bucket_id + 1, e, es, fun h => absurd h hne, fun _ => ⟨top, ?_, ?_,
      hmb, rfl⟩, hbytes, hl, encode_varint_length_le, ?_, ?_, ?_, ?_⟩
    · rw [bucket_count_built E xs h b]
      exact Nat.pos_iff_ne_zero.mp (List.count_pos_iff.mpr hmem)
    · intro i hi
      rw [bucket_count_built E xs h b]
      apply List.count_eq_zero.mpr
      intro hmem2
      have := hmax i hmem2
      omega
    · rw [hbytes]; exact hsz
    · rw [ea, Nat.mul_comm]
    · rw [hbytes]; omega
    · intro lo hi hr
      rw [hbytes]
      obtain ⟨y, hy, hyb⟩ := b.mbid_mem hne
      have h1 := (hr y hy).1
      have h2 := (hr x hx).2
      rw [hxt] at h2
      rw [← hyb] at h1
      have : top - h.min_bucket_id + 1 ≤ hi - lo + 1 := by omega
      omega

/-- C28, amended, at the values of the basic functionality test. -/
theorem heistogram_serialize_size_witness :
    [100, 200, 300, 400, 500, 5, 5000].length < U64
    ∧ (∀ x ∈ [100, 200, 300, 400, 500, 5, 5000], x < U64)
    ∧ ∃ h bytes span, build exactEnv [100, 200, 300, 400, 500, 5, 5000] = .ok h
      ∧ heistogram_serialize h = .ok bytes
      ∧ ([100, 200, 300, 400, 500, 5, 5000] = [] → span = 0)
      ∧ ([100, 200, 300, 400, 500, 5, 5000] ≠ [] →
          ∃ top, bucket_count h top ≠ 0 ∧ (∀ i, top < i → bucket_count h i = 0)
          ∧ h.min_bucket_id ≤ top ∧ span = top - h.min_bucket_id + 1)
      ∧ bytes = ([span, h.total_count, h.min, h.max - h.min, h.min_bucket_id]
          ++ run_counts h.buckets h.min_bucket_id span).flatMap encode_varint
      ∧ ([span, h.total_count, h.min, h.max - h.min, h.min_bucket_id]
          ++ run_counts h.buckets h.min_bucket_id span).length = 5 + span
      ∧ (∀ v, 1 ≤ (encode_varint v).length ∧ (encode_varint v).length ≤ 9)
      ∧ bytes.length ≤ 9 * (5 + span)
      ∧ serialize_buffer_size h = .ok (45 + 9 * span)
      ∧ bytes.length ≤ 45 + 9 * span
      ∧ ∀ lo hi, (∀ x ∈ [100, 200, 300, 400, 500, 5, 5000],
            lo ≤ get_bucket_id exactEnv x ∧ get_bucket_id exactEnv x ≤ hi) →
          bytes.length ≤ 9 * (5 + (hi - lo + 1)) :=
  ⟨by decide, by decide, heistogram_serialize_size exactEnv _ (by decide) (by decide)⟩

/-! ## Reachable histograms -/

theorem bucket_count_eq_getD (h : Heistogram) (hlen : h.buckets.length = h.capacity) (i : Nat) :
    bucket_count h i = h.buckets.getD i 0 := by
  unfold bucket_count
  split
  · rfl
  · rw [getD_of_length_le _ _ (by omega)]

/-- The state `heistogram_add` returns, in terms of the counts per bucket id. -/
theorem heistogram_add_state (E : Env) (h : Heistogram) (x : Nat)
    (hlen : h.buckets.length = h.capacity) :
    ∃ h2, heistogram_add E h x = .ok h2
      ∧ h2.buckets.length = h2.capacity
      ∧ h.capacity ≤ h2.capacity
      ∧ get_bucket_id E x < h2.capacity
      ∧ h2.total_count = (h.total_count + 1) % U64
      ∧ h2.min = (if h.total_count = 0 then x else if h.min > x then x else h.min)
      ∧ h2.max = (if h.total_count = 0 then x else if h.max < x then x else h.max)
      ∧ ∀ i, bucket_count h2 i
          = if i = get_bucket_id E x then (bucket_count h i + 1) % U64 else bucket_count h i := by
  obtain ⟨fmin, fmax, -⟩ := add_metadata_fields h x (get_bucket_id E x)
  have hl2 : ((if get_bucket_id E x ≥ h.capacity then
        h.buckets ++ List.replicate (get_bucket_id E x + 16 - h.capacity) 0
        else h.buckets).set (get_bucket_id E x)
          ((h.buckets.getD (get_bucket_id E x) 0 + 1) % U64)).length
      = if get_bucket_id E x ≥ h.capacity then get_bucket_id E x + 16 else h.capacity := by
    rw [List.length_set]
    split <;> (try simp) <;> omega
  refine ⟨_, heistogram_add_eq E h x hlen, hl2, ?_, ?_, rfl, fmin, fmax, ?_⟩
  · dsimp only; split <;> omega
  · dsimp only; split <;> omega
  · intro i
    rw [bucket_count_eq_getD _ hl2, bucket_count_eq_getD h hlen]
    dsimp only
    rw [getD_set _ _ _ _ (by split <;> (try simp) <;> omega)]
    have hz : (if get_bucket_id E x ≥ h.capacity then
        h.buckets ++ List.replicate (get_bucket_id E x + 16 - h.capacity) 0
        else h.buckets).getD i 0 = h.buckets.getD i 0 := by
      split
      · exact getD_append_zeros _ _ _
      · rfl
    rw [hz]
    by_cases hi : i = get_bucket_id E x
    · rw [if_pos hi, if_pos hi, hi]
    · rw [if_neg hi, if_neg hi]

/-- In-place merging keeps the counter array as long as the capacity. -/
theorem heistogram_merge_inplace_length (a b r : Heistogram)
    (ha : a.buckets.length = a.capacity) (hb : b.capacity ≤ b.buckets.length)
    (e : heistogram_merge_inplace a b = .ok r) : r.buckets.length = r.capacity := by
  obtain ⟨r0, e0, c0, l0, -, -, -, -, -, l1, -⟩ := resize_result_eq a b.capacity (by omega)
  obtain ⟨b1, e1, l2, -⟩ := add_counts_eq r0.buckets b.buckets b.capacity (by omega) hb
  simp only [heistogram_merge_inplace, bind, Except.bind, e0, e1, pure, Except.pure] at e
  have := Except.ok.inj e
  subst this
  dsimp only
  rw [l2]
  exact l1 ha


theorem tracked_create (E : Env) : Tracked E [] heistogram_create :=
  ⟨rfl, rfl, fun i => by rw [bucket_count_create]; rfl, fun _ h => absurd h (List.not_mem_nil _),
    fun _ h => absurd h (List.not_mem_nil _)⟩

theorem tracked_add (E : Env) (xs : List Nat) (h h2 : Heistogram) (v : Nat)
    (t : Tracked E xs h) (hlen : xs.length + 1 < U64) (e : heistogram_add E h v = .ok h2) :
    Tracked E (xs ++ [v]) h2 := by
  obtain ⟨h3, e3, l3, -, -, t3, mn3, mx3, c3⟩ := heistogram_add_state E h v t.length_eq
  rw [e3] at e
  have := Except.ok.inj e
  subst this
  have hempty : h.total_count = 0 ↔ xs = [] := by
    rw [t.total]; exact List.length_eq_zero
  refine ⟨l3, ?_, ?_, ?_, ?_⟩
  · rw [t3, t.total, Nat.mod_eq_of_lt hlen]; simp
  · intro i
    rw [c3, List.map_append, List.count_append, List.map_singleton, List.count_singleton,
      t.counts]
    have hc := count_map_le_length E xs i
    by_cases hi : i = get_bucket_id E v
    · subst hi
      rw [if_pos rfl, Nat.mod_eq_of_lt (by omega)]
      simp
    · rw [if_neg hi]
      have : (get_bucket_id E v == i) = false := by
        simp only [beq_eq_false_iff_ne, ne_eq]; exact fun e => hi e.symm
      simp [this]
  · intro y hy
    rw [mn3]
    rcases List.mem_append.mp hy with hy | hy
    · have := t.min_le y hy
      have hne : h.total_count ≠ 0 := fun e => by
        rw [hempty.mp e] at hy; exact List.not_mem_nil _ hy
      rw [if_neg hne]; split <;> omega
    · rw [List.mem_singleton.mp hy]
      split
      · exact le_refl _
      · split <;> omega
  · intro y hy
    rw [mx3]
    rcases List.mem_append.mp hy with hy | hy
    · have := t.max_ge y hy
      have hne : h.total_count ≠ 0 := fun e => by
        rw [hempty.mp e] at hy; exact List.not_mem_nil _ hy
      rw [if_neg hne]; split <;> omega
    · rw [List.mem_singleton.mp hy]
      split
      · exact le_refl _
      · split <;> omega

theorem tracked_merge (E : Env) (xs ys : List Nat) (a b r : Heistogram)
    (ta : Tracked E xs a) (tb : Tracked E ys b) (hlen : xs.length + ys.length < U64)
    (e : heistogram_merge a b = .ok r) : Tracked E (xs ++ ys) r := by
  obtain ⟨m, em, -, l, t, mn, mx, -, g⟩ := heistogram_merge_eq a b
    (by rw [ta.length_eq]) (by rw [tb.length_eq])
  rw [em] at e
  have := Except.ok.inj e
  subst this
  refine ⟨l, by rw [t, ta.total, tb.total, Nat.mod_eq_of_lt hlen]; simp, ?_, ?_, ?_⟩
  · intro i
    rw [g, ta.counts, tb.counts, List.map_append, List.count_append]
    have h1 := count_map_le_length E xs i
    have h2 := count_map_le_length E ys i
    exact Nat.mod_eq_of_lt (by omega)
  · intro v hv
    rw [mn]
    rcases List.mem_append.mp hv with hv | hv
    · exact le_trans (Nat.min_le_left _ _) (ta.min_le v hv)
    · exact le_trans (Nat.min_le_right _ _) (tb.min_le v hv)
  · intro v hv
    rw [mx]
    rcases List.mem_append.mp hv with hv | hv
    · exact le_trans (ta.max_ge v hv) (Nat.le_max_left _ _)
    · exact le_trans (tb.max_ge v hv) (Nat.le_max_right _ _)

theorem tracked_merge_inplace (E : Env) (xs ys : List Nat) (a b r : Heistogram)
    (ta : Tracked E xs a) (tb : Tracked E ys b) (hlen : xs.length + ys.length < U64)
    (e : heistogram_merge_inplace a b = .ok r) : Tracked E (xs ++ ys) r := by
  have l := heistogram_merge_inplace_length a b r ta.length_eq (by rw [tb.length_eq]) e
  obtain ⟨m, em, -, -, t, mn, mx, -, g⟩ := heistogram_merge_inplace_eq a b
    (by rw [ta.length_eq]) (by rw [tb.length_eq])
  rw [em] at e
  have := Except.ok.inj e
  subst this
  refine ⟨l, by rw [t, ta.total, tb.total, Nat.mod_eq_of_lt hlen]; simp, ?_, ?_, ?_⟩
  · intro i
    rw [g, ta.counts, tb.counts, List.map_append, List.count_append]
    have h1 := count_map_le_length E xs i
    have h2 := count_map_le_length E ys i
    split
    · exact Nat.mod_eq_of_lt (by omega)
    · rename_i hi
      have hz : bucket_count b i = 0 := by
        unfold bucket_count; rw [if_neg hi]
      rw [tb.counts] at hz
      omega
  · intro v hv
    rw [mn]
    rcases List.mem_append.mp hv with hv | hv
    · exact le_trans (Nat.min_le_left _ _) (ta.min_le v hv)
    · exact le_trans (Nat.min_le_right _ _) (tb.min_le v hv)
  · intro v hv
    rw [mx]
    rcases List.mem_append.mp hv with hv | hv
    · exact le_trans (ta.max_ge v hv) (Nat.le_max_left _ _)
    · exact le_trans (tb.max_ge v hv) (Nat.le_max_right _ _)

/-- A reachable histogram that fewer than `2^64` values went into holds what
`Tracked` describes. -/
theorem reach_tracked (E : Env) (xs : List Nat) (h : Heistogram) (hr : Reach E xs h)
    (hlen : xs.length < U64) : Tracked E xs h := by
  induction hr with
  | create => exact tracked_create E
  | add xs h h2 v _ _ e ih =>
    rw [List.length_append, List.length_singleton] at hlen
    exact tracked_add E xs h h2 v (ih (by omega)) hlen e
  | merge xs ys a b r _ _ e iha ihb =>
    rw [List.length_append] at hlen
    exact tracked_merge E xs ys a b r (iha (by omega)) (ihb (by omega)) hlen e
  | merge_inplace xs ys a b r _ _ e iha ihb =>
    rw [List.length_append] at hlen
    exact tracked_merge_inplace E xs ys a b r (iha (by omega)) (ihb (by omega)) hlen e

/-- Insertions started from a reachable histogram reach a histogram. -/
theorem reach_foldlM (E : Env) (ys : List Nat) (hv : ∀ y ∈ ys, y < U64) :
    ∀ (xs : List Nat) (h h2 : Heistogram), Reach E xs h →
      ys.foldlM (heistogram_add E) h = .ok h2 → Reach E (xs ++ ys) h2 := by
  induction ys with
  | nil =>
    intro xs h h2 hr e
    have := Except.ok.inj e
    subst this
    simpa using hr
  | cons y ys ih =>
    intro xs h h2 hr e
    simp only [List.foldlM, bind, Except.bind] at e
    cases e1 : heistogram_add E h y with
    | error err => rw [e1] at e; exact absurd e (by simp)
    | ok h1 =>
      rw [e1] at e
      have := ih (fun z hz => hv z (List.mem_cons_of_mem _ hz)) (xs ++ [y]) h1 h2
        (Reach.add xs h h1 y hr (hv y (List.mem_cons_self _ _)) e1) e
      simpa using this

/-- Every histogram built by insertion is reachable. -/
theorem reach_build (E : Env) (xs : List Nat) (h : Heistogram) (hv : ∀ x ∈ xs, x < U64)
    (e : build E xs = .ok h) : Reach E xs h := by
  have := reach_foldlM E xs hv [] heistogram_create h Reach.create e
  simpa using this

/-! ## Sums of bucket counts -/

theorem sum_range_succ_map (f : Nat → Nat) (N : Nat) :
    ((List.range (N + 1)).map f).sum = ((List.range N).map f).sum + f N := by
  rw [List.range_succ, List.map_append, List.sum_append]
  simp

/-- Bucket ids at or beyond the capacity add nothing to the sum of the counts. -/
theorem sum_range_bucket_count (h : Heistogram) (N : Nat) (hN : h.capacity ≤ N) :
    ((List.range N).map (bucket_count h)).sum = bucket_sum h := by
  induction N, hN using Nat.le_induction with
  | base => rfl
  | succ n hn ih =>
    rw [sum_range_succ_map, ih]
    have : bucket_count h n = 0 := by
      unfold bucket_count; rw [if_neg (by omega)]
    omega

/-- Sums of counts that agree modulo `2^64` bucket by bucket. -/
theorem sum_add_mod (f g k : Nat → Nat) (N : Nat)
    (h : ∀ i, f i % U64 = (g i + k i) % U64) :
    ((List.range N).map f).sum % U64
      = (((List.range N).map g).sum + ((List.range N).map k).sum) % U64 := by
  induction N with
  | zero => rfl
  | succ n ih =>
    rw [sum_range_succ_map, sum_range_succ_map, sum_range_succ_map]
    have := h n
    unfold U64 at *
    omega

/-- The sum of the counts after one counter was incremented modulo `2^64`. -/
theorem sum_update_mod (f : Nat → Nat) (b N : Nat) :
    ((List.range N).map (fun i => if i = b then (f i + 1) % U64 else f i)).sum % U64
      = (((List.range N).map f).sum + (if b < N then 1 else 0)) % U64 := by
  induction N with
  | zero => rfl
  | succ n ih =>
    rw [sum_range_succ_map, sum_range_succ_map]
    by_cases hb : n = b
    · subst hb
      rw [if_pos rfl, if_pos (by omega)]
      rw [if_neg (by omega)] at ih
      unfold U64 at *
      omega
    · rw [if_neg hb]
      by_cases hlt : b < n
      · rw [if_pos hlt] at ih
        rw [if_pos (by omega)]
        unfold U64 at *
        omega
      · rw [if_neg hlt] at ih
        rw [if_neg (by omega)]
        unfold U64 at *
        omega

theorem countP_lt_succ (l : List Nat) (N : Nat) :
    l.countP (fun x => decide (x < N + 1))
      = l.countP (fun x => decide (x < N)) + l.count N := by
  induction l with
  | nil => rfl
  | cons x l ih =>
    rw [List.countP_cons, List.countP_cons, List.count_cons, ih]
    by_cases h1 : x < N
    · have h2 : x < N + 1 := by omega
      have h3 : (x == N) = false := by simp; omega
      simp [h1, h2, h3]
      omega
    · by_cases h2 : x = N
      · subst h2
        simp
        omega
      · have h3 : ¬ x < N + 1 := by omega
        have h4 : (x == N) = false := by simp; omega
        simp [h1, h3, h4]

/-- The counts of the ids below `N` add up to the number of elements below `N`. -/
theorem sum_count_range (l : List Nat) (N : Nat) :
    ((List.range N).map (fun i => l.count i)).sum = l.countP (fun x => decide (x < N)) := by
  induction N with
  | zero => simp
  | succ n ih => rw [sum_range_succ_map, ih, countP_lt_succ]

/-- The partial sums of the bucket counts of a tracked histogram stay within
the number of values. -/
theorem tracked_sum_le (E : Env) (xs : List Nat) (h : Heistogram) (t : Tracked E xs h)
    (N : Nat) : ((List.range N).map (bucket_count h)).sum ≤ xs.length := by
  have : (List.range N).map (bucket_count h)
      = (List.range N).map (fun i => (xs.map (get_bucket_id E)).count i) := by
    apply List.map_congr_left
    intro i _
    exact t.counts i
  rw [this, sum_count_range]
  exact le_trans (List.countP_le_length _) (by simp)

/-- The bucket counts of a tracked histogram add up to the number of values. -/
theorem tracked_bucket_sum (E : Env) (xs : List Nat) (h : Heistogram) (t : Tracked E xs h) :
    bucket_sum h = xs.length := by
  unfold bucket_sum
  have : (List.range h.capacity).map (bucket_count h)
      = (List.range h.capacity).map (fun i => (xs.map (get_bucket_id E)).count i) := by
    apply List.map_congr_left
    intro i _
    exact t.counts i
  rw [this, sum_count_range]
  have hall : ∀ b ∈ xs.map (get_bucket_id E), decide (b < h.capacity) = true := by
    intro b hb
    by_contra hlt
    have hge : ¬ b < h.capacity := by simpa using hlt
    have h0 : bucket_count h b = 0 := by
      unfold bucket_count; rw [if_neg hge]
    rw [t.counts] at h0
    exact absurd hb (List.count_eq_zero.mp h0)
  rw [List.countP_eq_length.mpr hall]
  simp

/-- In every reachable histogram the counter array is as long as the capacity
and the total count is the sum of the bucket counts modulo `2^64`. -/
theorem reach_summed (E : Env) (xs : List Nat) (h : Heistogram) (hr : Reach E xs h) :
    h.buckets.length = h.capacity ∧ h.total_count = bucket_sum h % U64 := by
  induction hr with
  | create => exact ⟨rfl, by decide⟩
  | add xs h h2 v _ _ e ih =>
    obtain ⟨l, s⟩ := ih
    obtain ⟨h3, e3, l3, c3, b3, t3, -, -, g3⟩ := heistogram_add_state E h v l
    rw [e3] at e
    have := Except.ok.inj e
    subst this
    refine ⟨l3, ?_⟩
    have hs : bucket_sum h3 = ((List.range h3.capacity).map
        (fun i => if i = get_bucket_id E v then (bucket_count h i + 1) % U64
          else bucket_count h i)).sum := by
      unfold bucket_sum
      congr 1
      apply List.map_congr_left
      intro i _
      exact g3 i
    rw [hs, sum_update_mod, if_pos b3, sum_range_bucket_count h _ c3, t3, s]
    unfold U64
    omega
  | merge xs ys a b r _ _ e iha ihb =>
    obtain ⟨la, sa⟩ := iha
    obtain ⟨lb, sb⟩ := ihb
    obtain ⟨m, em, c, l, t, -, -, -, g⟩ := heistogram_merge_eq a b
      (by rw [la]) (by rw [lb])
    rw [em] at e
    have := Except.ok.inj e
    subst this
    refine ⟨l, ?_⟩
    have := sum_add_mod (bucket_count m) (bucket_count a) (bucket_count b) m.capacity
      (fun i => by rw [g, Nat.mod_mod])
    unfold bucket_sum
    rw [this, sum_range_bucket_count a _ (by omega), sum_range_bucket_count b _ (by omega),
      t, sa, sb]
    unfold U64
    omega
  | merge_inplace xs ys a b r _ _ e iha ihb =>
    obtain ⟨la, sa⟩ := iha
    obtain ⟨lb, sb⟩ := ihb
    have l := heistogram_merge_inplace_length a b r la (by rw [lb]) e
    obtain ⟨m, em, c, -, t, -, -, -, g⟩ := heistogram_merge_inplace_eq a b
      (by rw [la]) (by rw [lb])
    rw [em] at e
    have := Except.ok.inj e
    subst this
    refine ⟨l, ?_⟩
    have := sum_add_mod (bucket_count m) (bucket_count a) (bucket_count b) m.capacity
      (fun i => by
        rw [g]
        split
        · rw [Nat.mod_mod]
        · rename_i hi
          have hz : bucket_count b i = 0 := by
            unfold bucket_count; rw [if_neg hi]
          rw [hz, Nat.add_zero])
    unfold bucket_sum
    rw [this, sum_range_bucket_count a _ (by omega), sum_range_bucket_count b _ (by omega),
      t, sa, sb]
    unfold U64
    omega

/-! ## Invariants of reachable histograms -/

/-- The histogram `three_values` is reached by two insertions, one insertion
and a merge. -/
theorem reach_three_values : Reach exactEnv ([3, 9] ++ [5]) three_values :=
  Reach.merge [3, 9] [5] ⟨16, 3, 2, 3, 9, [0, 0, 0, 1, 0, 0, 0, 0, 0, 1, 0, 0, 0, 0, 0, 0]⟩
    single_five three_values
    (reach_build exactEnv [3, 9] _ (by decide) (by decide))
    (reach_build exactEnv [5] _ (by decide) (by decide))
    (by decide)

/-- C29 as stated fails at `2^64` insertions of 0 followed by one insertion of
5: the total count is 1, but min is 5, above the inserted value 0. -/
theorem reach_min_above_inserted :
    Reach exactEnv (List.replicate U64 0 ++ [5]) single_five
    ∧ 0 < single_five.total_count
    ∧ 0 ∈ List.replicate U64 0 ++ [5]
    ∧ ¬ (heistogram_min single_five ≤ 0) := by
  refine ⟨?_, by decide, ?_, by decide⟩
  · apply reach_build
    · intro x hx
      rcases List.mem_append.mp hx with h | h
      · rw [(List.mem_replicate.mp h).2]; decide
      · rw [List.mem_singleton.mp h]; decide
    · rw [build_append exactEnv _ _ _ (build_zeros exactEnv U64)]
      decide
  · exact List.mem_append_left _ (List.mem_replicate.mpr ⟨by decide, rfl⟩)

/-- C29, amended: for every histogram reachable from `heistogram_create` by
`heistogram_add`, `heistogram_merge` and `heistogram_merge_inplace` into which
fewer than `2^64` values went in all, if the total count is positive then min
is at most and max is at least every value inserted into it or into a
histogram merged into it, and min is at most max. -/
theorem reach_min_max (E : Env) (xs : List Nat) (h : Heistogram) (hr : Reach E xs h)
    (hlen : xs.length < U64) (ht : 0 < h.total_count) :
    (∀ x ∈ xs, heistogram_min h ≤ x ∧ x ≤ heistogram_max h)
    ∧ heistogram_min h ≤ heistogram_max h := by
  have t := reach_tracked E xs h hr hlen
  refine ⟨fun x hx => ⟨t.min_le x hx, t.max_ge x hx⟩, ?_⟩
  rw [t.total] at ht
  obtain ⟨x, hx⟩ := List.exists_mem_of_length_pos ht
  exact le_trans (t.min_le x hx) (t.max_ge x hx)

/-- C29, amended, at the merge of the histograms built from 3, 9 and from 5. -/
theorem reach_min_max_witness :
    ([3, 9] ++ [5]).length < U64 ∧ 0 < three_values.total_count
    ∧ (∀ x ∈ [3, 9] ++ [5], heistogram_min three_values ≤ x ∧ x ≤ heistogram_max three_values)
    ∧ heistogram_min three_values ≤ heistogram_max three_values :=
  ⟨by decide, by decide,
    reach_min_max exactEnv _ _ reach_three_values (by decide) (by decide)⟩

/-- C30 as stated fails at `2^64 - 1` insertions of 0 followed by one insertion
of 1: the total count has wrapped to 0 while the bucket counts add up to
`2^64`. -/
theorem reach_total_count_wraps :
    Reach exactEnv (List.replicate (U64 - 1) 0 ++ [1]) wrapped_total
    ∧ wrapped_total.total_count = 0
    ∧ bucket_sum wrapped_total = U64
    ∧ wrapped_total.total_count ≠ bucket_sum wrapped_total := by
  refine ⟨?_, rfl, by decide, by decide⟩
  apply reach_build
  · intro x hx
    rcases List.mem_append.mp hx with h | h
    · rw [(List.mem_replicate.mp h).2]; decide
    · rw [List.mem_singleton.mp h]; decide
  · rw [build_append exactEnv _ _ _ (build_zeros exactEnv (U64 - 1))]
    decide

/-- C30, amended: for every histogram reachable from `heistogram_create` by
`heistogram_add`, `heistogram_merge` and `heistogram_merge_inplace`, the total
count equals the sum of the counts of all its buckets modulo `2^64`, and it
equals the sum itself when fewer than `2^64` values went into the histogram
in all. -/
theorem reach_total_count (E : Env) (xs : List Nat) (h : Heistogram) (hr : Reach E xs h) :
    h.total_count = bucket_sum h % U64
    ∧ (xs.length < U64 → h.total_count = bucket_sum h) := by
  refine ⟨(reach_summed E xs h hr).2, fun hlen => ?_⟩
  have t := reach_tracked E xs h hr hlen
  rw [tracked_bucket_sum E xs h t, t.total]

/-- C30, amended, at the merge of the histograms built from 3, 9 and from 5. -/
theorem reach_total_count_witness :
    three_values.total_count = bucket_sum three_values % U64
    ∧ (([3, 9] ++ [5]).length < U64 → three_values.total_count = bucket_sum three_values) :=
  reach_total_count exactEnv _ _ reach_three_values

/-! ## Rounding to the nearest floating-point value -/

theorem halvings_spec (fuel : Nat) : ∀ n, 0 < n → n ≤ fuel →
    2 ^ halvings fuel n ≤ n ∧ n < 2 ^ (halvings fuel n + 1) := by
  induction fuel with
  | zero => intro n h1 h2; omega
  | succ f ih =>
    intro n h1 h2
    unfold halvings
    by_cases hn : n < 2
    · rw [if_pos hn]
      simp
      omega
    · rw [if_neg hn]
      obtain ⟨a, b⟩ := ih (n / 2) (by omega) (by omega)
      rw [pow_succ, pow_succ]
      constructor <;> omega

/-- The integer part of the binary logarithm brackets its argument. -/
theorem floor_log2_spec (n : Nat) (hn : 0 < n) :
    2 ^ floor_log2 n ≤ n ∧ n < 2 ^ (floor_log2 n + 1) :=
  halvings_spec n n hn (le_refl n)

theorem two_zpow_pos (k : Int) : (0 : ℚ) < 2 ^ k := zpow_pos (by norm_num) k

theorem two_zpow_toNat (k : Int) (hk : 0 ≤ k) : ((2 ^ k.toNat : Nat) : ℚ) = 2 ^ k := by
  rw [Nat.cast_pow, Nat.cast_ofNat, ← zpow_natCast, Int.toNat_of_nonneg hk]

/-- The integer part of the binary logarithm of a ratio brackets the ratio. -/
theorem floor_log2_ratio_spec (n d : Nat) (hn : 0 < n) (hd : 0 < d) :
    (2 : ℚ) ^ floor_log2_ratio n d ≤ (n : ℚ) / d
    ∧ (n : ℚ) / d < 2 ^ (floor_log2_ratio n d + 1) := by
  obtain ⟨a1, a2⟩ := floor_log2_spec n hn
  obtain ⟨b1, b2⟩ := floor_log2_spec d hd
  have hdq : (0 : ℚ) < d := by exact_mod_cast hd
  have qa1 : (2 : ℚ) ^ (floor_log2 n : Int) ≤ n := by
    rw [zpow_natCast]; exact_mod_cast a1
  have qa2 : (n : ℚ) < 2 ^ ((floor_log2 n : Int) + 1) := by
    have : ((floor_log2 n : Int) + 1) = ((floor_log2 n + 1 : Nat) : Int) := by push_cast; rfl
    rw [this, zpow_natCast]; exact_mod_cast a2
  have qb1 : (2 : ℚ) ^ (floor_log2 d : Int) ≤ d := by
    rw [zpow_natCast]; exact_mod_cast b1
  have qb2 : (d : ℚ) < 2 ^ ((floor_log2 d : Int) + 1) := by
    have : ((floor_log2 d : Int) + 1) = ((floor_log2 d + 1 : Nat) : Int) := by push_cast; rfl
    rw [this, zpow_natCast]; exact_mod_cast b2
  generalize hl : (floor_log2 n : Int) - (floor_log2 d : Int) = l
  have ha : (floor_log2 n : Int) = l + floor_log2 d := by omega
  rw [ha] at qa1 qa2
  -- the test of the definition, as a statement on rationals
  have htest : (if 0 ≤ l then d * 2 ^ l.toNat ≤ n else d ≤ n * 2 ^ (-l).toNat)
      ↔ (d : ℚ) * 2 ^ l ≤ n := by
    by_cases h0 : 0 ≤ l
    · rw [if_pos h0, ← two_zpow_toNat l h0]
      exact_mod_cast Iff.rfl
    · rw [if_neg h0]
      have h1 : 0 ≤ -l := by omega
      have e : (2 : ℚ) ^ l = (2 ^ (-l))⁻¹ := by rw [zpow_neg, inv_inv]
      rw [e, ← two_zpow_toNat (-l) h1, ← div_eq_mul_inv, div_le_iff₀ (by positivity)]
      exact_mod_cast Iff.rfl
  have hfr : floor_log2_ratio n d
      = if (d : ℚ) * 2 ^ l ≤ n then l else l - 1 := by
    unfold floor_log2_ratio
    simp only [hl]
    by_cases ht : (d : ℚ) * 2 ^ l ≤ n
    · rw [if_pos (htest.mpr ht), if_pos ht]
    · rw [if_neg (fun h => ht (htest.mp h)), if_neg ht]
  rw [hfr]
  have p1 := two_zpow_pos l
  have p2 := two_zpow_pos (floor_log2 d)
  by_cases ht : (d : ℚ) * 2 ^ l ≤ n
  · rw [if_pos ht]
    refine ⟨by rw [le_div_iff₀ hdq]; linarith, ?_⟩
    rw [div_lt_iff₀ hdq]
    have e : (2 : ℚ) ^ (l + ↑(floor_log2 d) + 1) = 2 ^ (l + 1) * 2 ^ (floor_log2 d : Int) := by
      rw [← zpow_add₀ (by norm_num)]; congr 1; ring
    rw [e] at qa2
    have p3 := two_zpow_pos (l + 1)
    calc (n : ℚ) < 2 ^ (l + 1) * 2 ^ (floor_log2 d : Int) := qa2
      _ ≤ 2 ^ (l + 1) * d := by
        apply mul_le_mul_of_nonneg_left qb1 (le_of_lt p3)
  · rw [if_neg ht]
    have ht2 : (n : ℚ) < d * 2 ^ l := lt_of_not_le ht
    refine ⟨?_, ?_⟩
    · rw [le_div_iff₀ hdq]
      have e : (2 : ℚ) ^ (l + ↑(floor_log2 d)) = 2 ^ (l - 1) * 2 ^ ((floor_log2 d : Int) + 1) := by
        rw [← zpow_add₀ (by norm_num)]; congr 1; ring
      rw [e] at qa1
      have p3 := two_zpow_pos (l - 1)
      calc (2 : ℚ) ^ (l - 1) * d ≤ 2 ^ (l - 1) * 2 ^ ((floor_log2 d : Int) + 1) := by
            apply mul_le_mul_of_nonneg_left (le_of_lt qb2) (le_of_lt p3)
        _ ≤ n := qa1
    · rw [div_lt_iff₀ hdq, show l - 1 + 1 = l by ring]
      linarith

theorem round_half_even_nat (n d : Nat) (hd : 0 < d) :
    2 * round_half_even n d * d ≤ 2 * n + d
    ∧ 2 * n ≤ 2 * round_half_even n d * d + d
    ∧ (2 * round_half_even n d * d = 2 * n + d → round_half_even n d % 2 = 0)
    ∧ (2 * n = 2 * round_half_even n d * d + d → round_half_even n d % 2 = 0) := by
  have hsplit := Nat.div_add_mod n d
  have hr := Nat.mod_lt n hd
  unfold round_half_even
  generalize n / d = q at *
  generalize n % d = r at *
  subst hsplit
  by_cases h1 : 2 * r < d
  · rw [if_pos h1]
    refine ⟨by nlinarith, by nlinarith, fun h => ?_, fun h => ?_⟩
    · exfalso; nlinarith
    · exfalso; nlinarith
  · rw [if_neg h1]
    by_cases h2 : d < 2 * r
    · rw [if_pos h2]
      refine ⟨by nlinarith, by nlinarith, fun h => ?_, fun h => ?_⟩
      · exfalso; nlinarith
      · exfalso; nlinarith
    · rw [if_neg h2]
      have h3 : d = 2 * r := by omega
      by_cases h4 : q % 2 = 0
      · rw [if_pos h4]
        refine ⟨by nlinarith, by nlinarith, fun _ => h4, fun _ => h4⟩
      · rw [if_neg h4]
        refine ⟨by nlinarith, by nlinarith, fun _ => by omega, fun _ => by omega⟩

/-- The result of `round_half_even` is a nearest integer, even at a tie. -/
theorem round_half_even_spec (n d : Nat) (hd : 0 < d) :
    (round_half_even n d : ℚ) ≤ (n : ℚ) / d + 1 / 2
    ∧ (n : ℚ) / d ≤ round_half_even n d + 1 / 2
    ∧ ((round_half_even n d : ℚ) = (n : ℚ) / d + 1 / 2 → round_half_even n d % 2 = 0)
    ∧ ((n : ℚ) / d = round_half_even n d + 1 / 2 → round_half_even n d % 2 = 0) := by
  obtain ⟨a, b, c, e⟩ := round_half_even_nat n d hd
  have hdq : (0 : ℚ) < d := by exact_mod_cast hd
  have aq : (2 * round_half_even n d * d : ℚ) ≤ 2 * n + d := by exact_mod_cast a
  have bq : (2 * n : ℚ) ≤ 2 * round_half_even n d * d + d := by exact_mod_cast b
  have hx : (n : ℚ) / d * d = n := div_mul_cancel₀ _ (ne_of_gt hdq)
  generalize (n : ℚ) / d = x at *
  refine ⟨?_, ?_, fun h => c ?_, fun h => e ?_⟩
  · by_contra hc
    have : x + 1 / 2 < round_half_even n d := lt_of_not_le hc
    nlinarith
  · by_contra hc
    have : (round_half_even n d : ℚ) + 1 / 2 < x := lt_of_not_le hc
    nlinarith
  · have : (2 * round_half_even n d * d : ℚ) = 2 * n + d := by rw [h]; nlinarith
    exact_mod_cast this
  · have : (2 * n : ℚ) = 2 * round_half_even n d * d + d := by
      rw [← hx, h]; ring
    exact_mod_cast this

theorem round_half_even_nearest (n d : Nat) (hd : 0 < d) :
    IsNearest (round_half_even n d) ((n : ℚ) / d) :=
  round_half_even_spec n d hd

/-- Nearest integers are monotone in the number they are nearest to. -/
theorem nearest_mono (k1 k2 : Nat) (y1 y2 : ℚ) (h1 : IsNearest k1 y1) (h2 : IsNearest k2 y2)
    (h : y1 ≤ y2) : k1 ≤ k2 := by
  obtain ⟨a1, -, c1, -⟩ := h1
  obtain ⟨-, b2, -, e2⟩ := h2
  by_contra hc
  have hlt : k2 + 1 ≤ k1 := by omega
  have hq : (k2 : ℚ) + 1 ≤ k1 := by exact_mod_cast hlt
  have e1 : (k1 : ℚ) = y1 + 1 / 2 := by linarith
  have e3 : y2 = k2 + 1 / 2 := by linarith
  have p1 := c1 e1
  have p2 := e2 e3
  have e4 : (k1 : ℚ) = k2 + 1 := by linarith
  have e5 : k1 = k2 + 1 := by exact_mod_cast e4
  omega

theorem round_scaled_nearest (n d : Nat) (t : Int) (hd : 0 < d) :
    IsNearest (round_scaled n d t) ((n : ℚ) / d * 2 ^ (-t)) := by
  have hdq : (0 : ℚ) < d := by exact_mod_cast hd
  unfold round_scaled
  by_cases h0 : 0 ≤ t
  · rw [if_pos h0]
    have := round_half_even_nearest n (d * 2 ^ t.toNat) (by positivity)
    have e : ((n : ℚ) / ((d * 2 ^ t.toNat : Nat) : ℚ)) = (n : ℚ) / d * 2 ^ (-t) := by
      rw [Nat.cast_mul, two_zpow_toNat t h0, zpow_neg, div_mul_eq_div_div, div_eq_mul_inv _ ((2:ℚ) ^ t)]
    rwa [e] at this
  · rw [if_neg h0]
    have := round_half_even_nearest (n * 2 ^ (-t).toNat) d hd
    have e : (((n * 2 ^ (-t).toNat : Nat) : ℚ) / d) = (n : ℚ) / d * 2 ^ (-t) := by
      rw [Nat.cast_mul, two_zpow_toNat (-t) (by omega)]
      ring
    rwa [e] at this

theorem nearest_bounds (k : Nat) (y : ℚ) (a b : Nat) (h : IsNearest k y) (ha : (a : ℚ) ≤ y)
    (hb : y < b) : a ≤ k ∧ k ≤ b := by
  obtain ⟨h1, h2, -, -⟩ := h
  constructor
  · by_contra hc
    have : k + 1 ≤ a := by omega
    have : (k : ℚ) + 1 ≤ a := by exact_mod_cast this
    linarith
  · by_contra hc
    have : b + 1 ≤ k := by omega
    have : (b : ℚ) + 1 ≤ k := by exact_mod_cast this
    linarith

/-- The value of a rounded positive ratio: the nearest 24-bit mantissa at the
exponent of the ratio. -/
theorem flt_round_val (n d : Nat) (e : Int) (hn : 0 < n) (hd : 0 < d) :
    Flt.val (Flt.round n d e)
      = (round_scaled n d (floor_log2_ratio n d - 23) : ℚ) * 2 ^ (e + (floor_log2_ratio n d - 23))
    ∧ 2 ^ 23 ≤ round_scaled n d (floor_log2_ratio n d - 23)
    ∧ round_scaled n d (floor_log2_ratio n d - 23) ≤ 2 ^ 24 := by
  obtain ⟨s1, s2⟩ := floor_log2_ratio_spec n d hn hd
  have hk := round_scaled_nearest n d (floor_log2_ratio n d - 23) hd
  generalize hR : floor_log2_ratio n d = R at *
  have p := two_zpow_pos (-(R - 23))
  have y1 : ((2 ^ 23 : Nat) : ℚ) ≤ (n : ℚ) / d * 2 ^ (-(R - 23)) := by
    have e1 : ((2 ^ 23 : Nat) : ℚ) = 2 ^ R * 2 ^ (-(R - 23)) := by
      rw [← zpow_add₀ (by norm_num)]
      have : R + -(R - 23) = 23 := by ring
      rw [this]; norm_num
    rw [e1]
    exact mul_le_mul_of_nonneg_right s1 (le_of_lt p)
  have y2 : (n : ℚ) / d * 2 ^ (-(R - 23)) < ((2 ^ 24 : Nat) : ℚ) := by
    have e1 : ((2 ^ 24 : Nat) : ℚ) = 2 ^ (R + 1) * 2 ^ (-(R - 23)) := by
      rw [← zpow_add₀ (by norm_num)]
      have : R + 1 + -(R - 23) = 24 := by ring
      rw [this]; norm_num
    rw [e1]
    exact mul_lt_mul_of_pos_right s2 p
  obtain ⟨b1, b2⟩ := nearest_bounds _ _ _ _ hk y1 y2
  refine ⟨?_, b1, b2⟩
  unfold Flt.round
  rw [if_neg (by omega)]
  simp only [hR]
  by_cases hm : round_scaled n d (R - 23) = 2 ^ 24
  · rw [if_pos hm, hm]
    unfold Flt.val
    dsimp only
    rw [show e + (R - 23) + 1 = (e + (R - 23)) + 1 by ring, zpow_add_one₀ (by norm_num)]
    push_cast
    ring
  · rw [if_neg hm]
    rfl

theorem flt_round_val_nonneg (n d : Nat) (e : Int) : 0 ≤ Flt.val (Flt.round n d e) := by
  unfold Flt.val
  have := two_zpow_pos (Flt.round n d e).exp
  positivity

/-- Rounding to `float` is monotone. -/
theorem flt_round_mono (n1 d1 n2 d2 : Nat) (e1 e2 : Int) (h1 : 0 < d1) (h2 : 0 < d2)
    (h : (n1 : ℚ) / d1 * 2 ^ e1 ≤ (n2 : ℚ) / d2 * 2 ^ e2) :
    Flt.val (Flt.round n1 d1 e1) ≤ Flt.val (Flt.round n2 d2 e2) := by
  have hd1 : (0 : ℚ) < d1 := by exact_mod_cast h1
  have hd2 : (0 : ℚ) < d2 := by exact_mod_cast h2
  by_cases z1 : n1 = 0
  · have : Flt.round n1 d1 e1 = ⟨0, 0⟩ := by unfold Flt.round; rw [if_pos (Or.inl z1)]
    rw [this]
    have := flt_round_val_nonneg n2 d2 e2
    simpa [Flt.val] using this
  have hn1 : 0 < n1 := Nat.pos_of_ne_zero z1
  have hn1q : (0 : ℚ) < n1 := by exact_mod_cast hn1
  have hn2 : 0 < n2 := by
    by_contra hc
    have : n2 = 0 := by omega
    rw [this] at h
    have p := two_zpow_pos e1
    have : (0 : ℚ) < (n1 : ℚ) / d1 * 2 ^ e1 := by positivity
    simp at h
    linarith
  obtain ⟨v1, -, u1⟩ := flt_round_val n1 d1 e1 hn1 h1
  obtain ⟨v2, l2, -⟩ := flt_round_val n2 d2 e2 hn2 h2
  obtain ⟨a1, a2⟩ := floor_log2_ratio_spec n1 d1 hn1 h1
  obtain ⟨b1, b2⟩ := floor_log2_ratio_spec n2 d2 hn2 h2
  have k1 := round_scaled_nearest n1 d1 (floor_log2_ratio n1 d1 - 23) h1
  have k2 := round_scaled_nearest n2 d2 (floor_log2_ratio n2 d2 - 23) h2
  rw [v1, v2]
  generalize floor_log2_ratio n1 d1 = R1 at *
  generalize floor_log2_ratio n2 d2 = R2 at *
  generalize round_scaled n1 d1 (R1 - 23) = m1 at *
  generalize round_scaled n2 d2 (R2 - 23) = m2 at *
  generalize (n1 : ℚ) / d1 = x1 at *
  generalize (n2 : ℚ) / d2 = x2 at *
  have pe1 := two_zpow_pos e1
  have pe2 := two_zpow_pos e2
  -- the exponents of the two scaled ratios
  have c1 : (2 : ℚ) ^ (R1 + e1) ≤ x1 * 2 ^ e1 := by
    rw [zpow_add₀ (by norm_num)]
    exact mul_le_mul_of_nonneg_right a1 (le_of_lt pe1)
  have c2 : x2 * 2 ^ e2 < 2 ^ (R2 + e2 + 1) := by
    rw [show R2 + e2 + 1 = (R2 + 1) + e2 by ring, zpow_add₀ (by norm_num)]
    exact mul_lt_mul_of_pos_right b2 pe2
  have hS : R1 + e1 < R2 + e2 + 1 := by
    have : (2 : ℚ) ^ (R1 + e1) < 2 ^ (R2 + e2 + 1) := by linarith
    exact (zpow_lt_zpow_iff_right₀ (by norm_num)).mp this
  have u1q : (m1 : ℚ) ≤ 2 ^ 24 := by exact_mod_cast u1
  have l2q : (2 : ℚ) ^ 23 ≤ m2 := by exact_mod_cast l2
  by_cases hS2 : R1 + e1 = R2 + e2
  · have hexp : e2 + (R2 - 23) = e1 + (R1 - 23) := by omega
    rw [hexp]
    have p := two_zpow_pos (e1 + (R1 - 23))
    apply mul_le_mul_of_nonneg_right _ (le_of_lt p)
    have hm : m1 ≤ m2 := by
      apply nearest_mono m1 m2 _ _ k1 k2
      have f1 : x1 * 2 ^ (-(R1 - 23)) = (x1 * 2 ^ e1) * 2 ^ (-(e1 + (R1 - 23))) := by
        rw [mul_assoc, ← zpow_add₀ (by norm_num)]; congr 2; ring
      have f2 : x2 * 2 ^ (-(R2 - 23)) = (x2 * 2 ^ e2) * 2 ^ (-(e1 + (R1 - 23))) := by
        rw [mul_assoc, ← zpow_add₀ (by norm_num)]; congr 2; omega
      rw [f1, f2]
      exact mul_le_mul_of_nonneg_right h (le_of_lt (two_zpow_pos _))
    exact_mod_cast hm
  · have hlt : R1 + e1 + 1 ≤ R2 + e2 := by omega
    have p1 := two_zpow_pos (e1 + (R1 - 23))
    have p2 := two_zpow_pos (e2 + (R2 - 23))
    calc (m1 : ℚ) * 2 ^ (e1 + (R1 - 23)) ≤ 2 ^ 24 * 2 ^ (e1 + (R1 - 23)) :=
          mul_le_mul_of_nonneg_right u1q (le_of_lt p1)
      _ = 2 ^ (R1 + e1 + 1) := by
          rw [show (2 : ℚ) ^ 24 = 2 ^ (24 : Int) by norm_num, ← zpow_add₀ (by norm_num)]
          congr 1; ring
      _ ≤ 2 ^ (R2 + e2) := zpow_le_zpow_right₀ (by norm_num) hlt
      _ = 2 ^ 23 * 2 ^ (e2 + (R2 - 23)) := by
          rw [show (2 : ℚ) ^ 23 = 2 ^ (23 : Int) by norm_num, ← zpow_add₀ (by norm_num)]
          congr 1; ring
      _ ≤ (m2 : ℚ) * 2 ^ (e2 + (R2 - 23)) :=
          mul_le_mul_of_nonneg_right l2q (le_of_lt p2)

/-- Truncation returns the integer part of the value. -/
theorem flt_trunc_spec (a : Flt) :
    (Flt.trunc a : ℚ) ≤ Flt.val a ∧ Flt.val a < Flt.trunc a + 1 := by
  unfold Flt.trunc Flt.val
  by_cases h : 0 ≤ a.exp
  · rw [if_pos h]
    have : ((a.mant * 2 ^ a.exp.toNat : Nat) : ℚ) = (a.mant : ℚ) * 2 ^ a.exp := by
      rw [Nat.cast_mul, two_zpow_toNat a.exp h]
    rw [this]
    constructor <;> linarith
  · rw [if_neg h]
    have hp : (0 : ℚ) < ((2 ^ (-a.exp).toNat : Nat) : ℚ) := by positivity
    have e : (a.mant : ℚ) * 2 ^ a.exp = (a.mant : ℚ) / ((2 ^ (-a.exp).toNat : Nat) : ℚ) := by
      rw [two_zpow_toNat (-a.exp) (by omega), zpow_neg, div_eq_mul_inv, inv_inv]
    rw [e]
    have hs := Nat.div_add_mod a.mant (2 ^ (-a.exp).toNat)
    have hr := Nat.mod_lt a.mant (show 0 < 2 ^ (-a.exp).toNat by positivity)
    generalize 2 ^ (-a.exp).toNat = P at *
    generalize a.mant / P = q at *
    generalize a.mant % P = r at *
    have hm : (a.mant : ℚ) = P * q + r := by exact_mod_cast hs.symm
    have hrq : (r : ℚ) < P := by exact_mod_cast hr
    have hr0 : (0 : ℚ) ≤ r := by positivity
    rw [hm]
    constructor
    · rw [le_div_iff₀ hp]; nlinarith
    · rw [div_lt_iff₀ hp]; nlinarith

theorem flt_trunc_mono (a b : Flt) (h : Flt.val a ≤ Flt.val b) : Flt.trunc a ≤ Flt.trunc b := by
  obtain ⟨a1, -⟩ := flt_trunc_spec a
  obtain ⟨-, b2⟩ := flt_trunc_spec b
  have : (Flt.trunc a : ℚ) < Flt.trunc b + 1 := by linarith
  have : Flt.trunc a < Flt.trunc b + 1 := by exact_mod_cast this
  omega

theorem flt_mul_mono (a b k : Flt) (h : Flt.val a ≤ Flt.val b) :
    Flt.val (Flt.mul a k) ≤ Flt.val (Flt.mul b k) := by
  unfold Flt.mul
  apply flt_round_mono _ _ _ _ _ _ (by decide) (by decide)
  have hk : (0 : ℚ) ≤ Flt.val k := by
    unfold Flt.val
    have := two_zpow_pos k.exp
    positivity
  have e : ∀ x : Flt, ((x.mant * k.mant : Nat) : ℚ) / ((1 : Nat) : ℚ) * 2 ^ (x.exp + k.exp)
      = Flt.val x * Flt.val k := by
    intro x
    unfold Flt.val
    rw [zpow_add₀ (by norm_num)]
    push_cast
    ring
  rw [e a, e b]
  exact mul_le_mul_of_nonneg_right h hk

theorem flt_ofDbl_mono (a b : Dbl) (ha : a.neg = false) (hb : b.neg = false)
    (h : Dbl.val a ≤ Dbl.val b) : Flt.val (Flt.ofDbl a) ≤ Flt.val (Flt.ofDbl b) := by
  unfold Flt.ofDbl
  apply flt_round_mono _ _ _ _ _ _ (by decide) (by decide)
  unfold Dbl.val at h
  rw [ha, hb] at h
  simpa using h

/-- The scaled logarithm term is monotone in the value `log2` returned. -/
theorem log_scaled_float_mono (a b : Dbl) (ha : a.neg = false) (hb : b.neg = false)
    (h : Dbl.val a ≤ Dbl.val b) : log_scaled_float a ≤ log_scaled_float b := by
  unfold log_scaled_float
  exact flt_trunc_mono _ _ (flt_mul_mono _ _ _ (flt_ofDbl_mono a b ha hb h))

/-! ## The bucket mapper in floating-point arithmetic -/

theorem pow_ratio_lt (v k : Nat) (h : v * 50 ^ k < 51 ^ k) (j : Nat) (hj : k ≤ j) :
    v * 50 ^ j < 51 ^ j := by
  induction j, hj using Nat.le_induction with
  | base => exact h
  | succ n _ ih =>
    rw [pow_succ, pow_succ]
    have : 0 < 51 ^ n := by positivity
    nlinarith

/-- The downward search of the exact environment stops at the exponent `k`
with `1.02^k ≤ v < 1.02^(k+1)`. -/
theorem log_search_eq (v k : Nat) (h1 : 51 ^ k ≤ v * 50 ^ k)
    (h2 : v * 50 ^ (k + 1) < 51 ^ (k + 1)) (n : Nat) (hn : k ≤ n) : log_search v n = k := by
  induction n, hn using Nat.le_induction with
  | base =>
    cases k with
    | zero => rfl
    | succ k => unfold log_search; rw [if_pos h1]
  | succ n hkn ih =>
    unfold log_search
    have := pow_ratio_lt v (k + 1) h2 (n + 1) (by omega)
    rw [if_neg (by omega)]
    exact ih

theorem exactEnv_log_scaled_58 : exactEnv.log_scaled 58 = 205 := by
  show Nat.max 205 (Nat.min 2240 (log_search 58 2240)) = 205
  rw [log_search_eq 58 205 (by norm_num) (by norm_num) 2240 (by norm_num)]
  rfl

theorem floor_log2_unique (n k : Nat) (h1 : 2 ^ k ≤ n) (h2 : n < 2 ^ (k + 1)) :
    floor_log2 n = k := by
  have hn : 0 < n := lt_of_lt_of_le (by positivity) h1
  obtain ⟨a, b⟩ := floor_log2_spec n hn
  have c1 : floor_log2 n < k + 1 :=
    (Nat.pow_lt_pow_iff_right (by decide : 1 < 2)).mp (lt_of_le_of_lt a h2)
  have c2 : k < floor_log2 n + 1 :=
    (Nat.pow_lt_pow_iff_right (by decide : 1 < 2)).mp (lt_of_le_of_lt h1 b)
  omega

theorem floor_log2_mono (a b : Nat) (ha : 0 < a) (hab : a ≤ b) :
    floor_log2 a ≤ floor_log2 b := by
  obtain ⟨a1, -⟩ := floor_log2_spec a ha
  obtain ⟨-, b2⟩ := floor_log2_spec b (by omega)
  have : floor_log2 a < floor_log2 b + 1 :=
    (Nat.pow_lt_pow_iff_right (by decide : 1 < 2)).mp (by omega)
  omega

theorem floor_log2_pow_lt (v m : Nat) (hv : 0 < v) (hv2 : v < U64) (hm : 0 < m) :
    floor_log2 (v ^ m) < 64 * m := by
  obtain ⟨a, -⟩ := floor_log2_spec (v ^ m) (pow_pos hv m)
  have h1 : v ^ m < (2 ^ 64) ^ m :=
    Nat.pow_lt_pow_left (by unfold U64 at hv2; omega) (by omega)
  rw [← pow_mul] at h1
  exact (Nat.pow_lt_pow_iff_right (by decide : 1 < 2)).mp (lt_of_le_of_lt a h1)

theorem floor_log2_pow_mono (a b m : Nat) (ha : 0 < a) (hab : a ≤ b) :
    floor_log2 (a ^ m) ≤ floor_log2 (b ^ m) :=
  floor_log2_mono _ _ (pow_pos ha m) (Nat.pow_le_pow_left hab m)

theorem floor_log2_pow_pos (v m : Nat) (hv : 2 ≤ v) (hm : 0 < m) : 0 < floor_log2 (v ^ m) := by
  have h1 : floor_log2 (2 ^ m) ≤ floor_log2 (v ^ m) :=
    floor_log2_mono _ _ (pow_pos (by decide) m) (Nat.pow_le_pow_left hv m)
  rw [floor_log2_unique (2 ^ m) m (le_refl _)
    (Nat.pow_lt_pow_right (by decide) (by omega))] at h1
  omega

/-- The value of the stand-in for `log2`. -/
theorem log2_fine_val (v : Nat) (hv : 2 ≤ v) (hv2 : v < U64) :
    Dbl.val (log2_fine v) = (floor_log2 (v ^ 1024) : ℚ) / 1024 := by
  have hk := floor_log2_pow_lt v 1024 (by omega) hv2 (by decide)
  have hk0 := floor_log2_pow_pos v 1024 hv (by decide)
  unfold log2_fine Dbl.val
  simp only [Bool.false_eq_true, if_false]
  generalize floor_log2 (v ^ 1024) = k at *
  have ha : floor_log2 k ≤ 16 := by
    obtain ⟨a, -⟩ := floor_log2_spec k hk0
    have : floor_log2 k < 16 :=
      (Nat.pow_lt_pow_iff_right (by decide : 1 < 2)).mp (lt_of_le_of_lt a (by norm_num; omega))
    omega
  generalize floor_log2 k = a at *
  have e1 : ((k * 2 ^ (52 - a) : Nat) : ℚ) = (k : ℚ) * 2 ^ ((52 : Int) - a) := by
    rw [Nat.cast_mul, Nat.cast_pow, Nat.cast_ofNat, ← zpow_natCast]
    congr 2
    omega
  rw [e1, mul_assoc, ← zpow_add₀ (by norm_num)]
  have : ((52 : Int) - a + (a - 62)) = -10 := by ring
  rw [this]
  norm_num
  ring

theorem log2_fine_mono (a b : Nat) (ha : 2 ≤ a) (hab : a ≤ b) (hb : b < U64) :
    Dbl.val (log2_fine a) ≤ Dbl.val (log2_fine b) := by
  rw [log2_fine_val a ha (by omega), log2_fine_val b (by omega) hb]
  have h := floor_log2_pow_mono a b 1024 (by omega) hab
  generalize floor_log2 (a ^ 1024) = ka at *
  generalize floor_log2 (b ^ 1024) = kb at *
  have : (ka : ℚ) ≤ kb := by exact_mod_cast h
  linarith

set_option maxRecDepth 100000 in
/-- Between 58 and `2^64` the scaled logarithm of the stand-in for `log2` lies
in the range every environment has. -/
theorem log_scaled_float_fine_range (v : Nat) (hv : 57 < v) (hv2 : v < U64) :
    205 ≤ log_scaled_float (log2_fine v) ∧ log_scaled_float (log2_fine v) ≤ 2240 := by
  have e58 : floor_log2 (58 ^ 1024) = 5998 :=
    floor_log2_unique _ _ (by norm_num) (by norm_num)
  have v58 : Dbl.val ⟨false, 5998 * 2 ^ 40, -50⟩ = (5998 : ℚ) / 1024 := by
    unfold Dbl.val; norm_num
  have v64 : Dbl.val ⟨false, 2 ^ 52, -46⟩ = 64 := by
    unfold Dbl.val; norm_num
  have s1 : log_scaled_float ⟨false, 5998 * 2 ^ 40, -50⟩ = 205 := by decide
  have s2 : log_scaled_float ⟨false, 2 ^ 52, -46⟩ = 2240 := by decide
  have hval := log2_fine_val v (by omega) hv2
  have hk := floor_log2_pow_lt v 1024 (by omega) hv2 (by decide)
  have hk2 : 5998 ≤ floor_log2 (v ^ 1024) :=
    e58 ▸ floor_log2_pow_mono 58 v 1024 (by decide) (by omega)
  generalize floor_log2 (v ^ 1024) = k at *
  have q1 : (5998 : ℚ) ≤ k := by exact_mod_cast hk2
  have q2 : (k : ℚ) ≤ 65536 := by exact_mod_cast (le_of_lt hk)
  have m1 := log_scaled_float_mono ⟨false, 5998 * 2 ^ 40, -50⟩ (log2_fine v) rfl rfl
    (by rw [v58, hval]; linarith)
  have m2 := log_scaled_float_mono (log2_fine v) ⟨false, 2 ^ 52, -46⟩ rfl rfl
    (by rw [v64, hval]; linarith)
  rw [s1] at m1
  rw [s2] at m2
  exact ⟨m1, m2⟩

theorem floatEnv_log_scaled (v : Nat) (hv : 57 < v) (hv2 : v < U64) :
    floatEnv.log_scaled v = log_scaled_float (log2_fine v) := by
  obtain ⟨a, b⟩ := log_scaled_float_fine_range v hv hv2
  show Nat.max 205 (Nat.min 2240 (log_scaled_float (log2_fine v))) = _
  simp only [Nat.max_def, Nat.min_def]
  split_ifs <;> omega

theorem get_bucket_id_small (E : Env) (v : Nat) (hv : v ≤ 57) : get_bucket_id E v = v := by
  unfold get_bucket_id HEIST_MAX_UNMAPPED_BUCKET
  rw [if_pos hv]

/-- C26: for all unsigned 64-bit values `v1 ≤ v2`, `get_bucket_id(v1)` is at
most `get_bucket_id(v2)`, also across the boundary between the identity region
and the logarithmic region, when the scaled logarithm term is computed in
`float` arithmetic from a library function `log2` that returns non-negative
values and is monotone on the integers from 58 on. -/
theorem get_bucket_id_monotone (E : Env) (log2 : Nat → Dbl)
    (hE : ∀ v, 57 < v → v < U64 → E.log_scaled v = log_scaled_float (log2 v))
    (hneg : ∀ v, 57 < v → v < U64 → (log2 v).neg = false)
    (hmono : ∀ a b, 57 < a → a ≤ b → b < U64 → Dbl.val (log2 a) ≤ Dbl.val (log2 b))
    (v1 v2 : Nat) (h12 : v1 ≤ v2) (h2 : v2 < U64) :
    get_bucket_id E v1 ≤ get_bucket_id E v2 := by
  by_cases hb : v2 ≤ 57
  · rw [get_bucket_id_small E v1 (by omega), get_bucket_id_small E v2 hb]
    exact h12
  · have g2 := get_bucket_id_ge E v2 (by omega)
    by_cases ha : v1 ≤ 57
    · rw [get_bucket_id_small E v1 ha]
      omega
    · unfold get_bucket_id HEIST_MAX_UNMAPPED_BUCKET HEIST_BUCKET_MAPPING_DELTA
      rw [if_neg ha, if_neg hb, hE v1 (by omega) (by omega), hE v2 (by omega) h2]
      have := log_scaled_float_mono (log2 v1) (log2 v2) (hneg v1 (by omega) (by omega))
        (hneg v2 (by omega) h2) (hmono v1 v2 (by omega) h12 h2)
      omega

/-- C26 at the values 58 and `2^48`, for the environment computed in `float`
arithmetic from the stand-in for `log2`. -/
theorem get_bucket_id_monotone_witness :
    58 ≤ two_pow_48 ∧ two_pow_48 < U64
    ∧ get_bucket_id floatEnv 58 ≤ get_bucket_id floatEnv two_pow_48 :=
  ⟨by decide, by decide,
    get_bucket_id_monotone floatEnv log2_fine floatEnv_log_scaled (fun _ _ _ => rfl)
      (fun a b ha hab hb => log2_fine_mono a b (by omega) hab hb) 58 two_pow_48 (by decide)
      (by decide)⟩

set_option maxRecDepth 100000 in
/-- C27: `get_bucket_id(57) = 57` and `get_bucket_id(58) = 58`, the scaled
logarithm term being computed in `float` arithmetic from the `double` `l` that
`log2(58)` returns, for every `l` between `5998/1024` and `5999/1024`.  The
first conjunct says that the real number `log2(58)` lies between these
bounds; the term evaluates to 205 and `205 - 147 = 58`. -/
theorem first_log_bucket (E : Env) (l : Dbl) (hE : E.log_scaled 58 = log_scaled_float l)
    (hneg : l.neg = false) (hlo : (5998 : ℚ) / 1024 ≤ Dbl.val l)
    (hhi : Dbl.val l ≤ (5999 : ℚ) / 1024) :
    (2 ^ 5998 ≤ 58 ^ 1024 ∧ 58 ^ 1024 ≤ 2 ^ 5999)
    ∧ log_scaled_float l = 205
    ∧ get_bucket_id E 57 = 57
    ∧ get_bucket_id E 58 = 58 := by
  have v1 : Dbl.val ⟨false, 5998 * 2 ^ 40, -50⟩ = (5998 : ℚ) / 1024 := by
    unfold Dbl.val; norm_num
  have v2 : Dbl.val ⟨false, 5999 * 2 ^ 40, -50⟩ = (5999 : ℚ) / 1024 := by
    unfold Dbl.val; norm_num
  have s1 : log_scaled_float ⟨false, 5998 * 2 ^ 40, -50⟩ = 205 := by decide
  have s2 : log_scaled_float ⟨false, 5999 * 2 ^ 40, -50⟩ = 205 := by decide
  have m1 := log_scaled_float_mono ⟨false, 5998 * 2 ^ 40, -50⟩ l rfl hneg (by rw [v1]; exact hlo)
  have m2 := log_scaled_float_mono l ⟨false, 5999 * 2 ^ 40, -50⟩ hneg rfl (by rw [v2]; exact hhi)
  rw [s1] at m1
  rw [s2] at m2
  have hl : log_scaled_float l = 205 := by omega
  refine ⟨by norm_num, hl, rfl, ?_⟩
  unfold get_bucket_id HEIST_MAX_UNMAPPED_BUCKET HEIST_BUCKET_MAPPING_DELTA
  rw [if_neg (by decide), hE, hl]

set_option maxRecDepth 100000 in
/-- C27 at the `double` nearest to `log2(58)` and the exact environment. -/
theorem first_log_bucket_witness :
    (2 ^ 5998 ≤ 58 ^ 1024 ∧ 58 ^ 1024 ≤ 2 ^ 5999)
    ∧ log_scaled_float log2_58 = 205
    ∧ get_bucket_id exactEnv 57 = 57
    ∧ get_bucket_id exactEnv 58 = 58 :=
  first_log_bucket exactEnv log2_58 (by rw [exactEnv_log_scaled_58]; decide) rfl
    (by unfold Dbl.val log2_58; norm_num) (by unfold Dbl.val log2_58; norm_num)

/-! ## Ranks of built histograms -/

/-- The summing loop of `heistogram_prank` on a tracked histogram: no wrap. -/
theorem prank_sum_tracked (E : Env) (xs : List Nat) (h : Heistogram) (t : Tracked E xs h)
    (hlen : xs.length < U64) (n : Nat) (hn : n ≤ h.capacity) :
    prank_sum h.buckets n = .ok ((List.range n).map (bucket_count h)).sum := by
  induction n with
  | zero => rfl
  | succ n ih =>
    unfold prank_sum
    rw [ih (by omega), read_bucket_eq _ _ (by rw [t.length_eq]; omega)]
    dsimp only
    rw [sum_range_succ_map, bucket_count_eq_getD h t.length_eq]
    have := tracked_sum_le E xs h t (n + 1)
    rw [sum_range_succ_map, bucket_count_eq_getD h t.length_eq] at this
    rw [Nat.mod_eq_of_lt (by omega)]

theorem get_bucket_max_lt_U64 (E : Env) (m : Nat) : get_bucket_max E m < U64 := by
  unfold get_bucket_max
  split
  · exact lt_of_lt_of_le (Nat.mod_lt _ (by decide)) (by decide)
  · exact Nat.mod_lt _ (by decide)

theorem get_bucket_min_lt_U64 (E : Env) (b : Nat) (hb : b ≤ 2093) : get_bucket_min E b < U64 := by
  unfold get_bucket_min HEIST_MAX_UNMAPPED_BUCKET
  split
  · unfold U64; omega
  · exact E.pow_ceil_lt _

/-- Every histogram built from fewer than `2^64` values is tracked. -/
theorem build_tracked (E : Env) (xs : List Nat) (h : Heistogram) (hlen : xs.length < U64)
    (e : build E xs = .ok h) : Tracked E xs h ∧ (xs ≠ [] → h.max ∈ xs) := by
  obtain ⟨h2, e2, b⟩ := build_built E xs hlen
  rw [e] at e2
  have := Except.ok.inj e2
  subst this
  exact ⟨⟨b.length_eq, b.total, bucket_count_built E xs h b, b.min_le, b.max_ge⟩, b.max_mem⟩

/-- C24, amended: for every histogram `h` built from a non-empty sequence of
fewer than `2^64` values and every integer value `v` that the comparisons of
`heistogram_prank` place at or above 0 and below the max, whose bucket id is
not above the bucket id of the max and whose bucket has a lower bound `lo`
not above its upper bound `hi`, `heistogram_prank` returns
`100 * (B + pos * c) / total_count` with `B` the sum of the counts of the
buckets below the bucket of `v`, `c` the count of that bucket and `pos` equal
to `(v - lo) / (hi - lo)`, or `0.5` when `hi = lo`. -/
theorem prank_built {D : Type} (R : RankOps D) (E : Env) (xs : List Nat) (h : Heistogram)
    (v : Nat) (hb : build E xs = .ok h) (hne : xs ≠ []) (hlen : xs.length < U64)
    (h0 : R.lt (R.of_u64 v) (R.of_u64 0) = false)
    (hmax : R.ge (R.of_u64 v) (R.of_u64 (heistogram_max h)) = false)
    (hbid : get_bucket_id E v ≤ get_bucket_id E (heistogram_max h))
    (hlo : get_bucket_min E (get_bucket_id E v)
      ≤ get_bucket_max E (get_bucket_min E (get_bucket_id E v))) :
    heistogram_prank R E h v = .ok (prank_formula R E h v) := by
  obtain ⟨t, hm⟩ := build_tracked E xs h hlen hb
  have hcap : get_bucket_id E (heistogram_max h) < h.capacity := by
    by_contra hc
    have hc2 : ¬ get_bucket_id E h.max < h.capacity := hc
    have h0 : bucket_count h (get_bucket_id E h.max) = 0 := by
      unfold bucket_count; rw [if_neg hc2]
    rw [t.counts] at h0
    exact absurd (List.mem_map.mpr ⟨h.max, hm hne, rfl⟩) (List.count_eq_zero.mp h0)
  have hlt : get_bucket_id E v < h.capacity := by omega
  have hlo2 := get_bucket_min_lt_U64 E (get_bucket_id E v) (get_bucket_id_le E v)
  have hhi2 := get_bucket_max_lt_U64 E (get_bucket_min E (get_bucket_id E v))
  have hdiff : (get_bucket_max E (get_bucket_min E (get_bucket_id E v))
        + (U64 - get_bucket_min E (get_bucket_id E v) % U64)) % U64
      = get_bucket_max E (get_bucket_min E (get_bucket_id E v))
        - get_bucket_min E (get_bucket_id E v) := by
    unfold U64 at *; omega
  unfold heistogram_prank
  have hmax2 : R.ge (R.of_u64 v) (R.of_u64 h.max) = false := hmax
  rw [h0, hmax2]
  simp only [Bool.false_eq_true, if_false]
  rw [if_neg (by omega), prank_sum_tracked E xs h t hlen _ (by omega),
    read_bucket_eq _ _ (by rw [t.length_eq]; exact hlt)]
  dsimp only
  rw [← bucket_count_eq_getD h t.length_eq]
  unfold prank_formula prank_pos
  simp only [hdiff]

set_option maxRecDepth 100000 in
/-- C24, amended, at the histogram built from 3, 9 and 5 and the value 7, in
binary64 arithmetic. -/
theorem prank_built_witness :
    heistogram_prank ieeeRank exactEnv three_values 7
      = .ok (prank_formula ieeeRank exactEnv three_values 7) :=
  prank_built ieeeRank exactEnv [3, 9, 5] three_values 7 (by decide) (by decide) (by decide)
    (by decide) (by decide) (by decide) (by decide)

/-- The insertions of `2^63` zeros, `2^63` ones, a 2 and a 3. -/
theorem build_halves_two_three :
    build exactEnv
        (List.replicate (2 ^ 63) 0 ++ [1] ++ (List.replicate (2 ^ 63 - 1) 1 ++ [2, 3]))
      = .ok halves_two_three := by
  have e1 : build exactEnv (List.replicate (2 ^ 63) 0 ++ [1])
      = .ok ⟨16, 0, 2 ^ 63 + 1, 0, 1, [2 ^ 63, 1, 0, 0, 0, 0, 0, 0, 0, 0, 0, 0, 0, 0, 0, 0]⟩ := by
    rw [build_append exactEnv _ _ _ (build_zeros exactEnv (2 ^ 63))]
    decide
  rw [build_append exactEnv _ _ _ e1, List.foldlM_append]
  have h0 : bump ⟨16, 0, 2 ^ 63 + 1, 0, 1, [2 ^ 63, 1, 0, 0, 0, 0, 0, 0, 0, 0, 0, 0, 0, 0, 0, 0]⟩
      1 0 = ⟨16, 0, 2 ^ 63 + 1, 0, 1, [2 ^ 63, 1, 0, 0, 0, 0, 0, 0, 0, 0, 0, 0, 0, 0, 0, 0]⟩ := by
    decide
  have := foldlM_add_bump exactEnv
    ⟨16, 0, 2 ^ 63 + 1, 0, 1, [2 ^ 63, 1, 0, 0, 0, 0, 0, 0, 0, 0, 0, 0, 0, 0, 0, 0]⟩ 1
    rfl rfl (by decide) (by decide) (by decide) (by decide)
    (2 ^ 63 - 1) 0 (fun j _ hj => by
      show (2 ^ 63 + 1 + j) % U64 ≠ 0
      unfold U64 at *; omega)
  rw [h0] at this
  rw [this]
  have hb : bump ⟨16, 0, 2 ^ 63 + 1, 0, 1, [2 ^ 63, 1, 0, 0, 0, 0, 0, 0, 0, 0, 0, 0, 0, 0, 0, 0]⟩
      1 (0 + (2 ^ 63 - 1)) = halves_state := by decide
  rw [hb]
  decide

set_option maxRecDepth 100000 in
/-- C24 as stated fails at the histogram built from `2^63` zeros, `2^63` ones,
a 2 and a 3, and the value 2, which is below the max 3: the counts of the
buckets below bucket 2 add up to `2^64`, the `uint64_t` sum of
`heistogram_prank` wraps to 0, and the function returns
`100 * (0 + 0.5 * 1) / 2 = 25`, not the value of the formula. -/
theorem prank_sum_wraps :
    build exactEnv (List.replicate (2 ^ 63) 0 ++ [1] ++ (List.replicate (2 ^ 63 - 1) 1 ++ [2, 3]))
      = .ok halves_two_three
    ∧ 2 < heistogram_max halves_two_three
    ∧ ((List.range (get_bucket_id exactEnv 2)).map (bucket_count halves_two_three)).sum = U64
    ∧ heistogram_prank ieeeRank exactEnv halves_two_three 2 = .ok (Dbl.ofNat 25)
    ∧ prank_formula ieeeRank exactEnv halves_two_three 2 ≠ Dbl.ofNat 25 :=
  ⟨build_halves_two_three, by decide, by decide, by decide, by decide⟩

/-! ## The varint codec below `2^48` -/

/-- Below `2^48` the first byte written by `encode_varint` selects, through the
branches of `decode_varint`, the number of bytes written. -/
theorem encode_varint_first_byte (v : Nat) (hv : v < two_pow_48) :
    ∃ a0 rest, encode_varint v = a0 :: rest
      ∧ (encode_varint v).length = varint_size a0 := by
  unfold two_pow_48 at hv
  rw [encode_varint_length]
  unfold encode_varint varint_size
  by_cases h1 : v ≤ 240
  · have e : v % U8 = v := Nat.mod_eq_of_lt (by unfold U8; omega)
    refine ⟨v, [], ?_, ?_⟩
    · rw [if_pos h1, e]
    · rw [if_pos h1, if_pos h1]
  · by_cases h2 : v ≤ 2287
    · have hs : (v - 240) >>> 8 = (v - 240) / 256 := by
        rw [Nat.shiftRight_eq_div_pow]
      have hq : (v - 240) / 256 ≤ 7 := by omega
      have e : ((v - 240) / 256 + 241) % U8 = (v - 240) / 256 + 241 :=
        Nat.mod_eq_of_lt (by unfold U8; omega)
      refine ⟨(v - 240) / 256 + 241, [(v - 240) &&& 0xFF], ?_, ?_⟩
      · rw [if_neg h1, if_pos h2, hs, e]
      · rw [if_neg h1, if_pos h2, if_neg (by omega), if_pos (by omega)]
    · by_cases h3 : v ≤ 67823
      · refine ⟨249, [((v - 2288) >>> 8) % U8, (v - 2288) &&& 0xFF], ?_, ?_⟩
        · rw [if_neg h1, if_neg h2, if_pos h3]
        · rw [if_neg h1, if_neg h2, if_pos h3, if_neg (by omega), if_neg (by omega), if_pos rfl]
      · have hp : 3 ≤ payload_bytes v ∧ payload_bytes v ≤ 6 := by
          unfold payload_bytes
          split_ifs <;> omega
        have e : (249 + payload_bytes v) % U8 = 249 + payload_bytes v :=
          Nat.mod_eq_of_lt (by unfold U8; omega)
        refine ⟨249 + payload_bytes v, encode_payload (payload_bytes v) v, ?_, ?_⟩
        · rw [if_neg h1, if_neg h2, if_neg h3, e]
        · rw [if_neg h1, if_neg h2, if_neg h3, if_neg (by omega), if_neg (by omega),
            if_neg (by omega)]
          omega

/-- C33: for every `v < 2^48`, `decode_varint` applied to the bytes written by
`encode_varint v` yields `v` and the byte count `encode_varint` returned; the
first byte written determines that count (it is the count the branches of
`decode_varint` select from the first byte), so two values below `2^48` whose
encodings start with the same byte are encoded in the same number of bytes. -/
theorem varint_decode_encode (v : Nat) (hv : v < two_pow_48) :
    decode_varint (encode_varint v) = .ok (v, (encode_varint v).length)
    ∧ (∃ a0 rest, encode_varint v = a0 :: rest
        ∧ (encode_varint v).length = varint_size a0)
    ∧ ∀ w, w < two_pow_48 → (encode_varint w).head? = (encode_varint v).head? →
        (encode_varint w).length = (encode_varint v).length := by
  refine ⟨?_, encode_varint_first_byte v hv, fun w hw hh => ?_⟩
  · have := decode_varint_encode v hv []
    rwa [List.append_nil] at this
  · obtain ⟨a, r, e1, l1⟩ := encode_varint_first_byte v hv
    obtain ⟨b, s, e2, l2⟩ := encode_varint_first_byte w hw
    rw [e1, e2] at hh
    simp only [List.head?_cons, Option.some.injEq] at hh
    rw [l1, l2, hh]

/-- C33 at the value 70000, encoded in the four bytes `252, 1, 17, 112`. -/
theorem varint_decode_encode_witness :
    70000 < two_pow_48
    ∧ decode_varint (encode_varint 70000) = .ok (70000, (encode_varint 70000).length)
    ∧ (∃ a0 rest, encode_varint 70000 = a0 :: rest
        ∧ (encode_varint 70000).length = varint_size a0)
    ∧ ∀ w, w < two_pow_48 → (encode_varint w).head? = (encode_varint 70000).head? →
        (encode_varint w).length = (encode_varint 70000).length :=
  ⟨by decide, varint_decode_encode 70000 (by decide)⟩

/-! ## Algebra of `heistogram_merge` -/

/-- C39: `heistogram_merge` is commutative.  For all histograms `a` and `b`
(values of the C type: the counter array holds at least `capacity` counters)
both `heistogram_merge(a, b)` and `heistogram_merge(b, a)` return a histogram,
and the two have equal capacity, total count, min, max, min_bucket_id and equal
count in every bucket id. -/
theorem heistogram_merge_comm (a b : Heistogram) (ha : a.capacity ≤ a.buckets.length)
    (hb : b.capacity ≤ b.buckets.length) :
    ∃ r s, heistogram_merge a b = .ok r ∧ heistogram_merge b a = .ok s
      ∧ r.capacity = s.capacity ∧ r.total_count = s.total_count ∧ r.min = s.min
      ∧ r.max = s.max ∧ r.min_bucket_id = s.min_bucket_id
      ∧ ∀ i, bucket_count r i = bucket_count s i := by
  obtain ⟨r, er, rc, -, rt, rmin, rmax, rmb, rb⟩ := heistogram_merge_eq a b ha hb
  obtain ⟨s, es, sc, -, st, smin, smax, smb, sb⟩ := heistogram_merge_eq b a hb ha
  refine ⟨r, s, er, es, ?_, ?_, ?_, ?_, ?_, fun i => ?_⟩
  · rw [rc, sc, max_comm a.capacity b.capacity]
  · rw [rt, st, Nat.add_comm]
  · rw [rmin, smin, min_comm]
  · rw [rmax, smax, max_comm]
  · rw [rmb, smb, min_comm]
  · rw [rb, sb, Nat.add_comm]

/-- C39 at the histogram holding the value 5 and the histogram holding the
values 3, 5 and 9. -/
theorem heistogram_merge_comm_witness :
    single_five.capacity ≤ single_five.buckets.length
    ∧ three_values.capacity ≤ three_values.buckets.length
    ∧ ∃ r s, heistogram_merge single_five three_values = .ok r
      ∧ heistogram_merge three_values single_five = .ok s
      ∧ r.capacity = s.capacity ∧ r.total_count = s.total_count ∧ r.min = s.min
      ∧ r.max = s.max ∧ r.min_bucket_id = s.min_bucket_id
      ∧ ∀ i, bucket_count r i = bucket_count s i :=
  ⟨by decide, by decide, heistogram_merge_comm single_five three_values (by decide) (by decide)⟩

/-! ## Serialization after deserialization -/

set_option maxRecDepth 100000 in
/-- C37, evaluated at the histogram holding the single value 5: its
serialization is the 6 bytes `1, 1, 5, 0, 5, 1`; `heistogram_deserialize`
restores counters, count, min and max but never stores the decoded
`min_bucket_id`, which stays 0; serializing the restored histogram writes the
span 6, `min_bucket_id` 0 and the six counters of the buckets 5 down to 0,
eleven bytes that differ from the six. -/
theorem reserialize_not_stable :
    build exactEnv [5] = .ok single_five
    ∧ heistogram_serialize single_five = .ok [1, 1, 5, 0, 5, 1]
    ∧ heistogram_deserialize [1, 1, 5, 0, 5, 1] 6 = .ok restored_five
    ∧ heistogram_serialize restored_five = .ok [6, 1, 5, 0, 0, 1, 0, 0, 0, 0, 0]
    ∧ restored_five.min_bucket_id = 0
    ∧ single_five.min_bucket_id = 5
    ∧ [6, 1, 5, 0, 0, 1, 0, 0, 0, 0, 0] ≠ [1, 1, 5, 0, 5, 1] := by
  decide

/-! ## Merging with the snapshot of an empty histogram -/

set_option maxRecDepth 100000 in
/-- C35, evaluated at the empty histogram and the histogram holding the single
value 20 (capacity 36): the snapshot of the empty histogram is the 5 bytes
`0, 0, 0, 0, 0` with span 0, for which the `uint16_t`
`max_bucket_id = min_bucket_id + bucket_count - 1` is 65535 and the `uint16_t`
`max_bucket_id + 1` is 0.  `heistogram_merge_serialized` then copies the 36
counters of the live operand into a result of 16 counters,
`heistogram_merge_two_serialized` adds into counter 20 of a result of 16
counters, and `heistogram_merge_inplace_serialized` reallocates the array of
its live operand to 0 counters and clears a negative number of them: each is
an access outside the counter array. -/
theorem serialized_merges_empty_snapshot :
    build exactEnv [] = .ok heistogram_create
    ∧ heistogram_serialize heistogram_create = .ok [0, 0, 0, 0, 0]
    ∧ (∃ hd, decode_header [0, 0, 0, 0, 0] = .ok hd ∧ header_top hd = 65535
        ∧ (header_top hd + 1) % U16 = 0)
    ∧ build exactEnv [20] = .ok single_twenty
    ∧ heistogram_serialize single_twenty = .ok [1, 1, 20, 0, 20, 1]
    ∧ heistogram_merge_serialized single_twenty [0, 0, 0, 0, 0] 5 = .error .oob
    ∧ heistogram_merge_two_serialized [0, 0, 0, 0, 0] 5 [1, 1, 20, 0, 20, 1] 6 = .error .oob
    ∧ heistogram_merge_inplace_serialized single_twenty [0, 0, 0, 0, 0] 5 = .error .oob
    ∧ heistogram_merge_inplace_serialized heistogram_create [0, 0, 0, 0, 0] 5 = .error .oob
    ∧ expand_inplace heistogram_create 65535 = .error .oob := by
  refine ⟨rfl, by decide, ⟨_, rfl, by decide, by decide⟩, by decide, by decide, by decide,
    by decide, by decide, by decide, by decide⟩

/-! ## Bucket bounds -/

/-- C34, evaluated at `v = 2^48`: the upper bound `get_bucket_max(lo)` of the
bucket of `2^48` is computed from the 32-bit truncation of the lower bound `lo`
(the parameter of `get_bucket_max` is a `uint32_t`), so it is below `2^33` and
below `v`.  The only assumption on the floating-point bucket mapper is that
`(uint64_t)(min * 0.02)` is at most `min`. -/
theorem bucket_max_below_value (E : Env) (hg : ∀ m, E.growth m ≤ m) :
    two_pow_48 < U64
    ∧ get_bucket_max E (get_bucket_min E (get_bucket_id E two_pow_48)) < 8589934592
    ∧ ¬ (two_pow_48 ≤ get_bucket_max E (get_bucket_min E (get_bucket_id E two_pow_48))) := by
  have h := get_bucket_max_lt E hg (get_bucket_min E (get_bucket_id E two_pow_48))
  have h48 : two_pow_48 = 281474976710656 := rfl
  unfold U32 at h
  refine ⟨by decide, by omega, by omega⟩

/-- C34 at `2^48` with the bucket mapper computed in exact arithmetic. -/
theorem bucket_max_below_value_witness :
    (∀ m, exactEnv.growth m ≤ m)
    ∧ two_pow_48 < U64
    ∧ get_bucket_max exactEnv (get_bucket_min exactEnv (get_bucket_id exactEnv two_pow_48))
        < 8589934592
    ∧ ¬ (two_pow_48
          ≤ get_bucket_max exactEnv (get_bucket_min exactEnv (get_bucket_id exactEnv two_pow_48))) :=
  ⟨exactEnv_growth_le, bucket_max_below_value exactEnv exactEnv_growth_le⟩

/-! ## Capacity -/

/-- Whenever `heistogram_add` returns a state, its capacity is at least the
capacity before the call. -/
theorem heistogram_add_capacity (E : Env) (h h2 : Heistogram) (v : Nat)
    (e : heistogram_add E h v = .ok h2) : h.capacity ≤ h2.capacity := by
  have hb := get_bucket_id_le E v
  obtain ⟨-, m2, -⟩ := add_metadata_buckets h v (get_bucket_id E v)
  unfold heistogram_add at e
  simp only [bind, Except.bind, pure, Except.pure] at e
  generalize get_bucket_id E v = bid at *
  generalize add_metadata h v bid = hm at *
  cases he : add_expand hm bid with
  | error err => rw [he] at e; exact absurd e (by simp)
  | ok h1 =>
    rw [he] at e
    dsimp only at e
    have hc : h.capacity ≤ h1.capacity := by
      unfold add_expand at he
      split at he
      · rename_i hge
        cases hg : grow_buckets hm.buckets hm.capacity (bid + 16) with
        | error err => rw [hg] at he; exact absurd he (by simp)
        | ok nb =>
          rw [hg] at he
          have := Except.ok.inj he
          subst this
          have hmod : (bid + 16) % U16 = bid + 16 := Nat.mod_eq_of_lt (by unfold U16; omega)
          dsimp only
          rw [hmod]
          omega
      · have := Except.ok.inj he
        subst this
        omega
    cases hr : read_bucket h1.buckets bid with
    | error err => rw [hr] at e; exact absurd e (by simp)
    | ok c =>
      rw [hr] at e
      dsimp only at e
      cases hw : write_bucket h1.buckets bid ((c + 1) % U64) with
      | error err => rw [hw] at e; exact absurd e (by simp)
      | ok nb =>
        rw [hw] at e
        have := Except.ok.inj e
        subst this
        exact hc

/-- Whenever `heistogram_merge_inplace` returns a state, its capacity is at
least the capacity of the first operand before the call. -/
theorem heistogram_merge_inplace_capacity (a b r : Heistogram)
    (e : heistogram_merge_inplace a b = .ok r) : a.capacity ≤ r.capacity := by
  unfold heistogram_merge_inplace at e
  simp only [bind, Except.bind, pure, Except.pure] at e
  cases he : resize_result a b.capacity with
  | error err => rw [he] at e; exact absurd e (by simp)
  | ok h1 =>
    rw [he] at e
    dsimp only at e
    have hc : a.capacity ≤ h1.capacity := by
      unfold resize_result at he
      split at he
      · rename_i hgt
        cases hg : grow_buckets a.buckets a.capacity b.capacity with
        | error err => rw [hg] at he; exact absurd he (by simp)
        | ok nb =>
          rw [hg] at he
          have := Except.ok.inj he
          subst this
          dsimp only
          omega
      · have := Except.ok.inj he
        subst this
        omega
    cases hr : add_counts h1.buckets b.buckets b.capacity with
    | error err => rw [hr] at e; exact absurd e (by simp)
    | ok nb =>
      rw [hr] at e
      have := Except.ok.inj e
      subst this
      exact hc

/-- In a reachable histogram the counter array is as long as the capacity and
the capacity is above the bucket id of every value that went into it. -/
theorem reach_array_bounds (E : Env) (xs : List Nat) (h : Heistogram) (hr : Reach E xs h) :
    h.buckets.length = h.capacity ∧ ∀ x ∈ xs, get_bucket_id E x < h.capacity := by
  induction hr with
  | create => exact ⟨rfl, fun x hx => absurd hx (List.not_mem_nil x)⟩
  | add xs h h2 v _ _ e ih =>
    obtain ⟨h3, e3, l3, c3, b3, -⟩ := heistogram_add_state E h v ih.1
    rw [e] at e3
    have := Except.ok.inj e3
    subst this
    refine ⟨l3, fun x hx => ?_⟩
    rcases List.mem_append.mp hx with hx | hx
    · exact lt_of_lt_of_le (ih.2 x hx) c3
    · rw [List.mem_singleton.mp hx]; exact b3
  | merge xs ys a b r _ _ e iha ihb =>
    obtain ⟨r2, e2, c2, l2, -⟩ := heistogram_merge_eq a b (by omega) (by omega)
    rw [e] at e2
    have := Except.ok.inj e2
    subst this
    refine ⟨l2, fun x hx => ?_⟩
    rw [c2]
    rcases List.mem_append.mp hx with hx | hx
    · have := iha.2 x hx
      omega
    · have := ihb.2 x hx
      omega
  | merge_inplace xs ys a b r _ _ e iha ihb =>
    obtain ⟨r2, e2, c2, -⟩ := heistogram_merge_inplace_eq a b (by omega) (by omega)
    have l2 := heistogram_merge_inplace_length a b r iha.1 (by omega) e
    rw [e] at e2
    have := Except.ok.inj e2
    subst this
    refine ⟨l2, fun x hx => ?_⟩
    rw [c2]
    rcases List.mem_append.mp hx with hx | hx
    · have := iha.2 x hx
      omega
    · have := ihb.2 x hx
      omega

/-- C32: a state returned by `heistogram_add` or `heistogram_merge_inplace`
never has a smaller capacity than the histogram had before; in every histogram
reachable from `heistogram_create` by `heistogram_add`, `heistogram_merge` and
`heistogram_merge_inplace` the counter array holds `capacity` counters and the
capacity is strictly greater than the bucket id of every value that went into
it; and on reachable histograms each of the three operations returns a state,
that is, none of its bucket accesses falls outside a counter array. -/
theorem reach_capacity (E : Env) (xs : List Nat) (h : Heistogram) (hr : Reach E xs h) :
    (∀ (g g2 : Heistogram) (v : Nat), heistogram_add E g v = .ok g2 → g.capacity ≤ g2.capacity)
    ∧ (∀ a b r : Heistogram, heistogram_merge_inplace a b = .ok r → a.capacity ≤ r.capacity)
    ∧ h.buckets.length = h.capacity
    ∧ (∀ x ∈ xs, get_bucket_id E x < h.capacity)
    ∧ (∀ v, ∃ h2, heistogram_add E h v = .ok h2 ∧ h.capacity ≤ h2.capacity
        ∧ get_bucket_id E v < h2.capacity)
    ∧ ∀ (ys : List Nat) (b : Heistogram), Reach E ys b →
        (∃ r, heistogram_merge h b = .ok r ∧ h.capacity ≤ r.capacity
          ∧ b.capacity ≤ r.capacity)
        ∧ ∃ r, heistogram_merge_inplace h b = .ok r ∧ h.capacity ≤ r.capacity
          ∧ b.capacity ≤ r.capacity := by
  obtain ⟨hl, hx⟩ := reach_array_bounds E xs h hr
  refine ⟨fun g g2 v e => heistogram_add_capacity E g g2 v e,
    fun a b r e => heistogram_merge_inplace_capacity a b r e, hl, hx, fun v => ?_,
    fun ys b hb => ?_⟩
  · obtain ⟨h2, e2, -, c2, b2, -⟩ := heistogram_add_state E h v hl
    exact ⟨h2, e2, c2, b2⟩
  · obtain ⟨bl, -⟩ := reach_array_bounds E ys b hb
    obtain ⟨r, er, cr, -⟩ := heistogram_merge_eq h b (by omega) (by omega)
    obtain ⟨s, es, cs, -⟩ := heistogram_merge_inplace_eq h b (by omega) (by omega)
    exact ⟨⟨r, er, by omega, by omega⟩, ⟨s, es, by omega, by omega⟩⟩

/-- C32 at the histogram reached by merging the histogram built from 3 and 9
with the histogram built from 5. -/
theorem reach_capacity_witness :
    Reach exactEnv ([3, 9] ++ [5]) three_values
    ∧ (∀ (g g2 : Heistogram) (v : Nat),
        heistogram_add exactEnv g v = .ok g2 → g.capacity ≤ g2.capacity)
    ∧ (∀ a b r : Heistogram, heistogram_merge_inplace a b = .ok r → a.capacity ≤ r.capacity)
    ∧ three_values.buckets.length = three_values.capacity
    ∧ (∀ x ∈ [3, 9] ++ [5], get_bucket_id exactEnv x < three_values.capacity)
    ∧ (∀ v, ∃ h2, heistogram_add exactEnv three_values v = .ok h2
        ∧ three_values.capacity ≤ h2.capacity ∧ get_bucket_id exactEnv v < h2.capacity)
    ∧ ∀ (ys : List Nat) (b : Heistogram), Reach exactEnv ys b →
        (∃ r, heistogram_merge three_values b = .ok r ∧ three_values.capacity ≤ r.capacity
          ∧ b.capacity ≤ r.capacity)
        ∧ ∃ r, heistogram_merge_inplace three_values b = .ok r
          ∧ three_values.capacity ≤ r.capacity ∧ b.capacity ≤ r.capacity :=
  ⟨reach_three_values, reach_capacity exactEnv _ three_values reach_three_values⟩

/-! ## The lowest bucket id -/

/-- The `min_bucket_id` of the state `heistogram_add` returns. -/
theorem heistogram_add_min_bucket_id (E : Env) (h h2 : Heistogram) (x : Nat)
    (hlen : h.buckets.length = h.capacity) (e : heistogram_add E h x = .ok h2) :
    h2.min_bucket_id =
      if h.total_count = 0 then get_bucket_id E x
      else if get_bucket_id E x < h.min_bucket_id then get_bucket_id E x
      else h.min_bucket_id := by
  obtain ⟨-, -, fmb⟩ := add_metadata_fields h x (get_bucket_id E x)
  rw [heistogram_add_eq E h x hlen] at e
  have := Except.ok.inj e
  subst this
  exact fmb

/-- In a reachable histogram that fewer than `2^64` values went into,
`min_bucket_id` is at most the bucket id of each of them. -/
theorem reach_min_bucket_id_le (E : Env) (xs : List Nat) (h : Heistogram) (hr : Reach E xs h)
    (hlen : xs.length < U64) : ∀ x ∈ xs, h.min_bucket_id ≤ get_bucket_id E x := by
  induction hr with
  | create => exact fun x hx => absurd hx (List.not_mem_nil x)
  | add xs h h2 v hr0 _ e ih =>
    rw [List.length_append, List.length_singleton] at hlen
    have t := reach_tracked E xs h hr0 (by omega)
    have hm := heistogram_add_min_bucket_id E h h2 v t.length_eq e
    intro x hx
    rw [hm]
    by_cases h0 : h.total_count = 0
    · rw [if_pos h0]
      have hnil : xs = [] := List.length_eq_zero.mp (by rw [← t.total]; exact h0)
      subst hnil
      rw [List.nil_append, List.mem_singleton] at hx
      rw [hx]
    · rw [if_neg h0]
      rcases List.mem_append.mp hx with hx | hx
      · have := ih (by omega) x hx
        split <;> omega
      · rw [List.mem_singleton.mp hx]
        split <;> omega
  | merge xs ys a b r hra hrb e iha ihb =>
    rw [List.length_append] at hlen
    have ta := reach_tracked E xs a hra (by omega)
    have tb := reach_tracked E ys b hrb (by omega)
    obtain ⟨r2, e2, -, -, -, -, -, m2, -⟩ :=
      heistogram_merge_eq a b (by rw [ta.length_eq]) (by rw [tb.length_eq])
    rw [e] at e2
    have := Except.ok.inj e2
    subst this
    intro x hx
    rw [m2]
    rcases List.mem_append.mp hx with hx | hx
    · exact le_trans (Nat.min_le_left _ _) (iha (by omega) x hx)
    · exact le_trans (Nat.min_le_right _ _) (ihb (by omega) x hx)
  | merge_inplace xs ys a b r hra hrb e iha ihb =>
    rw [List.length_append] at hlen
    have ta := reach_tracked E xs a hra (by omega)
    have tb := reach_tracked E ys b hrb (by omega)
    obtain ⟨r2, e2, -, -, -, -, -, m2, -⟩ :=
      heistogram_merge_inplace_eq a b (by rw [ta.length_eq]) (by rw [tb.length_eq])
    rw [e] at e2
    have := Except.ok.inj e2
    subst this
    intro x hx
    rw [m2]
    rcases List.mem_append.mp hx with hx | hx
    · exact le_trans (Nat.min_le_left _ _) (iha (by omega) x hx)
    · exact le_trans (Nat.min_le_right _ _) (ihb (by omega) x hx)

set_option maxRecDepth 100000 in
/-- C36 as stated fails at `2^64 - 1` insertions of 0 followed by one insertion
of 1 and one of 7: the insertion of 1 wraps the total count to 0, so the
insertion of 7 takes the first-value branch and sets `min_bucket_id` to 7,
while the buckets 0 and 1 below it hold the counts `2^64 - 1` and 1.  The
serialization is the run of bucket 7 alone, the 6 bytes `1, 1, 7, 0, 7, 1`. -/
theorem reach_count_below_min_bucket_id :
    Reach exactEnv (List.replicate (U64 - 1) 0 ++ [1, 7]) wrapped_seven
    ∧ wrapped_seven.min_bucket_id = 7
    ∧ bucket_count wrapped_seven 0 = U64 - 1
    ∧ bucket_count wrapped_seven 1 = 1
    ∧ ¬ (∀ i, i < wrapped_seven.min_bucket_id → bucket_count wrapped_seven i = 0)
    ∧ heistogram_serialize wrapped_seven = .ok [1, 1, 7, 0, 7, 1] := by
  refine ⟨?_, rfl, by decide, by decide, fun hall => absurd (hall 1 (by decide)) (by decide),
    by decide⟩
  apply reach_build
  · intro x hx
    rcases List.mem_append.mp hx with h | h
    · rw [(List.mem_replicate.mp h).2]; decide
    · have : x = 1 ∨ x = 7 := by simpa using h
      rcases this with h | h <;> rw [h] <;> decide
  · rw [build_append exactEnv _ _ _ (build_zeros exactEnv (U64 - 1))]
    decide

/-- C36, amended: in every histogram reachable from `heistogram_create` by
`heistogram_add`, `heistogram_merge` and `heistogram_merge_inplace` into which
fewer than `2^64` values went in all, every bucket with id below
`min_bucket_id` has count 0, that is, every bucket with a non-zero count has an
id of at least `min_bucket_id`, the lower end of the run that
`heistogram_serialize` writes. -/
theorem reach_zero_below_min_bucket_id (E : Env) (xs : List Nat) (h : Heistogram)
    (hr : Reach E xs h) (hlen : xs.length < U64) :
    (∀ i, i < h.min_bucket_id → bucket_count h i = 0)
    ∧ ∀ i, bucket_count h i ≠ 0 → h.min_bucket_id ≤ i := by
  have t := reach_tracked E xs h hr hlen
  have hm := reach_min_bucket_id_le E xs h hr hlen
  have key : ∀ i, i < h.min_bucket_id → bucket_count h i = 0 := by
    intro i hi
    rw [t.counts, List.count_eq_zero]
    intro hmem
    obtain ⟨x, hx, hxi⟩ := List.mem_map.mp hmem
    have := hm x hx
    omega
  refine ⟨key, fun i hi => ?_⟩
  by_contra hlt
  exact hi (key i (by omega))

/-- C36, amended, at the merge of the histograms built from 3, 9 and from 5. -/
theorem reach_zero_below_min_bucket_id_witness :
    Reach exactEnv ([3, 9] ++ [5]) three_values ∧ ([3, 9] ++ [5]).length < U64
    ∧ (∀ i, i < three_values.min_bucket_id → bucket_count three_values i = 0)
    ∧ ∀ i, bucket_count three_values i ≠ 0 → three_values.min_bucket_id ≤ i :=
  ⟨reach_three_values, by decide,
    reach_zero_below_min_bucket_id exactEnv _ three_values reach_three_values (by decide)⟩

set_option maxRecDepth 100000 in
/-- C31 as stated fails for a merge with an empty histogram and after a
wrapped total count.  Merging the histogram that holds the value 5 with a fresh
histogram, by `heistogram_merge` or `heistogram_merge_inplace`, gives a
histogram with one observation, the value 5 in bucket 5, and `min_bucket_id`
0, the smaller of 5 and the fresh histogram's 0.  After `2^64` insertions of 0
the insertion of 5 takes the first-value branch and `min_bucket_id` is 5,
above the bucket id 0 of the observed value 0. -/
theorem min_bucket_id_not_smallest :
    build exactEnv [5] = .ok single_five
    ∧ build exactEnv [] = .ok heistogram_create
    ∧ heistogram_merge single_five heistogram_create = .ok five_with_empty
    ∧ heistogram_merge heistogram_create single_five = .ok five_with_empty
    ∧ heistogram_merge_inplace single_five heistogram_create = .ok five_with_empty
    ∧ five_with_empty.total_count = 1
    ∧ bucket_count five_with_empty 5 = 1
    ∧ five_with_empty.min_bucket_id = 0
    ∧ get_bucket_id exactEnv 5 = 5
    ∧ ¬ (∃ x ∈ [5] ++ [], five_with_empty.min_bucket_id = get_bucket_id exactEnv x)
    ∧ build exactEnv (List.replicate U64 0 ++ [5]) = .ok single_five
    ∧ single_five.min_bucket_id = 5
    ∧ get_bucket_id exactEnv 0 = 0
    ∧ ¬ (∀ x ∈ List.replicate U64 0 ++ [5],
          single_five.min_bucket_id ≤ get_bucket_id exactEnv x) := by
  refine ⟨by decide, rfl, by decide, by decide, by decide, rfl, by decide, rfl, by decide,
    by decide, ?_, rfl, by decide, fun hall => ?_⟩
  · rw [build_append exactEnv _ _ _ (build_zeros exactEnv U64)]
    decide
  · have := hall 0 (List.mem_append_left _ (List.mem_replicate.mpr ⟨by decide, rfl⟩))
    exact absurd this (by decide)

/-- When `min_bucket_id` is the smallest bucket id of the values of each of two
histograms, it is so for the histogram `heistogram_merge` returns and
`heistogram_merge_inplace` leaves. -/
theorem merge_keeps_smallest_bucket (E : Env) (a b : Heistogram) (us vs : List Nat)
    (ha : a.capacity ≤ a.buckets.length) (hb : b.capacity ≤ b.buckets.length)
    (pa : (∃ x ∈ us, a.min_bucket_id = get_bucket_id E x)
      ∧ ∀ x ∈ us, a.min_bucket_id ≤ get_bucket_id E x)
    (pb : (∃ x ∈ vs, b.min_bucket_id = get_bucket_id E x)
      ∧ ∀ x ∈ vs, b.min_bucket_id ≤ get_bucket_id E x) :
    ∃ r s, heistogram_merge a b = .ok r ∧ heistogram_merge_inplace a b = .ok s
      ∧ s.min_bucket_id = r.min_bucket_id
      ∧ (∃ x ∈ us ++ vs, r.min_bucket_id = get_bucket_id E x)
      ∧ ∀ x ∈ us ++ vs, r.min_bucket_id ≤ get_bucket_id E x := by
  obtain ⟨r, er, -, -, -, -, -, mr, -⟩ := heistogram_merge_eq a b ha hb
  obtain ⟨s, es, -, -, -, -, -, ms, -⟩ := heistogram_merge_inplace_eq a b ha hb
  obtain ⟨⟨x, hx, ex⟩, lx⟩ := pa
  obtain ⟨⟨y, hy, ey⟩, ly⟩ := pb
  refine ⟨r, s, er, es, by rw [mr, ms], ?_, fun z hz => ?_⟩
  · by_cases hab : a.min_bucket_id ≤ b.min_bucket_id
    · exact ⟨x, List.mem_append_left _ hx, by rw [mr, Nat.min_eq_left hab, ex]⟩
    · exact ⟨y, List.mem_append_right _ hy, by rw [mr, Nat.min_eq_right (by omega), ey]⟩
  · rw [mr]
    rcases List.mem_append.mp hz with hz | hz
    · exact le_trans (Nat.min_le_left _ _) (lx z hz)
    · exact le_trans (Nat.min_le_right _ _) (ly z hz)

/-- C31, amended: for every histogram built by `heistogram_add` from a
non-empty sequence of fewer than `2^64` values, `min_bucket_id` equals the
smallest `get_bucket_id(v)` over the values `v` inserted; for two such
histograms `heistogram_merge` returns and `heistogram_merge_inplace` leaves a
histogram whose `min_bucket_id` is the smallest bucket id over the values of
both; and in general, when `min_bucket_id` is the smallest bucket id of the
values of each of two histograms (each holding at least one), it is so for the
result of merging them. -/
theorem min_bucket_id_smallest (E : Env) (xs ys : List Nat) (hx : xs ≠ []) (hy : ys ≠ [])
    (hlx : xs.length < U64) (hly : ys.length < U64) :
    (∃ a b r s, build E xs = .ok a ∧ build E ys = .ok b
      ∧ heistogram_merge a b = .ok r ∧ heistogram_merge_inplace a b = .ok s
      ∧ ((∃ x ∈ xs, a.min_bucket_id = get_bucket_id E x)
        ∧ ∀ x ∈ xs, a.min_bucket_id ≤ get_bucket_id E x)
      ∧ s.min_bucket_id = r.min_bucket_id
      ∧ (∃ x ∈ xs ++ ys, r.min_bucket_id = get_bucket_id E x)
      ∧ ∀ x ∈ xs ++ ys, r.min_bucket_id ≤ get_bucket_id E x)
    ∧ ∀ (a b : Heistogram) (us vs : List Nat),
        a.capacity ≤ a.buckets.length → b.capacity ≤ b.buckets.length →
        ((∃ x ∈ us, a.min_bucket_id = get_bucket_id E x)
          ∧ ∀ x ∈ us, a.min_bucket_id ≤ get_bucket_id E x) →
        ((∃ x ∈ vs, b.min_bucket_id = get_bucket_id E x)
          ∧ ∀ x ∈ vs, b.min_bucket_id ≤ get_bucket_id E x) →
        ∃ r s, heistogram_merge a b = .ok r ∧ heistogram_merge_inplace a b = .ok s
          ∧ s.min_bucket_id = r.min_bucket_id
          ∧ (∃ x ∈ us ++ vs, r.min_bucket_id = get_bucket_id E x)
          ∧ ∀ x ∈ us ++ vs, r.min_bucket_id ≤ get_bucket_id E x := by
  refine ⟨?_, fun a b us vs ha hb pa pb =>
    merge_keeps_smallest_bucket E a b us vs ha hb pa pb⟩
  obtain ⟨a, ea, ba⟩ := build_built E xs hlx
  obtain ⟨b, eb, bb⟩ := build_built E ys hly
  have pa := And.intro (ba.mbid_mem hx) ba.mbid_le
  have pb := And.intro (bb.mbid_mem hy) bb.mbid_le
  obtain ⟨r, s, er, es, e1, p1, p2⟩ := merge_keeps_smallest_bucket E a b xs ys
    (by rw [ba.length_eq]) (by rw [bb.length_eq]) pa pb
  exact ⟨a, b, r, s, ea, eb, er, es, pa, e1, p1, p2⟩

/-- C31, amended, at the histograms built from 3, 9 and from 5. -/
theorem min_bucket_id_smallest_witness :
    [3, 9] ≠ [] ∧ [5] ≠ [] ∧ [3, 9].length < U64 ∧ [5].length < U64
    ∧ (∃ a b r s, build exactEnv [3, 9] = .ok a ∧ build exactEnv [5] = .ok b
      ∧ heistogram_merge a b = .ok r ∧ heistogram_merge_inplace a b = .ok s
      ∧ ((∃ x ∈ [3, 9], a.min_bucket_id = get_bucket_id exactEnv x)
        ∧ ∀ x ∈ [3, 9], a.min_bucket_id ≤ get_bucket_id exactEnv x)
      ∧ s.min_bucket_id = r.min_bucket_id
      ∧ (∃ x ∈ [3, 9] ++ [5], r.min_bucket_id = get_bucket_id exactEnv x)
      ∧ ∀ x ∈ [3, 9] ++ [5], r.min_bucket_id ≤ get_bucket_id exactEnv x)
    ∧ ∀ (a b : Heistogram) (us vs : List Nat),
        a.capacity ≤ a.buckets.length → b.capacity ≤ b.buckets.length →
        ((∃ x ∈ us, a.min_bucket_id = get_bucket_id exactEnv x)
          ∧ ∀ x ∈ us, a.min_bucket_id ≤ get_bucket_id exactEnv x) →
        ((∃ x ∈ vs, b.min_bucket_id = get_bucket_id exactEnv x)
          ∧ ∀ x ∈ vs, b.min_bucket_id ≤ get_bucket_id exactEnv x) →
        ∃ r s, heistogram_merge a b = .ok r ∧ heistogram_merge_inplace a b = .ok s
          ∧ s.min_bucket_id = r.min_bucket_id
          ∧ (∃ x ∈ us ++ vs, r.min_bucket_id = get_bucket_id exactEnv x)
          ∧ ∀ x ∈ us ++ vs, r.min_bucket_id ≤ get_bucket_id exactEnv x :=
  ⟨by decide, by decide, by decide, by decide,
    min_bucket_id_smallest exactEnv [3, 9] [5] (by decide) (by decide) (by decide) (by decide)⟩

/-! ## Merging with an empty histogram -/

/-- In a reachable histogram the total count and every bucket count are
`uint64_t` values. -/
theorem reach_bounded (E : Env) (xs : List Nat) (h : Heistogram) (hr : Reach E xs h) :
    h.total_count < U64 ∧ ∀ i, bucket_count h i < U64 := by
  have hU : 0 < U64 := by decide
  induction hr with
  | create =>
    refine ⟨by decide, fun i => ?_⟩
    rw [bucket_count_create]
    exact hU
  | add xs h h2 v hr0 _ e ih =>
    obtain ⟨hl, -⟩ := reach_array_bounds E xs h hr0
    obtain ⟨h3, e3, -, -, -, t3, -, -, c3⟩ := heistogram_add_state E h v hl
    rw [e] at e3
    have := Except.ok.inj e3
    subst this
    refine ⟨by rw [t3]; exact Nat.mod_lt _ hU, fun i => ?_⟩
    rw [c3]
    split
    · exact Nat.mod_lt _ hU
    · exact ih.2 i
  | merge xs ys a b r hra hrb e iha ihb =>
    obtain ⟨la, -⟩ := reach_array_bounds E xs a hra
    obtain ⟨lb, -⟩ := reach_array_bounds E ys b hrb
    obtain ⟨r2, e2, -, -, t2, -, -, -, c2⟩ := heistogram_merge_eq a b (by omega) (by omega)
    rw [e] at e2
    have := Except.ok.inj e2
    subst this
    exact ⟨by rw [t2]; exact Nat.mod_lt _ hU, fun i => by rw [c2]; exact Nat.mod_lt _ hU⟩
  | merge_inplace xs ys a b r hra hrb e iha ihb =>
    obtain ⟨la, -⟩ := reach_array_bounds E xs a hra
    obtain ⟨lb, -⟩ := reach_array_bounds E ys b hrb
    obtain ⟨r2, e2, -, -, t2, -, -, -, c2⟩ :=
      heistogram_merge_inplace_eq a b (by omega) (by omega)
    rw [e] at e2
    have := Except.ok.inj e2
    subst this
    refine ⟨by rw [t2]; exact Nat.mod_lt _ hU, fun i => ?_⟩
    rw [c2]
    split
    · exact Nat.mod_lt _ hU
    · exact iha.2 i

set_option maxRecDepth 100000 in
/-- C38 as stated fails at the histogram holding the single value 5: merged
with a fresh histogram, in either order, the result has min 0, the smaller of
5 and the fresh histogram's stored min 0, not the min 5 of the operand. -/
theorem merge_empty_changes_min :
    build exactEnv [5] = .ok single_five
    ∧ heistogram_merge heistogram_create single_five = .ok five_with_empty
    ∧ heistogram_merge single_five heistogram_create = .ok five_with_empty
    ∧ heistogram_min single_five = 5
    ∧ heistogram_min five_with_empty = 0
    ∧ heistogram_min five_with_empty ≠ heistogram_min single_five := by
  decide

/-- C38, amended: for every histogram `h` built by insertions,
`heistogram_merge(heistogram_create(), h)` and
`heistogram_merge(h, heistogram_create())` both return a histogram with the
same total count, max and count in every bucket id as `h`, and with min 0 (the
smaller of the min of `h` and the min 0 stored in the empty histogram). -/
theorem merge_empty_identity (E : Env) (xs : List Nat) (h : Heistogram)
    (hv : ∀ x ∈ xs, x < U64) (e : build E xs = .ok h) :
    ∃ r s, heistogram_merge heistogram_create h = .ok r
      ∧ heistogram_merge h heistogram_create = .ok s
      ∧ heistogram_count r = heistogram_count h ∧ heistogram_count s = heistogram_count h
      ∧ heistogram_max r = heistogram_max h ∧ heistogram_max s = heistogram_max h
      ∧ heistogram_min r = 0 ∧ heistogram_min s = 0
      ∧ ∀ i, bucket_count r i = bucket_count h i ∧ bucket_count s i = bucket_count h i := by
  have hr := reach_build E xs h hv e
  obtain ⟨hl, -⟩ := reach_array_bounds E xs h hr
  obtain ⟨ht, hc⟩ := reach_bounded E xs h hr
  have hcl : heistogram_create.capacity ≤ heistogram_create.buckets.length := by decide
  obtain ⟨r, er, -, -, tr, mnr, mxr, -, cr⟩ := heistogram_merge_eq heistogram_create h hcl (by omega)
  obtain ⟨s, es, -, -, ts, mns, mxs, -, cs⟩ := heistogram_merge_eq h heistogram_create (by omega) hcl
  have c0 : heistogram_create.total_count = 0 := rfl
  have c1 : heistogram_create.min = 0 := rfl
  have c2 : heistogram_create.max = 0 := rfl
  refine ⟨r, s, er, es, ?_, ?_, ?_, ?_, ?_, ?_, fun i => ⟨?_, ?_⟩⟩
  · show r.total_count = h.total_count
    rw [tr, c0, Nat.zero_add, Nat.mod_eq_of_lt ht]
  · show s.total_count = h.total_count
    rw [ts, c0, Nat.add_zero, Nat.mod_eq_of_lt ht]
  · show r.max = h.max
    rw [mxr, c2]; exact Nat.max_eq_right (Nat.zero_le _)
  · show s.max = h.max
    rw [mxs, c2]; exact Nat.max_eq_left (Nat.zero_le _)
  · show r.min = 0
    rw [mnr, c1]; exact Nat.min_eq_left (Nat.zero_le _)
  · show s.min = 0
    rw [mns, c1]; exact Nat.min_eq_right (Nat.zero_le _)
  · rw [cr, bucket_count_create, Nat.zero_add, Nat.mod_eq_of_lt (hc i)]
  · rw [cs, bucket_count_create, Nat.add_zero, Nat.mod_eq_of_lt (hc i)]

/-- C38, amended, at the histogram built from 3, 9 and 5. -/
theorem merge_empty_identity_witness :
    (∀ x ∈ [3, 9, 5], x < U64)
    ∧ build exactEnv [3, 9, 5] = .ok three_values
    ∧ ∃ r s, heistogram_merge heistogram_create three_values = .ok r
      ∧ heistogram_merge three_values heistogram_create = .ok s
      ∧ heistogram_count r = heistogram_count three_values
      ∧ heistogram_count s = heistogram_count three_values
      ∧ heistogram_max r = heistogram_max three_values
      ∧ heistogram_max s = heistogram_max three_values
      ∧ heistogram_min r = 0 ∧ heistogram_min s = 0
      ∧ ∀ i, bucket_count r i = bucket_count three_values i
          ∧ bucket_count s i = bucket_count three_values i :=
  ⟨by decide, by decide,
    merge_empty_identity exactEnv [3, 9, 5] three_values (by decide) (by decide)⟩

/-! ## Monotonicity of the percentile estimate -/

theorem count_ge_anti (xs : List Nat) (j k : Nat) (h : j ≤ k) :
    count_ge xs k ≤ count_ge xs j := by
  unfold count_ge
  apply List.countP_mono_left
  intro x _ hx
  simp only [decide_eq_true_eq] at *
  omega

theorem count_ge_zero (xs : List Nat) : count_ge xs 0 = xs.length := by
  unfold count_ge
  rw [List.countP_eq_length]
  intro x _
  simp

theorem count_ge_pos (xs : List Nat) (i : Nat) (h : i ∈ xs) : 0 < count_ge xs i := by
  have h1 := count_ge_succ xs i
  have h2 := List.count_pos_iff.mpr h
  omega

/-- Exact rational arithmetic has the order properties, with every integer
exact. -/
theorem exactOrdered : OrderedOps exactOps U64 where
  bound_gt := by decide
  ge_trans a b c h1 h2 := by
    simp only [exactOps, decide_eq_true_eq] at *
    exact le_trans h2 h1
  ge_total a b := by
    simp only [exactOps, decide_eq_true_eq]
    exact le_total b a
  lt_iff a b := by
    simp only [exactOps, decide_eq_true_eq, decide_eq_false_iff_not, not_le]
  of_mono m n h := by
    simp only [exactOps, decide_eq_true_eq]
    exact_mod_cast h
  sub_left a b c h := by
    simp only [exactOps, decide_eq_true_eq] at *
    linarith
  sub_right a b c h := by
    simp only [exactOps, decide_eq_true_eq] at *
    linarith
  mul_left a b n h := by
    simp only [exactOps, decide_eq_true_eq] at *
    exact mul_le_mul_of_nonneg_right h (Nat.cast_nonneg n)
  div_left a b n _ h := by
    simp only [exactOps, decide_eq_true_eq] at *
    exact div_le_div_of_nonneg_right h (Nat.cast_nonneg n)
  sub_exact m n h _ := by
    simp only [exactOps]
    rw [Nat.cast_sub h]
  div_self n h := by
    simp only [exactOps]
    have : (n : ℚ) ≠ 0 := by exact_mod_cast (Nat.pos_iff_ne_zero.mp h)
    rw [div_self this, Nat.cast_one]
  zero_div n _ := by simp [exactOps]
  zero_mul n := by simp [exactOps]
  one_mul n := by simp [exactOps]

theorem ordered_ge_refl {D : Type} (F : FloatOps D) (bound : Nat) (O : OrderedOps F bound)
    (a : D) : F.ge a a = true := by
  rcases O.ge_total a a with h | h <;> exact h

/-- The target lies between 0 and the total count, for `0 <= p <= 100`. -/
theorem percentile_target_bounds {D : Type} (F : FloatOps D) (bound : Nat)
    (O : OrderedOps F bound) (p : D) (N : Nat)
    (hp0 : F.ge p (F.of_u64 0) = true) (hp100 : F.ge (F.of_u64 100) p = true) :
    F.ge (percentile_target F p N) (F.of_u64 0) = true
    ∧ F.ge (F.of_u64 N) (percentile_target F p N) = true := by
  have hb := O.bound_gt
  unfold percentile_target
  constructor
  · have h1 := O.sub_right p (F.of_u64 100) (F.of_u64 100) hp100
    rw [O.sub_exact 100 100 (le_refl _) hb, Nat.sub_self] at h1
    have h2 := O.div_left _ _ 100 (by decide) h1
    rw [O.zero_div 100 (by decide)] at h2
    have h3 := O.mul_left _ _ N h2
    rw [O.zero_mul] at h3
    exact h3
  · have h1 := O.sub_right (F.of_u64 0) p (F.of_u64 100) hp0
    rw [O.sub_exact 100 0 (Nat.zero_le _) hb, Nat.sub_zero] at h1
    have h2 := O.div_left _ _ 100 (by decide) h1
    rw [O.div_self 100 (by decide)] at h2
    have h3 := O.mul_left _ _ N h2
    rw [O.one_mul] at h3
    exact h3

/-- A larger `p` has a smaller target. -/
theorem percentile_target_anti {D : Type} (F : FloatOps D) (bound : Nat)
    (O : OrderedOps F bound) (p1 p2 : D) (N : Nat) (h : F.ge p2 p1 = true) :
    F.ge (percentile_target F p1 N) (percentile_target F p2 N) = true := by
  unfold percentile_target
  exact O.mul_left _ _ N (O.div_left _ _ 100 (by decide) (O.sub_right p1 p2 _ h))

/-- Within one bucket the estimate does not decrease when the target
decreases. -/
theorem interpolate_anti {D : Type} (F : FloatOps D) (bound : Nat) (O : OrderedOps F bound)
    (E : Env) (T1 T2 : D) (cs c i mn mx : Nat) (hc : 0 < c) (h : F.ge T1 T2 = true) :
    F.ge (interpolate F E T2 cs c i mn mx) (interpolate F E T1 cs c i mn mx) = true := by
  unfold interpolate
  exact O.sub_right _ _ _ (O.mul_left _ _ _ (O.div_left _ _ c hc (O.sub_left T2 T1 _ h)))

/-- The estimate is at most the upper end `M` of the interpolation, when the
target is at least the count `cs` passed above the bucket. -/
theorem estimate_le_upper {D : Type} (F : FloatOps D) (bound : Nat)
    (O : OrderedOps F bound) (T : D) (cs c M d : Nat) (hc : 0 < c)
    (hcs : cs < bound) (hM : M < bound) (hT : F.ge T (F.of_u64 cs) = true) :
    F.ge (F.of_u64 M)
      (F.sub (F.of_u64 M) (F.mul (F.div (F.sub T (F.of_u64 cs)) (F.of_u64 c)) (F.of_u64 d)))
      = true := by
  have h1 := O.sub_left (F.of_u64 cs) T (F.of_u64 cs) hT
  rw [O.sub_exact cs cs (le_refl _) hcs, Nat.sub_self] at h1
  have h2 := O.div_left _ _ c hc h1
  rw [O.zero_div c hc] at h2
  have h3 := O.mul_left _ _ d h2
  rw [O.zero_mul] at h3
  have h4 := O.sub_right _ _ (F.of_u64 M) h3
  rw [O.sub_exact M 0 (Nat.zero_le _) hM, Nat.sub_zero] at h4
  exact h4

/-- The estimate is at least the lower end `m` of the interpolation, when the
target is at most the count passed including the bucket. -/
theorem estimate_ge_lower {D : Type} (F : FloatOps D) (bound : Nat)
    (O : OrderedOps F bound) (T : D) (cs c M m : Nat) (hc : 0 < c)
    (hsum : cs + c < bound) (hM : M < bound) (hm : m ≤ M)
    (hT : F.ge (F.of_u64 (cs + c)) T = true) :
    F.ge
      (F.sub (F.of_u64 M)
        (F.mul (F.div (F.sub T (F.of_u64 cs)) (F.of_u64 c)) (F.of_u64 (M - m))))
      (F.of_u64 m) = true := by
  have h1 := O.sub_left T (F.of_u64 (cs + c)) (F.of_u64 cs) hT
  rw [O.sub_exact (cs + c) cs (Nat.le_add_right _ _) hsum, Nat.add_sub_cancel_left] at h1
  have h2 := O.div_left _ _ c hc h1
  rw [O.div_self c hc] at h2
  have h3 := O.mul_left _ _ (M - m) h2
  rw [O.one_mul] at h3
  have h4 := O.sub_right _ _ (F.of_u64 M) h3
  rw [O.sub_exact M (M - m) (Nat.sub_le _ _) hM] at h4
  have e : M - (M - m) = m := by omega
  rw [e] at h4
  exact h4

/-- The bucket loop of `heistogram_percentile` on a histogram built from `xs`,
entered at bucket `k - 1` with the number of values in the buckets from `k`
on, none of which reached the target: it returns the estimate of a bucket `i`
that holds a value, the first one from above at which the count of the values
in the buckets from `i` on reaches the target. -/
theorem percentile_scan_select {D : Type} (F : FloatOps D) (E : Env) (xs : List Nat)
    (h : Heistogram) (T : D) (hb : BuiltFrom E xs h) (hne : xs ≠ []) (hlen : xs.length < U64)
    (hT : F.ge (F.of_u64 xs.length) T = true) (k : Nat) (hk : k ≤ h.capacity)
    (inv : count_ge (xs.map (get_bucket_id E)) k = 0
      ∨ F.ge (F.of_u64 (count_ge (xs.map (get_bucket_id E)) k)) T = false) :
    ∃ i, i < k ∧ i ∈ xs.map (get_bucket_id E)
      ∧ percentile_scan F E h T k (count_ge (xs.map (get_bucket_id E)) k)
          = .ok (interpolate F E T (count_ge (xs.map (get_bucket_id E)) (i + 1))
              ((xs.map (get_bucket_id E)).count i) i h.min h.max)
      ∧ (count_ge (xs.map (get_bucket_id E)) (i + 1) = 0
          ∨ F.ge (F.of_u64 (count_ge (xs.map (get_bucket_id E)) (i + 1))) T = false)
      ∧ F.ge (F.of_u64 (count_ge (xs.map (get_bucket_id E)) i)) T = true := by
  generalize hbids : xs.map (get_bucket_id E) = bids at *
  have hblen : bids.length = xs.length := by rw [← hbids, List.length_map]
  induction k with
  | zero =>
    exfalso
    rw [count_ge_zero, hblen] at inv
    rcases inv with h0 | h0
    · exact hne (List.length_eq_zero.mp h0)
    · rw [hT] at h0; exact absurd h0 (by simp)
  | succ k ih =>
    have hc : h.buckets.getD k 0 = bids.count k := by rw [hb.counts, hbids]
    have hsucc := count_ge_succ bids k
    have hle := count_ge_le_length bids k
    rw [percentile_scan, read_bucket_eq _ _ (by rw [hb.length_eq]; omega)]
    dsimp only
    by_cases hpos : h.buckets.getD k 0 > 0
    · rw [if_pos hpos]
      have hmem : k ∈ bids := List.count_pos_iff.mp (hc ▸ hpos)
      have hsum : (count_ge bids (k + 1) + h.buckets.getD k 0) % U64 = count_ge bids k := by
        rw [hc, ← hsucc, Nat.mod_eq_of_lt (by omega)]
      rw [hsum]
      by_cases hg : F.ge (F.of_u64 (count_ge bids k)) T = true
      · rw [if_pos hg, hc]
        exact ⟨k, Nat.lt_succ_self k, hmem, rfl, inv, hg⟩
      · rw [if_neg hg]
        obtain ⟨i, hi, him, es, hinv, hge⟩ := ih (by omega) (Or.inr (by simpa using hg))
        exact ⟨i, by omega, him, es, hinv, hge⟩
    · rw [if_neg hpos]
      have hzero : bids.count k = 0 := by omega
      have hsame : count_ge bids (k + 1) = count_ge bids k := by omega
      rw [hsame] at inv ⊢
      obtain ⟨i, hi, him, es, hinv, hge⟩ := ih (by omega) inv
      exact ⟨i, by omega, him, es, hinv, hge⟩

/-- C40, amended: for every non-empty histogram `h` built by insertions in
which every inserted value lies within the bounds of its bucket and the upper
bound of a bucket holding a value is at most the lower bound of every higher
bucket holding a value, and all `p1 <= p2` in `[0, 100]`,
`heistogram_percentile(h, p1) <= heistogram_percentile(h, p2)`.  The `double`
operations are arbitrary with the order properties `OrderedOps`; the number of
values and the values are below the bound up to which they are exact. -/
theorem percentile_monotone {D : Type} (F : FloatOps D) (bound : Nat)
    (O : OrderedOps F bound) (E : Env) (xs : List Nat) (p1 p2 : D)
    (hne : xs ≠ []) (hU : bound ≤ U64) (hlen : xs.length < bound)
    (hval : ∀ x ∈ xs, x < bound)
    (hin : ∀ x ∈ xs, get_bucket_min E (get_bucket_id E x) ≤ x
      ∧ x ≤ get_bucket_max E (get_bucket_min E (get_bucket_id E x)))
    (hsep : ∀ x ∈ xs, ∀ y ∈ xs, get_bucket_id E x < get_bucket_id E y →
      get_bucket_max E (get_bucket_min E (get_bucket_id E x))
        ≤ get_bucket_min E (get_bucket_id E y))
    (hp0 : F.lt p1 (F.of_u64 0) = false) (hp12 : F.ge p2 p1 = true)
    (hp100 : F.lt (F.of_u64 100) p2 = false) :
    ∃ h q1 q2, build E xs = .ok h
      ∧ heistogram_percentile F E h p1 = .ok q1
      ∧ heistogram_percentile F E h p2 = .ok q2
      ∧ F.ge q2 q1 = true := by
  have hlenU : xs.length < U64 := by omega
  obtain ⟨h, e, hb⟩ := build_built E xs hlenU
  -- the range of p
  have g10 : F.ge p1 (F.of_u64 0) = true := by
    by_contra hc
    have : F.lt p1 (F.of_u64 0) = true := (O.lt_iff _ _).mpr (by simpa using hc)
    rw [hp0] at this; exact absurd this (by simp)
  have g2100 : F.ge (F.of_u64 100) p2 = true := by
    by_contra hc
    have : F.lt (F.of_u64 100) p2 = true := (O.lt_iff _ _).mpr (by simpa using hc)
    rw [hp100] at this; exact absurd this (by simp)
  have g20 : F.ge p2 (F.of_u64 0) = true := O.ge_trans _ _ _ hp12 g10
  have g1100 : F.ge (F.of_u64 100) p1 = true := O.ge_trans _ _ _ g2100 hp12
  have l20 : F.lt p2 (F.of_u64 0) = false := by
    by_contra hc
    have := (O.lt_iff _ _).mp (by simpa using hc)
    rw [g20] at this; exact absurd this (by simp)
  have l1100 : F.lt (F.of_u64 100) p1 = false := by
    by_contra hc
    have := (O.lt_iff _ _).mp (by simpa using hc)
    rw [g1100] at this; exact absurd this (by simp)
  -- the targets
  obtain ⟨t10, t1N⟩ := percentile_target_bounds F bound O p1 h.total_count g10 g1100
  obtain ⟨t20, t2N⟩ := percentile_target_bounds F bound O p2 h.total_count g20 g2100
  have t12 := percentile_target_anti F bound O p1 p2 h.total_count hp12
  generalize hT1e : percentile_target F p1 h.total_count = T1 at *
  generalize hT2e : percentile_target F p2 h.total_count = T2 at *
  rw [hb.total] at t1N t2N
  -- the scans
  have hcap := hb.cap_le
  have hcap2 := hb.cap_ge
  have hstart : toInt16 (h.capacity + (U16 - 1)) = (h.capacity : Int) - 1 :=
    toInt16_pred _ (by omega) (by omega)
  have hs1 : ¬ ((h.capacity : Int) - 1 < 0) := by omega
  have hs2 : ((h.capacity : Int) - 1).toNat + 1 = h.capacity := by omega
  have hz : count_ge (xs.map (get_bucket_id E)) h.capacity = 0 :=
    count_ge_eq_zero _ _ (fun b hbm => by
      obtain ⟨x, hx, hxb⟩ := List.mem_map.mp hbm
      rw [← hxb]; exact hb.bid_lt x hx)
  obtain ⟨i1, -, m1, e1, inv1, ge1⟩ := percentile_scan_select F E xs h T1 hb hne hlenU t1N
    h.capacity (le_refl _) (Or.inl hz)
  obtain ⟨i2, -, m2, e2, inv2, ge2⟩ := percentile_scan_select F E xs h T2 hb hne hlenU t2N
    h.capacity (le_refl _) (Or.inl hz)
  rw [hz] at e1 e2
  refine ⟨h, interpolate F E T1 (count_ge (xs.map (get_bucket_id E)) (i1 + 1))
      ((xs.map (get_bucket_id E)).count i1) i1 h.min h.max,
    interpolate F E T2 (count_ge (xs.map (get_bucket_id E)) (i2 + 1))
      ((xs.map (get_bucket_id E)).count i2) i2 h.min h.max, e, ?_, ?_, ?_⟩
  · unfold heistogram_percentile
    simp only [hp0, l1100, Bool.or_self, Bool.false_eq_true, if_false, hstart, hs1, hs2, hT1e]
    exact e1
  · unfold heistogram_percentile
    simp only [l20, hp100, Bool.or_self, Bool.false_eq_true, if_false, hstart, hs1, hs2, hT2e]
    exact e2
  -- the comparison
  generalize hbids : xs.map (get_bucket_id E) = bids at *
  have hblen : bids.length = xs.length := by rw [← hbids, List.length_map]
  have c1 : 0 < bids.count i1 := List.count_pos_iff.mpr m1
  have c2 : 0 < bids.count i2 := List.count_pos_iff.mpr m2
  have hle12 : i1 ≤ i2 := by
    by_contra hlt
    have hpos := count_ge_pos bids i1 m1
    have hanti := count_ge_anti bids (i2 + 1) i1 (by omega)
    rcases inv2 with h0 | h0
    · omega
    · have := O.ge_trans _ _ _ (O.of_mono _ _ hanti) (O.ge_trans _ _ _ ge1 t12)
      rw [this] at h0; exact absurd h0 (by simp)
  rcases Nat.eq_or_lt_of_le hle12 with heq | hlt
  · subst heq
    exact interpolate_anti F bound O E T1 T2 _ _ i1 h.min h.max c1 t12
  · obtain ⟨x1, hx1, hb1⟩ := List.mem_map.mp (hbids ▸ m1)
    obtain ⟨x2, hx2, hb2⟩ := List.mem_map.mp (hbids ▸ m2)
    have hmaxb : h.max < bound := hval _ (hb.max_mem hne)
    have hsep12 := hsep x1 hx1 x2 hx2 (by omega)
    obtain ⟨hlo2, hhi2⟩ := hin x2 hx2
    rw [hb1] at hsep12
    rw [hb2] at hsep12 hlo2 hhi2
    have hmn2 := hb.min_le x2 hx2
    have hmx2 := hb.max_ge x2 hx2
    have hS1 := count_ge_le_length bids (i1 + 1)
    have hS2 := count_ge_succ bids i2
    have hS2le := count_ge_le_length bids i2
    -- upper end of the lower bucket
    have hT1 : F.ge T1 (F.of_u64 (count_ge bids (i1 + 1))) = true := by
      rcases inv1 with h0 | h0
      · rw [h0]; exact t10
      · rcases O.ge_total T1 (F.of_u64 (count_ge bids (i1 + 1))) with h | h
        · exact h
        · rw [h] at h0; exact absurd h0 (by simp)
    have hT2 : F.ge (F.of_u64 (count_ge bids (i2 + 1) + bids.count i2)) T2 = true := by
      rw [← hS2]; exact ge2
    unfold interpolate
    dsimp only
    generalize hM1 : (if get_bucket_max E (get_bucket_min E i1) > h.max then h.max
      else get_bucket_max E (get_bucket_min E i1)) = M1
    generalize hM2 : (if get_bucket_max E (get_bucket_min E i2) > h.max then h.max
      else get_bucket_max E (get_bucket_min E i2)) = M2
    generalize hm1 : (if get_bucket_min E i1 < h.min then h.min else get_bucket_min E i1) = mm1
    generalize hm2 : (if get_bucket_min E i2 < h.min then h.min else get_bucket_min E i2) = mm2
    have hM1le : M1 ≤ h.max ∧ M1 ≤ get_bucket_max E (get_bucket_min E i1) := by
      rw [← hM1]; split <;> omega
    have hM2le : M2 ≤ h.max ∧ x2 ≤ M2 := by
      rw [← hM2]; split <;> omega
    have hmm2 : mm2 ≤ x2 ∧ get_bucket_min E i2 ≤ mm2 := by
      rw [← hm2]; split <;> omega
    have hd : (M2 + (U64 - mm2 % U64)) % U64 = M2 - mm2 := by
      unfold U64 at *
      omega
    rw [hd]
    have u := estimate_le_upper F bound O T1 (count_ge bids (i1 + 1)) (bids.count i1) M1
      ((M1 + (U64 - mm1 % U64)) % U64) c1 (by omega) (by omega) hT1
    have l := estimate_ge_lower F bound O T2 (count_ge bids (i2 + 1)) (bids.count i2) M2 mm2
      c2 (by omega) (by omega) (by omega) hT2
    exact O.ge_trans _ _ _ l (O.ge_trans _ _ _ (O.of_mono M1 mm2 (by omega)) u)

set_option maxRecDepth 100000 in
/-- C40, amended, in exact arithmetic at the values 5, 100, 200 and 1000, which
fall into the buckets 5, 85, 120 and 201, and `p1 = 25`, `p2 = 75`. -/
theorem percentile_monotone_witness :
    OrderedOps exactOps U64
    ∧ [5, 100, 200, 1000] ≠ [] ∧ U64 ≤ U64 ∧ [5, 100, 200, 1000].length < U64
    ∧ (∀ x ∈ [5, 100, 200, 1000], x < U64)
    ∧ (∀ x ∈ [5, 100, 200, 1000], get_bucket_min exactEnv (get_bucket_id exactEnv x) ≤ x
        ∧ x ≤ get_bucket_max exactEnv (get_bucket_min exactEnv (get_bucket_id exactEnv x)))
    ∧ (∀ x ∈ [5, 100, 200, 1000], ∀ y ∈ [5, 100, 200, 1000],
        get_bucket_id exactEnv x < get_bucket_id exactEnv y →
        get_bucket_max exactEnv (get_bucket_min exactEnv (get_bucket_id exactEnv x))
          ≤ get_bucket_min exactEnv (get_bucket_id exactEnv y))
    ∧ exactOps.lt 25 (exactOps.of_u64 0) = false
    ∧ exactOps.ge 75 25 = true
    ∧ exactOps.lt (exactOps.of_u64 100) 75 = false
    ∧ ∃ h q1 q2, build exactEnv [5, 100, 200, 1000] = .ok h
      ∧ heistogram_percentile exactOps exactEnv h 25 = .ok q1
      ∧ heistogram_percentile exactOps exactEnv h 75 = .ok q2
      ∧ exactOps.ge q2 q1 = true :=
  ⟨exactOrdered, by decide, le_refl _, by decide, by decide, by decide!, by decide!,
    by decide!, by decide!, by decide!,
    percentile_monotone exactOps U64 exactOrdered exactEnv [5, 100, 200, 1000] 25 75
      (by decide) (le_refl _) (by decide) (by decide) (by decide!) (by decide!)
      (by decide!) (by decide!) (by decide!)⟩

set_option maxRecDepth 100000 in
/-- C40 as stated fails at the histogram built from 661 and 663.  The two
values fall into the adjacent buckets 180 and 181, whose bounds overlap: the
upper bound of bucket 180 is `650 + floor(650 * 0.02) = 663`, the lower bound
of bucket 181 is `ceil(1.02 ^ 328) = 662`.  At `p = 49` the estimate is
interpolated in bucket 180 between 661 and 663 and is 662.96; at `p = 50` it
is the lower end 662 of bucket 181.  The estimates are evaluated in exact
arithmetic and in binary64. -/
theorem percentile_not_monotone :
    build exactEnv [661, 663] = .ok overlap_pair
    ∧ get_bucket_id exactEnv 661 = 180 ∧ get_bucket_id exactEnv 663 = 181
    ∧ get_bucket_min exactEnv 180 = 650
    ∧ get_bucket_max exactEnv (get_bucket_min exactEnv 180) = 663
    ∧ get_bucket_min exactEnv 181 = 662
    ∧ heistogram_percentile exactOps exactEnv overlap_pair 49 = .ok (16574 / 25)
    ∧ heistogram_percentile exactOps exactEnv overlap_pair 50 = .ok 662
    ∧ exactOps.ge 50 49 = true
    ∧ exactOps.ge 662 (16574 / 25) = false
    ∧ heistogram_percentile ieeeOps exactEnv overlap_pair (Dbl.ofNat 49)
        = .ok ⟨false, 5831457830003016, -43⟩
    ∧ heistogram_percentile ieeeOps exactEnv overlap_pair (Dbl.ofNat 50)
        = .ok ⟨false, 5823013580701696, -43⟩
    ∧ Dbl.ge (Dbl.ofNat 50) (Dbl.ofNat 49) = true
    ∧ Dbl.ge ⟨false, 5823013580701696, -43⟩ ⟨false, 5831457830003016, -43⟩ = false := by
  refine ⟨by decide!, by decide!, by decide!, by decide!, by decide!, by decide!, by decide!,
    by decide!, by decide!, by decide!, by decide!, by decide!, by decide!, by decide!⟩

/-! ## In-place merging through handles -/

theorem set_get_self {α : Type} (l : List α) (p : Nat) (hp : p < l.length) :
    l.set p (l.get ⟨p, hp⟩) = l := by
  apply List.ext_getElem?
  intro i
  rw [List.getElem?_set]
  split
  · rename_i h
    subst h
    simp [hp]
  · rfl

theorem load_eq (mem : List Heistogram) (p : Nat) (hp : p < mem.length) :
    load mem p = .ok (mem.get ⟨p, hp⟩) := by
  simp [load, List.getElem?_eq_getElem hp]

theorem load_lt (mem : List Heistogram) (p : Nat) (h : Heistogram) (e : load mem p = .ok h) :
    p < mem.length := by
  unfold load at e
  by_contra hc
  rw [List.get?_eq_none.mpr (by omega)] at e
  exact absurd e (by simp)

theorem load_set_same (mem : List Heistogram) (p : Nat) (h : Heistogram) (hp : p < mem.length) :
    load (mem.set p h) p = .ok h := by
  simp [load, hp]

theorem load_set_other (mem : List Heistogram) (p q : Nat) (h : Heistogram) (hq : q ≠ p) :
    load (mem.set p h) q = load mem q := by
  simp [load, List.getElem?_set, Ne.symm hq]

theorem store_eq (mem : List Heistogram) (p : Nat) (h : Heistogram) (hp : p < mem.length) :
    store mem p h = .ok (mem.set p h) := by
  simp [store, hp]

theorem store_set (mem : List Heistogram) (p : Nat) (h g : Heistogram) (hp : p < mem.length) :
    store (mem.set p h) p g = .ok (mem.set p g) := by
  rw [store_eq _ _ _ (by simpa using hp), List.set_set]

/-- The counter loop on handles adds to the counters of `h1` what the loop on
values adds: the counters `src` of `h2` for distinct handles, its own counters
`dst` for equal handles. -/
theorem add_counts_at_eq (mem : List Heistogram) (p1 p2 : Nat) (h1 : Heistogram)
    (src : List Nat) (e1 : load mem p1 = .ok h1)
    (e2 : (p1 ≠ p2 ∧ ∃ h2, load mem p2 = .ok h2 ∧ h2.buckets = src)
      ∨ (p1 = p2 ∧ src = h1.buckets))
    (n : Nat) (hd : n ≤ h1.buckets.length) (hs : n ≤ src.length) :
    ∃ b, add_counts h1.buckets src n = .ok b
      ∧ add_counts_at p1 p2 n mem = .ok (mem.set p1 { h1 with buckets := b }) := by
  have hp := load_lt mem p1 h1 e1
  induction n with
  | zero =>
    refine ⟨h1.buckets, rfl, ?_⟩
    show Except.ok mem = _
    have : mem.set p1 { h1 with buckets := h1.buckets } = mem := by
      have hg : mem.get ⟨p1, hp⟩ = h1 := by
        have := load_eq mem p1 hp
        rw [e1] at this
        exact (Except.ok.inj this).symm
      have hh : ({ h1 with buckets := h1.buckets } : Heistogram) = h1 := rfl
      rw [hh, ← hg]
      exact set_get_self mem p1 hp
    rw [this]
  | succ n ih =>
    obtain ⟨b, eb, ea⟩ := ih (by omega) (by omega)
    obtain ⟨r, er, hl, hg⟩ := add_counts_eq h1.buckets src n (by omega) (by omega)
    rw [eb] at er
    have hbr := Except.ok.inj er
    subst hbr
    have hsrc : ∃ h2, load (mem.set p1 { h1 with buckets := b }) p2 = .ok h2
        ∧ h2.buckets.getD n 0 = src.getD n 0 ∧ n < h2.buckets.length := by
      rcases e2 with ⟨hne, h2, l2, s2⟩ | ⟨heq, s2⟩
      · refine ⟨h2, ?_, by rw [s2], by rw [s2]; omega⟩
        rw [load_set_other _ _ _ _ (Ne.symm hne), l2]
      · refine ⟨{ h1 with buckets := b }, ?_, ?_, by show n < b.length; omega⟩
        · rw [← heq]; exact load_set_same mem p1 _ hp
        · show b.getD n 0 = src.getD n 0
          rw [hg, if_neg (by omega), s2]
    obtain ⟨h2, l2, g2, n2⟩ := hsrc
    refine ⟨b.set n ((b.getD n 0 + src.getD n 0) % U64), ?_, ?_⟩
    · simp only [add_counts, bind, Except.bind, eb]
      rw [read_bucket_eq _ _ (by omega)]
      dsimp only
      rw [read_bucket_eq _ _ (by omega)]
      dsimp only
      rw [write_bucket_eq _ _ _ (by omega)]
    · simp only [add_counts_at, bind, Except.bind, ea, l2]
      rw [read_bucket_eq _ _ n2]
      dsimp only
      rw [load_set_same mem p1 _ hp]
      dsimp only
      rw [read_bucket_eq _ _ (by omega)]
      dsimp only
      rw [write_bucket_eq _ _ _ (by omega)]
      dsimp only
      rw [store_eq _ _ _ (by simpa using hp), List.set_set, g2]

/-- On handles, `heistogram_merge_inplace` stores in the histogram of its first
handle the state that the function on values computes from the two histograms
as they were before the call, also when the two handles are equal. -/
theorem heistogram_merge_inplace_at_eq (mem : List Heistogram) (p1 p2 : Nat)
    (a b : Heistogram) (ea : load mem p1 = .ok a) (eb : load mem p2 = .ok b)
    (ha : a.capacity ≤ a.buckets.length) (hb : b.capacity ≤ b.buckets.length) :
    ∃ r, heistogram_merge_inplace a b = .ok r
      ∧ heistogram_merge_inplace_at mem p1 p2 = .ok (mem.set p1 r) := by
  have hp1 := load_lt mem p1 a ea
  obtain ⟨r0, e0, c0, l0, t0, m0, x0, mb0, same, -, -⟩ := resize_result_eq a b.capacity ha
  have hlen1 : p1 < (mem.set p1 r0).length := by simpa using hp1
  by_cases hne : p1 = p2
  · subst hne
    rw [ea] at eb
    have hab := Except.ok.inj eb
    subst hab
    have hr0 : r0 = a := same (le_refl _)
    subst hr0
    obtain ⟨bb, ebb, eat⟩ := add_counts_at_eq (mem.set p1 r0) p1 p1 r0 r0.buckets
      (load_set_same mem p1 r0 hp1) (Or.inr ⟨rfl, rfl⟩) r0.capacity ha ha
    refine ⟨{ r0 with
        buckets := bb
        total_count := (r0.total_count + r0.total_count) % U64
        min := if r0.min < r0.min then r0.min else r0.min
        max := if r0.max > r0.max then r0.max else r0.max
        min_bucket_id := if r0.min_bucket_id < r0.min_bucket_id then r0.min_bucket_id
                         else r0.min_bucket_id }, ?_, ?_⟩
    · simp only [heistogram_merge_inplace, bind, Except.bind, e0, ebb, pure, Except.pure]
    · simp only [heistogram_merge_inplace_at, bind, Except.bind, ea, e0, store_eq _ _ _ hp1,
        load_set_same mem p1 _ hp1, eat, List.set_set]
      simp only [store_set mem p1 _ _ hp1, load_set_same mem p1 _ hp1,
        lt_self_iff_false, if_false, gt_iff_lt]
  · obtain ⟨bb, ebb, eat⟩ := add_counts_at_eq (mem.set p1 r0) p1 p2 r0 b.buckets
      (load_set_same mem p1 r0 hp1)
      (Or.inl ⟨hne, b, by rw [load_set_other _ _ _ _ (Ne.symm hne), eb], rfl⟩)
      b.capacity (by omega) hb
    have hl2 : ∀ h : Heistogram, load (mem.set p1 h) p2 = .ok b := fun h => by
      rw [load_set_other _ _ _ _ (Ne.symm hne), eb]
    refine ⟨{ r0 with
        buckets := bb
        total_count := (r0.total_count + b.total_count) % U64
        min := if b.min < r0.min then b.min else r0.min
        max := if b.max > r0.max then b.max else r0.max
        min_bucket_id := if b.min_bucket_id < r0.min_bucket_id then b.min_bucket_id
                         else r0.min_bucket_id }, ?_, ?_⟩
    · simp only [heistogram_merge_inplace, bind, Except.bind, e0, ebb, pure, Except.pure]
    · simp only [heistogram_merge_inplace_at, bind, Except.bind, ea, eb, e0,
        store_eq _ _ _ hp1, hl2, eat, List.set_set, load_set_same mem p1 _ hp1]
      simp only [store_set mem p1 _ _ hp1, load_set_same mem p1 _ hp1, hl2, gt_iff_lt]

/-- The agreement of `heistogram_merge_inplace` with `heistogram_merge` on
values: the state computed for the first operand has the total count, min,
max, min_bucket_id and bucket counts of the merged histogram. -/
theorem merge_inplace_fields (a b r : Heistogram) (ha : WellFormed a) (hb : WellFormed b)
    (e : heistogram_merge_inplace a b = .ok r) :
    ∃ m, heistogram_merge a b = .ok m
      ∧ r.total_count = m.total_count ∧ r.min = m.min ∧ r.max = m.max
      ∧ r.min_bucket_id = m.min_bucket_id
      ∧ ∀ i, bucket_count r i = bucket_count m i := by
  obtain ⟨m, em, -, -, t, mn, mx, mb, g⟩ := heistogram_merge_eq a b ha.cap_le hb.cap_le
  obtain ⟨r2, er, c, -, t2, mn2, mx2, mb2, g2⟩ :=
    heistogram_merge_inplace_eq a b ha.cap_le hb.cap_le
  rw [e] at er
  have := Except.ok.inj er
  subst this
  refine ⟨m, em, by rw [t, t2], by rw [mn, mn2], by rw [mx, mx2], by rw [mb, mb2], ?_⟩
  intro i
  rw [g, g2]
  split
  · rfl
  · have hz : bucket_count b i = 0 := by
      unfold bucket_count; rw [if_neg (by assumption)]
    have hlt : bucket_count a i < U64 := by
      unfold bucket_count
      split
      · exact getD_lt_of_forall _ ha.counts_lt i
      · decide
    rw [hz, Nat.add_zero, Nat.mod_eq_of_lt hlt]

set_option maxRecDepth 100000 in
/-- C9 as stated fails when both arguments are the same histogram: with the
histogram holding the value 5 once passed as `a` and as `b`,
`heistogram_merge_inplace` returns 1 and leaves in it the value 5 twice, the
state `heistogram_merge(a, a)` returns, so `b` is changed. -/
theorem merge_inplace_same_handle :
    load [single_five] 0 = .ok single_five
    ∧ heistogram_merge_inplace_at [single_five] 0 0 = .ok [double_five]
    ∧ load [double_five] 0 = .ok double_five
    ∧ heistogram_merge single_five single_five = .ok double_five
    ∧ heistogram_count single_five = 1 ∧ heistogram_count double_five = 2
    ∧ bucket_count single_five 5 = 1 ∧ bucket_count double_five 5 = 2
    ∧ load [double_five] 0 ≠ load [single_five] 0 := by
  decide

/-- C9, amended: for all histograms `a` and `b` in memory (values of the C
type), `heistogram_merge_inplace(a, b)` returns 1 and leaves `a` with the same
total count, min, max, min_bucket_id and count in every bucket id as the
histogram returned by `heistogram_merge(a, b)` on the original `a` and `b`;
`b` is unchanged when `a` and `b` are distinct histograms, and no histogram
other than `a` is changed. -/
theorem heistogram_merge_inplace_at_agrees (mem : List Heistogram) (p1 p2 : Nat)
    (a b : Heistogram) (ea : load mem p1 = .ok a) (eb : load mem p2 = .ok b)
    (ha : WellFormed a) (hb : WellFormed b) :
    ∃ mem2 r m, heistogram_merge_inplace_at mem p1 p2 = .ok mem2
      ∧ heistogram_merge a b = .ok m
      ∧ load mem2 p1 = .ok r
      ∧ r.total_count = m.total_count ∧ r.min = m.min ∧ r.max = m.max
      ∧ r.min_bucket_id = m.min_bucket_id
      ∧ (∀ i, bucket_count r i = bucket_count m i)
      ∧ (p1 ≠ p2 → load mem2 p2 = .ok b)
      ∧ ∀ q, q ≠ p1 → load mem2 q = load mem q := by
  have hp1 := load_lt mem p1 a ea
  obtain ⟨r, er, eat⟩ := heistogram_merge_inplace_at_eq mem p1 p2 a b ea eb ha.cap_le hb.cap_le
  obtain ⟨m, em, t, mn, mx, mb, g⟩ := merge_inplace_fields a b r ha hb er
  refine ⟨mem.set p1 r, r, m, eat, em, load_set_same mem p1 r hp1, t, mn, mx, mb, g,
    fun hne => ?_, fun q hq => load_set_other mem p1 q r hq⟩
  rw [load_set_other mem p1 p2 r (Ne.symm hne), eb]

/-- C9, amended, at a memory holding a fresh histogram and the histogram of
`2^63` copies of 5, merged into the fresh one. -/
theorem heistogram_merge_inplace_at_agrees_witness :
    load [heistogram_create, half_full] 0 = .ok heistogram_create
    ∧ load [heistogram_create, half_full] 1 = .ok half_full
    ∧ WellFormed heistogram_create ∧ WellFormed half_full
    ∧ ∃ mem2 r m, heistogram_merge_inplace_at [heistogram_create, half_full] 0 1 = .ok mem2
      ∧ heistogram_merge heistogram_create half_full = .ok m
      ∧ load mem2 0 = .ok r
      ∧ r.total_count = m.total_count ∧ r.min = m.min ∧ r.max = m.max
      ∧ r.min_bucket_id = m.min_bucket_id
      ∧ (∀ i, bucket_count r i = bucket_count m i)
      ∧ (0 ≠ 1 → load mem2 1 = .ok half_full)
      ∧ ∀ q, q ≠ 0 → load mem2 q = load [heistogram_create, half_full] q :=
  ⟨rfl, rfl, ⟨by decide, by decide⟩, ⟨by decide, by decide⟩,
    heistogram_merge_inplace_at_agrees [heistogram_create, half_full] 0 1 heistogram_create
      half_full rfl rfl ⟨by decide, by decide⟩ ⟨by decide, by decide⟩⟩
/-! ## Histograms without a non-zero bucket -/

set_option maxRecDepth 100000 in
/-- The histogram `wrapped_ones`, which `2^64` insertions of the value 1 build,
is also what 64 rounds of `h = heistogram_merge(h, h)` return, started from the
histogram holding the value 1 once; 63 rounds started from the histogram
holding the value 5 once return `half_full`. -/
theorem self_merges_wrapped_ones :
    build exactEnv [1] = .ok single_one
    ∧ self_merges 64 single_one = .ok wrapped_ones
    ∧ build exactEnv [5] = .ok single_five
    ∧ self_merges 63 single_five = .ok half_full := by
  refine ⟨by decide!, by decide!, by decide!, by decide!⟩

end Heist
